import Mathlib

/-!
Verification of the transform layer of `thunkd.py` (Thunkable download tool):
`delete_path_if_exists`, `to_clean_project` (clean), `to_modular_project`
(split) and `from_modular_project` (merge).

Documents are modelled as JSON-like trees (`JVal`).  Python dictionaries are
insertion-ordered association lists with unique keys; the dictionary
operations below (`dictInsert`, `dictRemove`, `jlookup`) implement Python's
in-place update / delete / lookup on that representation.  Python exceptions
(`KeyError`, `TypeError`, `IndexError`) and the `exit(1)` calls of
`thunkd.py` are modelled by the `Err` error monad: the original functions
either return a value or abort, exactly as `Except` does.
-/

/-- A JSON-like value: the document trees `thunkd.py` operates on. -/
inductive JVal where
  | null : JVal
  | bool : Bool → JVal
  | num : Int → JVal
  | str : String → JVal
  | arr : List JVal → JVal
  | obj : List (String × JVal) → JVal
deriving Repr

mutual

/-- Structural boolean equality on `JVal`. -/
def JVal.beq : JVal → JVal → Bool
  | .null, .null => true
  | .bool a, .bool b => a == b
  | .num a, .num b => a == b
  | .str a, .str b => a == b
  | .arr a, .arr b => JVal.beqList a b
  | .obj a, .obj b => JVal.beqEntries a b
  | _, _ => false

/-- Structural boolean equality on lists of `JVal`. -/
def JVal.beqList : List JVal → List JVal → Bool
  | [], [] => true
  | a :: as, b :: bs => JVal.beq a b && JVal.beqList as bs
  | _, _ => false

/-- Structural boolean equality on association lists of `JVal`. -/
def JVal.beqEntries : List (String × JVal) → List (String × JVal) → Bool
  | [], [] => true
  | (k, v) :: as, (k', v') :: bs => k == k' && JVal.beq v v' && JVal.beqEntries as bs
  | _, _ => false

end

mutual

theorem JVal.beq_iff : ∀ a b : JVal, JVal.beq a b = true ↔ a = b
  | .null, .null => by simp [JVal.beq]
  | .bool a, .bool b => by simp [JVal.beq]
  | .num a, .num b => by simp [JVal.beq]
  | .str a, .str b => by simp [JVal.beq]
  | .arr a, .arr b => by
    simp only [JVal.beq, JVal.beqList_iff a b, JVal.arr.injEq]
  | .obj a, .obj b => by
    simp only [JVal.beq, JVal.beqEntries_iff a b, JVal.obj.injEq]
  | .null, .bool _ | .null, .num _ | .null, .str _ | .null, .arr _ | .null, .obj _
  | .bool _, .null | .bool _, .num _ | .bool _, .str _ | .bool _, .arr _ | .bool _, .obj _
  | .num _, .null | .num _, .bool _ | .num _, .str _ | .num _, .arr _ | .num _, .obj _
  | .str _, .null | .str _, .bool _ | .str _, .num _ | .str _, .arr _ | .str _, .obj _
  | .arr _, .null | .arr _, .bool _ | .arr _, .num _ | .arr _, .str _ | .arr _, .obj _
  | .obj _, .null | .obj _, .bool _ | .obj _, .num _ | .obj _, .str _ | .obj _, .arr _ => by
    simp [JVal.beq]

theorem JVal.beqList_iff : ∀ a b : List JVal, JVal.beqList a b = true ↔ a = b
  | [], [] => by simp [JVal.beqList]
  | a :: as, b :: bs => by
    simp only [JVal.beqList, Bool.and_eq_true, JVal.beq_iff a b,
      JVal.beqList_iff as bs, List.cons.injEq]
  | [], _ :: _ => by simp [JVal.beqList]
  | _ :: _, [] => by simp [JVal.beqList]

theorem JVal.beqEntries_iff :
    ∀ a b : List (String × JVal), JVal.beqEntries a b = true ↔ a = b
  | [], [] => by simp [JVal.beqEntries]
  | (k, v) :: as, (k', v') :: bs => by
    simp only [JVal.beqEntries, Bool.and_eq_true, beq_iff_eq, JVal.beq_iff v v',
      JVal.beqEntries_iff as bs, List.cons.injEq, Prod.mk.injEq, and_assoc]
  | [], _ :: _ => by simp [JVal.beqEntries]
  | _ :: _, [] => by simp [JVal.beqEntries]

end

instance : DecidableEq JVal := fun a b =>
  decidable_of_iff (JVal.beq a b = true) (JVal.beq_iff a b)

/-- Abort conditions of the transform layer: Python exceptions
(`KeyError`/`TypeError`/`IndexError` collapse to `lookupError` /
`indexError`) and the explicit `exit(1)` calls. -/
inductive Err where
  | lookupError : Err
  | indexError : Err
  | nameError : Err
  | unexpectedJson : Err
  | invalidFileType : Err
deriving Repr, DecidableEq

/-- First value bound to key `k` in an association list (Python dict lookup). -/
def jlookup : List (String × JVal) → String → Option JVal
  | [], _ => none
  | (k', v) :: rest, k => if k' = k then some v else jlookup rest k

/-- Python dict assignment `d[k] = v`: update the existing key in place
(keeping its position) or append a new entry. -/
def dictInsert : List (String × JVal) → String → JVal → List (String × JVal)
  | [], k, v => [(k, v)]
  | (k', w) :: rest, k, v =>
    if k' = k then (k, v) :: rest else (k', w) :: dictInsert rest k v

/-- Python dict deletion `del d[k]`: remove the entry with key `k`. -/
def dictRemove : List (String × JVal) → String → List (String × JVal)
  | [], _ => []
  | (k', w) :: rest, k => if k' = k then rest else (k', w) :: dictRemove rest k

/-- Python subscript `v[k]` with a string key: succeeds only on a dict that
contains the key (`KeyError` on a dict without it, `TypeError` on any
non-dict). -/
def jindex (v : JVal) (k : String) : Except Err JVal :=
  match v with
  | .obj es =>
    match jlookup es k with
    | some w => .ok w
    | none => .error .lookupError
  | _ => .error .lookupError

/-- Whether the character list `pat` occurs as a prefix of `cs`. -/
def charListPrefix : List Char → List Char → Bool
  | [], _ => true
  | _ :: _, [] => false
  | a :: as, b :: bs => decide (a = b) && charListPrefix as bs

/-- Whether the character list `pat` occurs contiguously inside `cs`. -/
def charListInfix (pat : List Char) : List Char → Bool
  | [] => charListPrefix pat []
  | c :: cs => charListPrefix pat (c :: cs) || charListInfix pat cs

/-- Python substring test `pat in s` for strings. -/
def strContainsSub (s pat : String) : Bool :=
  charListInfix pat.toList s.toList

/-- Python membership `k in v`: key test on dicts, element test on lists,
substring test on strings, `TypeError` otherwise. -/
def jcontains (v : JVal) (k : String) : Except Err Bool :=
  match v with
  | .obj es => .ok (es.any (fun p => decide (p.1 = k)))
  | .arr es => .ok (es.any (fun e => decide (e = JVal.str k)))
  | .str s => .ok (strContainsSub s k)
  | _ => .error .lookupError

/-- Python iteration `for x in v`: elements of a list, keys of a dict,
one-character strings of a string, `TypeError` otherwise. -/
def iterableElems : JVal → Except Err (List JVal)
  | .arr l => .ok l
  | .obj es => .ok (es.map (fun p => JVal.str p.1))
  | .str s => .ok (s.toList.map (fun c => JVal.str (String.mk [c])))
  | _ => .error .lookupError

/-- In-place update of key `k` of a dict value; non-dicts are returned
unchanged (used only where the value is known to be a dict). -/
def jsetObj (v : JVal) (k : String) (w : JVal) : JVal :=
  match v with
  | .obj es => .obj (dictInsert es k w)
  | _ => v

/-- `delete_path_if_exists` of `thunkd.py`: walk `d` by successive key
lookups and delete the final key; a silent no-op as soon as the current
node is not a dict or the next key is absent. -/
def delete_path_if_exists : JVal → List String → JVal
  | d, [] => d
  | .obj es, [k] =>
    match jlookup es k with
    | some _ => .obj (dictRemove es k)
    | none => .obj es
  | .obj es, k :: k2 :: rest =>
    match jlookup es k with
    | some w => .obj (dictInsert es k (delete_path_if_exists w (k2 :: rest)))
    | none => .obj es
  | d, _ :: _ => d

/-- Whether the whole `path` exists in `d` through nested dicts: the guard
under which `delete_path_if_exists` actually deletes. -/
def pathExists : JVal → List String → Bool
  | _, [] => false
  | .obj es, [k] => (jlookup es k).isSome
  | .obj es, k :: k2 :: rest =>
    match jlookup es k with
    | some w => pathExists w (k2 :: rest)
    | none => false
  | _, _ :: _ => false

/-- Resolve a key path through nested dicts. -/
def getPath : JVal → List String → Option JVal
  | v, [] => some v
  | .obj es, k :: rest =>
    match jlookup es k with
    | some w => getPath w rest
    | none => none
  | _, _ :: _ => none

/-- Replace the value at the end of a key path through nested dicts (the
path is assumed to exist; otherwise the tree is returned unchanged). -/
def setPath : JVal → List String → JVal → JVal
  | _, [], w => w
  | .obj es, k :: rest, w =>
    match jlookup es k with
    | some v => .obj (dictInsert es k (setPath v rest w))
    | none => .obj es
  | v, _ :: _, _ => v

/-- The fixed redaction path list of `to_clean_project`, verbatim including
the duplicated `data.project.shares` entry. -/
def dirtyPathsFixed : List (List String) :=
  [ ["data", "user"],
    ["data", "project", "id"],
    ["data", "project", "blocklyStringLength"],
    ["data", "project", "componentStringLength"],
    ["data", "project", "createdAt"],
    ["data", "project", "email"],
    ["data", "project", "hash"],
    ["data", "project", "isArchiveProjectFileUsed"],
    ["data", "project", "isHiddenFromPublicGallery"],
    ["data", "project", "isLegacy"],
    ["data", "project", "isOwner"],
    ["data", "project", "isPublic"],
    ["data", "project", "isQRCodeScanned"],
    ["data", "project", "isLiveTesting"],
    ["data", "project", "settings", "packageName"],
    ["data", "project", "projectSettings", "packageName"],
    ["data", "project", "storageSize"],
    ["data", "project", "webAppSettings"],
    ["data", "project", "webCompanionSettings"],
    ["data", "project", "frontendProperties"],
    ["data", "project", "appId"],
    ["data", "project", "readOnly"],
    ["data", "project", "shares"],
    ["data", "project", "versions"],
    ["data", "project", "shares"],
    ["data", "project", "projectSnapshotsMetaData"],
    ["data", "project", "projectSnapshotParentId"],
    ["data", "project", "projectSnapshotParent"],
    ["data", "project", "updatedAt"],
    ["data", "project", "username"] ]

/-- The dynamic redaction paths contributed by one `blockly` entry: one per
`code` / `appVariableDefCode` membership test that succeeds (Python `in`,
so a substring test when the entry is a string). -/
def dynPathsEntry (k : String) (e : JVal) : Except Err (List (List String)) := do
  let hasCode ← jcontains e "code"
  let hasAvdc ← jcontains e "appVariableDefCode"
  .ok ((if hasCode then [["data", "project", "blockly", k, "code"]] else [])
    ++ (if hasAvdc then [["data", "project", "blockly", k, "appVariableDefCode"]] else []))

/-- All dynamic redaction paths of a `blockly` dict, in key order. -/
def dynPathsEntries : List (String × JVal) → Except Err (List (List String))
  | [] => .ok []
  | (k, e) :: rest => do
    let ps ← dynPathsEntry k e
    let rest' ← dynPathsEntries rest
    .ok (ps ++ rest')

/-- The dynamic-path loop of `to_clean_project` over `blockly`.  Iterating a
non-dict `blockly` aborts in the original unless it is empty (an empty list
or string iterates zero times and the subscripts inside the loop never
run). -/
def dynPathsOfBlockly (blk : JVal) : Except Err (List (List String)) :=
  match blk with
  | .obj es => dynPathsEntries es
  | .arr l => if l = [] then .ok [] else .error .lookupError
  | .str s => if s = "" then .ok [] else .error .lookupError
  | _ => .error .lookupError

/-- `to_clean_project` of `thunkd.py`: the `data → project → blockly` spine
is demanded by the original subscripts, then the fixed and dynamic
redaction paths are deleted in order. -/
def toCleanProject (project : JVal) : Except Err JVal := do
  let d ← jindex project "data"
  let ip ← jindex d "project"
  let blk ← jindex ip "blockly"
  let dyn ← dynPathsOfBlockly blk
  .ok ((dirtyPathsFixed ++ dyn).foldl (fun acc p => delete_path_if_exists acc p) project)

/-- The allowed screen-name characters of `to_modular_project`'s validation
regex `[^\w\- ]+` (ASCII reading of `\w`). -/
def isScreenNameChar (c : Char) : Bool :=
  c.isAlphanum || c == '_' || c == '-' || c == ' '

/-- Python `f"..."` formatting of a screen id.  List- or dict-valued ids are
formatted by `repr` in the original but abort moments later as unhashable
keys of `screen_id_to_name`; both are collapsed to the error here. -/
def pyFStr : JVal → Except Err String
  | .str s => .ok s
  | .num n => .ok (toString n)
  | .bool true => .ok "True"
  | .bool false => .ok "False"
  | .null => .ok "None"
  | _ => .error .lookupError

/-- The per-screen step of `to_modular_project`: look up `name` and `id`,
validate the name (the regex demands a string), and build the
`"<name>.<id>.json"` file name. -/
def processScreenMeta (screen : JVal) : Except Err (String × JVal × String) := do
  let nameV ← jindex screen "name"
  let idv ← jindex screen "id"
  match nameV with
  | .str name =>
    if name.toList.any (fun c => ! isScreenNameChar c) then
      .error .nameError
    else do
      let idS ← pyFStr idv
      .ok (name ++ "." ++ idS ++ ".json", idv, name)
  | _ => .error .lookupError

/-- The stub `{"id": <id>}` that replaces an extracted screen. -/
def stubOf (idv : JVal) : JVal := .obj [("id", idv)]

/-- Assignment into the `screen_id_to_name` dict (ids are arbitrary hashable
values, so keys are `JVal`s). -/
def jdictInsert : List (JVal × String) → JVal → String → List (JVal × String)
  | [], k, v => [(k, v)]
  | (k', w) :: rest, k, v =>
    if k' = k then (k, v) :: rest else (k', w) :: jdictInsert rest k v

/-- Lookup in the `screen_id_to_name` dict. -/
def jdictGet : List (JVal × String) → JVal → Option String
  | [], _ => none
  | (k', v) :: rest, k => if k' = k then some v else jdictGet rest k

/-- The screen-list flattening loop of `to_modular_project`: a node whose
`type` contains "Navigator" is spliced open one level, any other node is
kept. -/
def flattenSplit : List JVal → Except Err (List JVal)
  | [] => .ok []
  | node :: rest => do
    let t ← jindex node "type"
    let isNav ← jcontains t "Navigator"
    if isNav then do
      let cs ← jindex node "children"
      let elems ← iterableElems cs
      let rest' ← flattenSplit rest
      .ok (elems ++ rest')
    else do
      let rest' ← flattenSplit rest
      .ok (node :: rest')

/-- The screens loop of `to_modular_project` over the flattened screen list:
emit one `.json` file per screen and record its stub and its id→name
binding, threading the `screen_id_to_name` dict left to right. -/
def screensPhase : List JVal → List (JVal × String) →
    Except Err (List (String × JVal) × List JVal × List (JVal × String))
  | [], m => .ok ([], [], m)
  | s :: rest, m => do
    let r ← processScreenMeta s
    let rest' ← screensPhase rest (jdictInsert m r.2.1 r.2.2)
    .ok ((r.1, s) :: rest'.1, stubOf r.2.1 :: rest'.2.1, rest'.2.2)

/-- Re-insert the stubs produced by `screensPhase` at the tree positions the
original in-place `screen.clear()` mutated: top-level screens are replaced
by their stub, a navigator keeps its node with its `children` replaced by
the corresponding stubs. -/
def restubChildren : List JVal → List JVal → Except Err (List JVal)
  | [], _ => .ok []
  | node :: rest, stubs => do
    let t ← jindex node "type"
    let isNav ← jcontains t "Navigator"
    if isNav then do
      let cs ← jindex node "children"
      let elems ← iterableElems cs
      let node' :=
        match cs with
        | .arr _ => jsetObj node "children" (JVal.arr (stubs.take elems.length))
        | _ => node
      let rest' ← restubChildren rest (stubs.drop elems.length)
      .ok (node' :: rest')
    else
      match stubs with
      | stub :: more => do
        let rest' ← restubChildren rest more
        .ok (stub :: rest')
      | [] => .error .lookupError

/-- The blocks-extraction loop of `to_modular_project` over the `blockly`
dict: an entry that passes the `"xml" in entry` test and whose id has a
name emits `"<name>.<id>.xml"` and is blanked; an entry whose id has no
screen is skipped (and kept as is); entries without `xml` are kept. -/
def blocklyPhase : List (String × JVal) → List (JVal × String) →
    Except Err (List (String × JVal) × List (String × JVal))
  | [], _ => .ok ([], [])
  | (k, e) :: rest, m => do
    let hasXml ← jcontains e "xml"
    if hasXml then
      if (jdictGet m (JVal.str k)).isSome then do
        let name := (jdictGet m (JVal.str k)).getD ""
        let xmlv ← jindex e "xml"
        let e' := jsetObj e "xml" (JVal.str "")
        let rest' ← blocklyPhase rest m
        .ok ((name ++ "." ++ k ++ ".xml", xmlv) :: rest'.1, (k, e') :: rest'.2)
      else do
        let rest' ← blocklyPhase rest m
        .ok (rest'.1, (k, e) :: rest'.2)
    else do
      let rest' ← blocklyPhase rest m
      .ok (rest'.1, (k, e) :: rest'.2)

/-- Insert a list of (file name, content) pairs into a modular-project dict
in order (Python dict assignment per pair). -/
def dictInsertAll (base : List (String × JVal)) (l : List (String × JVal)) :
    List (String × JVal) :=
  l.foldl (fun acc p => dictInsert acc p.1 p.2) base

/-- Lookup of key `k` when `v` is a dict, `none` otherwise. -/
def jget (v : JVal) (k : String) : Option JVal :=
  match v with
  | .obj es => jlookup es k
  | _ => none

/-- `to_modular_project` of `thunkd.py` (split).  A non-list
`components.children` or `blockly` value is kept faithful to the original
iteration semantics through `iterableElems` and the empty-collection
cases. -/
def toModularProject (project : JVal) : Except Err (List (String × JVal)) := do
  let dataV ← jindex project "data"
  let ip ← jindex dataV "project"
  let comps ← jindex ip "components"
  let childrenV ← jindex comps "children"
  let children ← iterableElems childrenV
  let screens ← flattenSplit children
  let sp ← screensPhase screens []
  let newChildren ← restubChildren children sp.2.1
  let newChildrenV :=
    match childrenV with
    | .arr _ => JVal.arr newChildren
    | _ => childrenV
  let blkV ← jindex ip "blockly"
  let blkRes ←
    match blkV with
    | .obj es => (blocklyPhase es sp.2.2).map (fun r => (r.1, JVal.obj r.2))
    | .arr [] => .ok ([], blkV)
    | .str "" => .ok ([], blkV)
    | _ => .error .lookupError
  let comps' := jsetObj comps "children" newChildrenV
  let ip' := jsetObj (jsetObj ip "components" comps') "blockly" blkRes.2
  let dataV' := jsetObj dataV "project" ip'
  let project' := jsetObj project "data" dataV'
  .ok (dictInsert (dictInsertAll (dictInsertAll [] sp.1) blkRes.1) "meta.json" project')

/-- Split a character list at the last `'.'`: `some (before, after)` with
the list equal to `before ++ '.' :: after` and `after` dot-free. -/
def lastDotSplit : List Char → Option (List Char × List Char)
  | [] => none
  | c :: cs =>
    match lastDotSplit cs with
    | some r => some (c :: r.1, r.2)
    | none => if c == '.' then some ([], cs) else none

/-- `pathlib.Path(s).stem` and `.suffix` for a plain file name (no path
separators, which never occur in the names this tool builds): the suffix is
nonempty exactly when the last dot is neither the first nor the last
character. -/
def pyNameSplit (s : String) : String × String :=
  match lastDotSplit s.toList with
  | some (b, a) =>
    if b ≠ [] ∧ a ≠ [] then (String.mk b, String.mk ('.' :: a)) else (s, "")
  | none => (s, "")

/-- `pathlib.Path(s).stem`. -/
def pyStem (s : String) : String := (pyNameSplit s).1

/-- `pathlib.Path(s).suffix`. -/
def pySuffix (s : String) : String := (pyNameSplit s).2

/-- Python `str.split('.')` on character lists. -/
def splitDots : List Char → List (List Char)
  | [] => [[]]
  | c :: rest =>
    match splitDots rest with
    | [] => [[]]
    | h :: t => if c == '.' then [] :: h :: t else (c :: h) :: t

/-- One slot of the flattened screen list rebuilt by `from_modular_project`:
either a node kept as a screen, or a navigator node whose `children`
contribute the next `count` screens. -/
inductive Slot where
  | single : Slot
  | nav : JVal → Nat → Slot

/-- The screen-list flattening loop of `from_modular_project`: unlike the
split side it splices a node only when it has a `name` key AND its `type`
contains "Navigator" (id stubs have no `name`, so they are kept without
their absent `type` being read). -/
def flattenMerge : List JVal → Except Err (List Slot × List JVal)
  | [] => .ok ([], [])
  | node :: rest => do
    let hasName ← jcontains node "name"
    let isNav ←
      if hasName then do
        let t ← jindex node "type"
        jcontains t "Navigator"
      else
        Except.ok false
    if isNav then do
      let cs ← jindex node "children"
      let elems ← iterableElems cs
      let rest' ← flattenMerge rest
      .ok (Slot.nav node elems.length :: rest'.1, elems ++ rest'.2)
    else do
      let rest' ← flattenMerge rest
      .ok (Slot.single :: rest'.1, node :: rest'.2)

/-- Python `dict.update` of `upd` into `base`: overwrite existing keys in
place, append new ones, in `upd`'s order. -/
def dictUpdateList (base upd : List (String × JVal)) : List (String × JVal) :=
  upd.foldl (fun acc p => dictInsert acc p.1 p.2) base

/-- `screen.update(data)` of `from_modular_project`.  A non-dict `data`
(or a non-dict target) raises in the original; a list-of-pairs `data`,
which this tool's own files never produce, is collapsed to the same
error. -/
def pyUpdate (target data : JVal) : Except Err JVal :=
  match target, data with
  | .obj bs, .obj us => .ok (.obj (dictUpdateList bs us))
  | _, _ => .error .lookupError

/-- The `.json` branch of `from_modular_project`'s file loop: scan the
flattened screens for the first whose `id` equals the file's id segment
(fatal "unexpected JSON file" when none matches) and update it in place. -/
def updateFirstMatch (seg : String) (data : JVal) : List JVal → Except Err (List JVal)
  | [] => .error .unexpectedJson
  | s :: rest => do
    let idv ← jindex s "id"
    if idv = JVal.str seg then do
      let s' ← pyUpdate s data
      .ok (s' :: rest)
    else do
      let rest' ← updateFirstMatch seg data rest
      .ok (s :: rest')

/-- One iteration of `from_modular_project`'s file loop over the state
(current flattened screens, current `blockly` value if the key exists). -/
def processFile (st : List JVal × Option JVal) (fname : String) (data : JVal) :
    Except Err (List JVal × Option JVal) :=
  if pySuffix fname = ".json" then do
    let seg := String.mk ((splitDots (pyStem fname).toList).getLastD [])
    let screens' ← updateFirstMatch seg data st.1
    .ok (screens', st.2)
  else if pySuffix fname = ".xml" then do
    let seg ←
      match (splitDots (pyStem fname).toList).get? 1 with
      | some cs => Except.ok (String.mk cs)
      | none => Except.error Err.indexError
    match st.2 with
    | none => .error .lookupError
    | some blk => do
      let e ← jindex blk seg
      match e with
      | .obj ees =>
        .ok (st.1, some (jsetObj blk seg (JVal.obj (dictInsert ees "xml" data))))
      | _ => .error .lookupError
  else .error .invalidFileType

/-- Put the final screen values back at the positions the in-place updates
of the original mutated: one value per kept node, the next `count` values
into a navigator's `children`. -/
def rebuildSlots : List Slot → List JVal → List JVal
  | [], _ => []
  | Slot.single :: slots, s :: ss => s :: rebuildSlots slots ss
  | Slot.single :: slots, [] => rebuildSlots slots []
  | Slot.nav node k :: slots, ss =>
    let node' :=
      match jindex node "children" with
      | .ok (.arr _) => jsetObj node "children" (JVal.arr (ss.take k))
      | _ => node
    node' :: rebuildSlots slots (ss.drop k)

/-- `from_modular_project` of `thunkd.py` (merge). -/
def fromModularProject (files : List (String × JVal)) : Except Err JVal := do
  let project ←
    match jlookup files "meta.json" with
    | some p => Except.ok p
    | none => Except.error Err.lookupError
  let rest := dictRemove files "meta.json"
  let dataV ← jindex project "data"
  let ip ← jindex dataV "project"
  let comps ← jindex ip "components"
  let childrenV ← jindex comps "children"
  let children ← iterableElems childrenV
  let fm ← flattenMerge children
  let st ← rest.foldlM (fun st (p : String × JVal) => processFile st p.1 p.2)
    (fm.2, jget ip "blockly")
  let newChildren := rebuildSlots fm.1 st.1
  let newChildrenV :=
    match childrenV with
    | .arr _ => JVal.arr newChildren
    | _ => childrenV
  let comps' := jsetObj comps "children" newChildrenV
  let ip' :=
    match st.2 with
    | some blk => jsetObj (jsetObj ip "components" comps') "blockly" blk
    | none => jsetObj ip "components" comps'
  let dataV' := jsetObj dataV "project" ip'
  .ok (jsetObj project "data" dataV')

/-- Whether an association list has an entry with key `k`. -/
def hasKeyB (es : List (String × JVal)) (k : String) : Bool :=
  es.any (fun p => decide (p.1 = k))

mutual

/-- Python `==` on documents: dict comparison is key-based and ignores
insertion order, list comparison is positional. -/
def pyEq : JVal → JVal → Bool
  | .null, .null => true
  | .bool a, .bool b => a == b
  | .num a, .num b => a == b
  | .str a, .str b => a == b
  | .arr a, .arr b => pyEqList a b
  | .obj a, .obj b => pyEqSub a b && b.all (fun q => hasKeyB a q.1)
  | _, _ => false

/-- Positional Python `==` on lists of documents. -/
def pyEqList : List JVal → List JVal → Bool
  | [], [] => true
  | a :: as, b :: bs => pyEq a b && pyEqList as bs
  | _, _ => false

/-- Every entry of the first association list is matched by an entry of the
second with the same key and a Python-equal value. -/
def pyEqSub : List (String × JVal) → List (String × JVal) → Bool
  | [], _ => true
  | (k, v) :: rest, b =>
    (match jlookup b k with
      | some w => pyEq v w
      | none => false) && pyEqSub rest b

end

/-- Keys of an association list are pairwise distinct (always true of a
Python dict). -/
def nodupKeysB : List (String × JVal) → Bool
  | [] => true
  | (k, _) :: rest => !(hasKeyB rest k) && nodupKeysB rest

mutual

/-- Deep well-formedness of a document: every dict in it has pairwise
distinct keys.  Holds of every value Python can build. -/
def deepWF : JVal → Bool
  | .obj es => nodupKeysB es && deepWFEntries es
  | .arr l => deepWFList l
  | _ => true

/-- `deepWF` on each element of a list. -/
def deepWFList : List JVal → Bool
  | [] => true
  | v :: rest => deepWF v && deepWFList rest

/-- `deepWF` on each value of an association list. -/
def deepWFEntries : List (String × JVal) → Bool
  | [] => true
  | (_, v) :: rest => deepWF v && deepWFEntries rest

end


/-! ### Association-list lemmas -/

theorem mem_dictInsert {es : List (String × JVal)} {k : String} {v : JVal}
    {q : String × JVal} (h : q ∈ dictInsert es k v) : q.1 = k ∨ q ∈ es := by
  induction es with
  | nil =>
    simp only [dictInsert, List.mem_singleton] at h
    exact Or.inl (by rw [h])
  | cons p rest ih =>
    obtain ⟨k0, w⟩ := p
    by_cases h0 : k0 = k
    · rw [dictInsert, if_pos h0] at h
      rcases List.mem_cons.mp h with h | h
      · exact Or.inl (by rw [h])
      · exact Or.inr (List.mem_cons_of_mem _ h)
    · rw [dictInsert, if_neg h0] at h
      rcases List.mem_cons.mp h with h | h
      · exact Or.inr (h ▸ List.mem_cons_self _ _)
      · rcases ih h with h | h
        · exact Or.inl h
        · exact Or.inr (List.mem_cons_of_mem _ h)

theorem mem_dictRemove {es : List (String × JVal)} {k : String}
    {q : String × JVal} (h : q ∈ dictRemove es k) : q ∈ es := by
  induction es with
  | nil => simp [dictRemove] at h
  | cons p rest ih =>
    obtain ⟨k0, w⟩ := p
    by_cases h0 : k0 = k
    · rw [dictRemove, if_pos h0] at h
      exact List.mem_cons_of_mem _ h
    · rw [dictRemove, if_neg h0] at h
      rcases List.mem_cons.mp h with h | h
      · exact h ▸ List.mem_cons_self _ _
      · exact List.mem_cons_of_mem _ (ih h)

theorem jlookup_dictInsert (es : List (String × JVal)) (k k' : String) (v : JVal) :
    jlookup (dictInsert es k v) k' = if k = k' then some v else jlookup es k' := by
  induction es with
  | nil => simp [dictInsert, jlookup]
  | cons p rest ih =>
    obtain ⟨k0, w⟩ := p
    by_cases h0 : k0 = k
    · subst h0
      by_cases h1 : k0 = k'
      · subst h1
        simp [dictInsert, jlookup]
      · simp [dictInsert, jlookup, h1]
    · by_cases h1 : k0 = k'
      · subst h1
        have h2 : ¬(k = k0) := fun h => h0 h.symm
        simp [dictInsert, jlookup, h0, h2]
      · simp [dictInsert, jlookup, h0, h1, ih]

theorem jlookup_dictRemove_ne (es : List (String × JVal)) (k k' : String)
    (h : k' ≠ k) : jlookup (dictRemove es k) k' = jlookup es k' := by
  induction es with
  | nil => simp [dictRemove]
  | cons p rest ih =>
    obtain ⟨k0, w⟩ := p
    by_cases h0 : k0 = k
    · subst h0
      have h2 : ¬(k0 = k') := fun hh => h hh.symm
      simp [dictRemove, jlookup, h2]
    · by_cases h1 : k0 = k'
      · subst h1
        simp [dictRemove, jlookup, h0]
      · simp [dictRemove, jlookup, h0, h1, ih]

theorem jlookup_eq_none_of_hasKeyB_false {es : List (String × JVal)} {k : String}
    (h : hasKeyB es k = false) : jlookup es k = none := by
  induction es with
  | nil => rfl
  | cons p rest ih =>
    obtain ⟨k0, w⟩ := p
    simp only [hasKeyB, List.any_cons, Bool.or_eq_false_iff,
      decide_eq_false_iff_not] at h
    rw [jlookup, if_neg h.1]
    exact ih (by simp only [hasKeyB]; exact h.2)

theorem jlookup_dictRemove_self (es : List (String × JVal)) (k : String)
    (h : nodupKeysB es = true) : jlookup (dictRemove es k) k = none := by
  induction es with
  | nil => rfl
  | cons p rest ih =>
    obtain ⟨k0, w⟩ := p
    simp only [nodupKeysB, Bool.and_eq_true, Bool.not_eq_true'] at h
    by_cases h0 : k0 = k
    · rw [dictRemove, if_pos h0]
      exact jlookup_eq_none_of_hasKeyB_false (h0 ▸ h.1)
    · rw [dictRemove, if_neg h0, jlookup, if_neg h0]
      exact ih h.2

theorem dictInsert_self (es : List (String × JVal)) (k : String) (v : JVal)
    (h : jlookup es k = some v) : dictInsert es k v = es := by
  induction es with
  | nil => simp [jlookup] at h
  | cons p rest ih =>
    obtain ⟨k0, w⟩ := p
    by_cases h0 : k0 = k
    · subst h0
      rw [jlookup, if_pos rfl] at h
      injection h with h
      simp [dictInsert, h]
    · simp only [jlookup, if_neg h0] at h
      simp [dictInsert, h0, ih h]

theorem jlookup_mem {es : List (String × JVal)} {k : String} {v : JVal}
    (h : jlookup es k = some v) : (k, v) ∈ es := by
  induction es with
  | nil => simp [jlookup] at h
  | cons p rest ih =>
    obtain ⟨k0, w⟩ := p
    by_cases h0 : k0 = k
    · subst h0
      rw [jlookup, if_pos rfl] at h
      injection h with h
      cases h
      exact List.mem_cons_self _ _
    · simp only [jlookup, if_neg h0] at h
      exact List.mem_cons_of_mem _ (ih h)

theorem mem_jlookup {es : List (String × JVal)} {k : String} {v : JVal}
    (hm : (k, v) ∈ es) (h : nodupKeysB es = true) : jlookup es k = some v := by
  induction es with
  | nil => simp at hm
  | cons p rest ih =>
    obtain ⟨k0, w⟩ := p
    simp only [nodupKeysB, Bool.and_eq_true, Bool.not_eq_true'] at h
    rcases List.mem_cons.mp hm with heq | hmem
    · cases heq
      simp [jlookup]
    · have hne : k0 ≠ k := by
        intro hx
        subst hx
        have hk : hasKeyB rest k0 = true := by
          simp only [hasKeyB]
          exact List.any_eq_true.mpr ⟨(k0, v), hmem, by simp⟩
        rw [h.1] at hk
        exact Bool.false_ne_true hk
      simp only [jlookup, if_neg hne]
      exact ih hmem h.2

theorem hasKeyB_dictInsert_false {es : List (String × JVal)} {k k0 : String}
    {v : JVal} (hne : ¬ k = k0) (h : hasKeyB es k0 = false) :
    hasKeyB (dictInsert es k v) k0 = false := by
  simp only [hasKeyB, List.any_eq_false, decide_eq_true_eq] at h ⊢
  intro q hq
  rcases mem_dictInsert hq with h1 | h1
  · intro hc
    exact hne (h1 ▸ hc)
  · exact h q h1

theorem hasKeyB_dictRemove_false {es : List (String × JVal)} {k k0 : String}
    (h : hasKeyB es k0 = false) : hasKeyB (dictRemove es k) k0 = false := by
  simp only [hasKeyB, List.any_eq_false, decide_eq_true_eq] at h ⊢
  intro q hq
  exact h q (mem_dictRemove hq)

theorem nodupKeysB_dictInsert (es : List (String × JVal)) (k : String) (v : JVal)
    (h : nodupKeysB es = true) : nodupKeysB (dictInsert es k v) = true := by
  induction es with
  | nil => simp [dictInsert, nodupKeysB, hasKeyB]
  | cons p rest ih =>
    obtain ⟨k0, w⟩ := p
    simp only [nodupKeysB, Bool.and_eq_true, Bool.not_eq_true'] at h
    by_cases h0 : k0 = k
    · subst h0
      simp only [dictInsert, if_pos rfl, nodupKeysB, Bool.and_eq_true,
        Bool.not_eq_true']
      exact ⟨h.1, h.2⟩
    · simp only [dictInsert, if_neg h0, nodupKeysB, Bool.and_eq_true,
        Bool.not_eq_true']
      exact ⟨hasKeyB_dictInsert_false (fun hh => h0 hh.symm) h.1, ih h.2⟩

theorem nodupKeysB_dictRemove (es : List (String × JVal)) (k : String)
    (h : nodupKeysB es = true) : nodupKeysB (dictRemove es k) = true := by
  induction es with
  | nil => simp [dictRemove, nodupKeysB]
  | cons p rest ih =>
    obtain ⟨k0, w⟩ := p
    simp only [nodupKeysB, Bool.and_eq_true, Bool.not_eq_true'] at h
    by_cases h0 : k0 = k
    · rw [dictRemove, if_pos h0]
      exact h.2
    · simp only [dictRemove, if_neg h0, nodupKeysB, Bool.and_eq_true,
      Bool.not_eq_true']
      exact ⟨hasKeyB_dictRemove_false h.1, ih h.2⟩

/-! ### Deep well-formedness lemmas -/

theorem deepWF_obj {es : List (String × JVal)} :
    deepWF (.obj es) = (nodupKeysB es && deepWFEntries es) := by
  rw [deepWF]

theorem deepWF_arr {l : List JVal} : deepWF (.arr l) = deepWFList l := by
  rw [deepWF]

theorem deepWFEntries_mem {es : List (String × JVal)}
    (h : deepWFEntries es = true) {q : String × JVal} (hq : q ∈ es) :
    deepWF q.2 = true := by
  induction es with
  | nil => simp at hq
  | cons p rest ih =>
    obtain ⟨k0, w⟩ := p
    rw [deepWFEntries, Bool.and_eq_true] at h
    rcases List.mem_cons.mp hq with hq | hq
    · rw [hq]
      exact h.1
    · exact ih h.2 hq

theorem deepWFList_mem {l : List JVal} (h : deepWFList l = true) {v : JVal}
    (hv : v ∈ l) : deepWF v = true := by
  induction l with
  | nil => simp at hv
  | cons x rest ih =>
    rw [deepWFList, Bool.and_eq_true] at h
    rcases List.mem_cons.mp hv with hv | hv
    · exact hv ▸ h.1
    · exact ih h.2 hv

theorem deepWFEntries_dictInsert {es : List (String × JVal)} {k : String}
    {v : JVal} (h : deepWFEntries es = true) (hv : deepWF v = true) :
    deepWFEntries (dictInsert es k v) = true := by
  induction es with
  | nil => simp [dictInsert, deepWFEntries, hv]
  | cons p rest ih =>
    obtain ⟨k0, w⟩ := p
    rw [deepWFEntries, Bool.and_eq_true] at h
    by_cases h0 : k0 = k
    · rw [dictInsert, if_pos h0, deepWFEntries, Bool.and_eq_true]
      exact ⟨hv, h.2⟩
    · rw [dictInsert, if_neg h0, deepWFEntries, Bool.and_eq_true]
      exact ⟨h.1, ih h.2⟩

theorem deepWFEntries_dictRemove {es : List (String × JVal)} {k : String}
    (h : deepWFEntries es = true) : deepWFEntries (dictRemove es k) = true := by
  induction es with
  | nil => simp [dictRemove, deepWFEntries]
  | cons p rest ih =>
    obtain ⟨k0, w⟩ := p
    rw [deepWFEntries, Bool.and_eq_true] at h
    by_cases h0 : k0 = k
    · rw [dictRemove, if_pos h0]
      exact h.2
    · rw [dictRemove, if_neg h0, deepWFEntries, Bool.and_eq_true]
      exact ⟨h.1, ih h.2⟩

theorem deepWF_jlookup {es : List (String × JVal)} {k : String} {v : JVal}
    (h : deepWF (.obj es) = true) (hl : jlookup es k = some v) :
    deepWF v = true := by
  rw [deepWF_obj, Bool.and_eq_true] at h
  exact deepWFEntries_mem h.2 (jlookup_mem hl)

/-! ### `delete_path_if_exists` lemmas -/

theorem delete_not_obj (d : JVal) (p : List String) (h : ∀ es, d ≠ .obj es) :
    delete_path_if_exists d p = d := by
  cases p with
  | nil => simp [delete_path_if_exists]
  | cons k rest =>
    cases d with
    | obj es => exact absurd rfl (h es)
    | null => cases rest <;> simp [delete_path_if_exists]
    | bool b => cases rest <;> simp [delete_path_if_exists]
    | num n => cases rest <;> simp [delete_path_if_exists]
    | str s => cases rest <;> simp [delete_path_if_exists]
    | arr l => cases rest <;> simp [delete_path_if_exists]

theorem delete_obj (es : List (String × JVal)) (p : List String) :
    ∃ es', delete_path_if_exists (.obj es) p = .obj es' := by
  match p with
  | [] => exact ⟨es, by simp [delete_path_if_exists]⟩
  | [k] =>
    cases hl : jlookup es k with
    | some w => exact ⟨dictRemove es k, by simp [delete_path_if_exists, hl]⟩
    | none => exact ⟨es, by simp [delete_path_if_exists, hl]⟩
  | k :: k2 :: rest =>
    cases hl : jlookup es k with
    | some w =>
      exact ⟨dictInsert es k (delete_path_if_exists w (k2 :: rest)),
        by simp [delete_path_if_exists, hl]⟩
    | none => exact ⟨es, by simp [delete_path_if_exists, hl]⟩

theorem delete_noop : ∀ (d : JVal) (p : List String), pathExists d p = false →
    delete_path_if_exists d p = d
  | d, [], _ => by simp [delete_path_if_exists]
  | .obj es, [k], h => by
    cases hl : jlookup es k with
    | some w => simp [pathExists, hl] at h
    | none => simp [delete_path_if_exists, hl]
  | .obj es, k :: k2 :: rest, h => by
    cases hl : jlookup es k with
    | some w =>
      simp only [pathExists, hl] at h
      simp only [delete_path_if_exists, hl]
      rw [delete_noop w (k2 :: rest) h, dictInsert_self es k w hl]
    | none => simp [delete_path_if_exists, hl]
  | .null, _ :: _, _ => by simp [delete_path_if_exists]
  | .bool _, _ :: _, _ => by simp [delete_path_if_exists]
  | .num _, _ :: _, _ => by simp [delete_path_if_exists]
  | .str _, _ :: _, _ => by simp [delete_path_if_exists]
  | .arr _, _ :: _, _ => by simp [delete_path_if_exists]

theorem deepWF_delete : ∀ (d : JVal) (p : List String), deepWF d = true →
    deepWF (delete_path_if_exists d p) = true
  | d, [], h => by simpa [delete_path_if_exists] using h
  | .obj es, [k], h => by
    cases hl : jlookup es k with
    | some w =>
      simp only [delete_path_if_exists, hl]
      rw [deepWF_obj, Bool.and_eq_true] at h ⊢
      exact ⟨nodupKeysB_dictRemove es k h.1, deepWFEntries_dictRemove h.2⟩
    | none => simpa [delete_path_if_exists, hl] using h
  | .obj es, k :: k2 :: rest, h => by
    cases hl : jlookup es k with
    | some w =>
      simp only [delete_path_if_exists, hl]
      have hw' := deepWF_delete w (k2 :: rest) (deepWF_jlookup h hl)
      rw [deepWF_obj, Bool.and_eq_true] at h ⊢
      exact ⟨nodupKeysB_dictInsert es k _ h.1, deepWFEntries_dictInsert h.2 hw'⟩
    | none => simpa [delete_path_if_exists, hl] using h
  | .null, _ :: _, h => by simpa [delete_path_if_exists] using h
  | .bool _, _ :: _, h => by simpa [delete_path_if_exists] using h
  | .num _, _ :: _, h => by simpa [delete_path_if_exists] using h
  | .str _, _ :: _, h => by simpa [delete_path_if_exists] using h
  | .arr _, _ :: _, h => by simpa [delete_path_if_exists] using h

theorem pathExists_delete_self : ∀ (d : JVal) (p : List String),
    deepWF d = true → pathExists (delete_path_if_exists d p) p = false
  | _, [], _ => by simp [delete_path_if_exists, pathExists]
  | .obj es, [k], h => by
    cases hl : jlookup es k with
    | some w =>
      rw [deepWF_obj, Bool.and_eq_true] at h
      simp [delete_path_if_exists, hl, pathExists,
        jlookup_dictRemove_self es k h.1]
    | none => simp [delete_path_if_exists, hl, pathExists]
  | .obj es, k :: k2 :: rest, h => by
    cases hl : jlookup es k with
    | some w =>
      have hrec := pathExists_delete_self w (k2 :: rest) (deepWF_jlookup h hl)
      simp [delete_path_if_exists, hl, pathExists, jlookup_dictInsert, hrec]
    | none => simp [delete_path_if_exists, hl, pathExists]
  | .null, _ :: _, _ => by simp [delete_path_if_exists, pathExists]
  | .bool _, _ :: _, _ => by simp [delete_path_if_exists, pathExists]
  | .num _, _ :: _, _ => by simp [delete_path_if_exists, pathExists]
  | .str _, _ :: _, _ => by simp [delete_path_if_exists, pathExists]
  | .arr _, _ :: _, _ => by simp [delete_path_if_exists, pathExists]

theorem pathExists_delete_mono : ∀ (p : List String) (d : JVal) (q : List String),
    deepWF d = true → pathExists (delete_path_if_exists d p) q = true →
    pathExists d q = true
  | [], _, _, _, h => by simpa [delete_path_if_exists] using h
  | [k], .obj es, q, hwf, h => by
    cases hl : jlookup es k with
    | some w =>
      simp only [delete_path_if_exists, hl] at h
      rw [deepWF_obj, Bool.and_eq_true] at hwf
      match q with
      | [] => simp [pathExists] at h
      | [k'] =>
        by_cases hk : k' = k
        · subst hk
          rw [pathExists, jlookup_dictRemove_self es k' hwf.1] at h
          simp at h
        · rw [pathExists, jlookup_dictRemove_ne es k k' hk] at h
          rw [pathExists]
          exact h
      | k' :: q2 :: qrest =>
        by_cases hk : k' = k
        · subst hk
          rw [pathExists, jlookup_dictRemove_self es k' hwf.1] at h
          simp at h
        · rw [pathExists, jlookup_dictRemove_ne es k k' hk] at h
          rw [pathExists]
          exact h
    | none => simpa [delete_path_if_exists, hl] using h
  | k :: k2 :: rest, .obj es, q, hwf, h => by
    cases hl : jlookup es k with
    | some w =>
      simp only [delete_path_if_exists, hl] at h
      match q with
      | [] => simp [pathExists] at h
      | [k'] =>
        rw [pathExists, jlookup_dictInsert] at h
        rw [pathExists]
        by_cases hk : k = k'
        · subst hk
          rw [hl]
          rfl
        · rw [if_neg hk] at h
          exact h
      | k' :: q2 :: qrest =>
        rw [pathExists, jlookup_dictInsert] at h
        rw [pathExists]
        by_cases hk : k = k'
        · subst hk
          rw [if_pos rfl] at h
          rw [hl]
          exact pathExists_delete_mono (k2 :: rest) w (q2 :: qrest)
            (deepWF_jlookup hwf hl) h
        · rw [if_neg hk] at h
          exact h
    | none => simpa [delete_path_if_exists, hl] using h
  | _ :: _, .null, _, _, h => by simpa [delete_path_if_exists] using h
  | _ :: _, .bool _, _, _, h => by simpa [delete_path_if_exists] using h
  | _ :: _, .num _, _, _, h => by simpa [delete_path_if_exists] using h
  | _ :: _, .str _, _, _, h => by simpa [delete_path_if_exists] using h
  | _ :: _, .arr _, _, _, h => by simpa [delete_path_if_exists] using h

/-- Deleting a strictly longer path below `q` rewrites the node at `q` by
the deletion of the remaining suffix. -/
theorem getPath_delete_prefix : ∀ (q : List String) (p : List String) (d : JVal),
    deepWF d = true → p ≠ [] → pathExists d (q ++ p) = true →
    getPath (delete_path_if_exists d (q ++ p)) q =
      (getPath d q).map (fun v => delete_path_if_exists v p)
  | [], p, d, _, _, _ => by simp [getPath]
  | k :: q', p, d, hwf, hp, hex => by
    match d with
    | .obj es =>
      have hne : q' ++ p ≠ [] := by
        intro hx
        exact hp (List.append_eq_nil.mp hx).2
      match hq : q' ++ p, hne with
      | a :: l, _ =>
        rw [List.cons_append, hq] at hex
        cases hl : jlookup es k with
        | some w =>
          rw [pathExists, hl] at hex
          have hstep : delete_path_if_exists (.obj es) (k :: a :: l) =
              .obj (dictInsert es k (delete_path_if_exists w (a :: l))) := by
            simp [delete_path_if_exists, hl]
          rw [List.cons_append, hq, hstep]
          rw [getPath, jlookup_dictInsert, if_pos rfl, getPath, hl]
          rw [← hq]
          exact getPath_delete_prefix q' p w (deepWF_jlookup hwf hl) hp (hq ▸ hex)
        | none =>
          rw [pathExists, hl] at hex
          simp at hex
    | .null => simp [pathExists] at hex
    | .bool _ => simp [pathExists] at hex
    | .num _ => simp [pathExists] at hex
    | .str _ => simp [pathExists] at hex
    | .arr _ => simp [pathExists] at hex

/-- Deleting a path that neither extends nor is extended by `q` leaves the
node at `q` unchanged. -/
theorem getPath_delete_divergent : ∀ (p q : List String) (d : JVal),
    ¬(p <+: q) → ¬(q <+: p) →
    getPath (delete_path_if_exists d p) q = getPath d q
  | [], q, d, hpq, _ => absurd List.nil_prefix hpq
  | _ :: _, [], d, _, hqp => absurd List.nil_prefix hqp
  | k :: p', k' :: q', d, hpq, hqp => by
    match d with
    | .obj es =>
      by_cases hk : k = k'
      · subst hk
        have hpq' : ¬(p' <+: q') := fun hx => hpq (List.cons_prefix_cons.mpr ⟨rfl, hx⟩)
        have hqp' : ¬(q' <+: p') := fun hx => hqp (List.cons_prefix_cons.mpr ⟨rfl, hx⟩)
        cases p' with
        | nil => exact absurd List.nil_prefix hpq'
        | cons a l =>
          cases hl : jlookup es k with
          | some w =>
            simp only [delete_path_if_exists, hl]
            rw [getPath, jlookup_dictInsert, if_pos rfl, getPath, hl]
            exact getPath_delete_divergent (a :: l) q' w hpq' hqp'
          | none =>
            simp only [delete_path_if_exists, hl]
      · match p' with
        | [] =>
          cases hl : jlookup es k with
          | some w =>
            simp only [delete_path_if_exists, hl]
            rw [getPath, jlookup_dictRemove_ne es k k' (fun hx => hk hx.symm), getPath]
          | none => simp only [delete_path_if_exists, hl]
        | a :: l =>
          cases hl : jlookup es k with
          | some w =>
            simp only [delete_path_if_exists, hl]
            rw [getPath, jlookup_dictInsert, if_neg hk, getPath]
          | none => simp only [delete_path_if_exists, hl]
    | .null => rw [delete_not_obj _ _ (by intro es h; cases h)]
    | .bool _ => rw [delete_not_obj _ _ (by intro es h; cases h)]
    | .num _ => rw [delete_not_obj _ _ (by intro es h; cases h)]
    | .str _ => rw [delete_not_obj _ _ (by intro es h; cases h)]
    | .arr _ => rw [delete_not_obj _ _ (by intro es h; cases h)]

/-- Folding deletions preserves deep well-formedness. -/
theorem deepWF_foldl_delete : ∀ (ps : List (List String)) (d : JVal),
    deepWF d = true →
    deepWF (ps.foldl (fun acc p => delete_path_if_exists acc p) d) = true
  | [], _, h => h
  | p :: ps, d, h => deepWF_foldl_delete ps _ (deepWF_delete d p h)

/-- Folding deletions never makes a path exist. -/
theorem pathExists_foldl_false : ∀ (ps : List (List String)) (d : JVal)
    (q : List String), deepWF d = true → pathExists d q = false →
    pathExists (ps.foldl (fun acc p => delete_path_if_exists acc p) d) q = false
  | [], _, _, _, h => h
  | p :: ps, d, q, hwf, h => by
    have h1 : pathExists (delete_path_if_exists d p) q = false := by
      cases hx : pathExists (delete_path_if_exists d p) q with
      | false => rfl
      | true =>
        have hm := pathExists_delete_mono p d q hwf hx
        rw [h] at hm
        exact absurd hm Bool.false_ne_true
    exact pathExists_foldl_false ps _ q (deepWF_delete d p hwf) h1

/-- After folding the deletions of a path list, no path of the list
exists. -/
theorem pathExists_foldl_mem_false : ∀ (ps : List (List String)) (d : JVal),
    deepWF d = true → ∀ p ∈ ps,
    pathExists (ps.foldl (fun acc p => delete_path_if_exists acc p) d) p = false
  | [], _, _, p, hp => by simp at hp
  | p0 :: ps, d, hwf, p, hp => by
    rcases List.mem_cons.mp hp with hp | hp
    · subst hp
      exact pathExists_foldl_false ps _ p (deepWF_delete d p hwf)
        (pathExists_delete_self d p hwf)
    · exact pathExists_foldl_mem_false ps _ (deepWF_delete d p0 hwf) p hp

/-- When the whole path exists, the deletion replaces the parent dict at
the front of the path with that dict minus the final key. -/
theorem delete_removes_last : ∀ (q : List String) (k : String) (d : JVal),
    pathExists d (q ++ [k]) = true →
    ∃ es, getPath d q = some (.obj es) ∧ (jlookup es k).isSome = true ∧
      delete_path_if_exists d (q ++ [k]) = setPath d q (.obj (dictRemove es k))
  | [], k, .obj es, h => by
    rw [List.nil_append] at h
    rw [pathExists] at h
    cases hl : jlookup es k with
    | some w =>
      exact ⟨es, by rw [getPath], h, by simp [delete_path_if_exists, hl, setPath]⟩
    | none =>
      rw [hl] at h
      simp at h
  | k' :: q', k, .obj es, h => by
    rw [List.cons_append] at h
    cases hq2 : q' ++ [k] with
    | nil => exact absurd hq2 (by simp)
    | cons a l =>
      rw [hq2] at h
      cases hl : jlookup es k' with
      | some w =>
        rw [pathExists, hl] at h
        have hw : pathExists w (q' ++ [k]) = true := by rw [hq2]; exact h
        obtain ⟨es', h1, h2, h3⟩ := delete_removes_last q' k w hw
        refine ⟨es', by rw [getPath, hl]; exact h1, h2, ?_⟩
        rw [List.cons_append, hq2]
        simp only [delete_path_if_exists, hl]
        rw [setPath, hl]
        rw [hq2] at h3
        rw [h3]
      | none =>
        rw [pathExists, hl] at h
        simp at h
  | [], _, .null, h => by simp [pathExists] at h
  | [], _, .bool _, h => by simp [pathExists] at h
  | [], _, .num _, h => by simp [pathExists] at h
  | [], _, .str _, h => by simp [pathExists] at h
  | [], _, .arr _, h => by simp [pathExists] at h
  | _ :: _, _, .null, h => by simp [pathExists] at h
  | _ :: _, _, .bool _, h => by simp [pathExists] at h
  | _ :: _, _, .num _, h => by simp [pathExists] at h
  | _ :: _, _, .str _, h => by simp [pathExists] at h
  | _ :: _, _, .arr _, h => by simp [pathExists] at h

/-- C4.  Path-delete contract: for every tree and non-empty key path,
`delete_path_if_exists` never raises (it is a total function here, exactly
as the original never indexes before checking); when the walk fails at any
step the tree is returned unchanged, and otherwise the result is the tree
with exactly the path's final key removed from its parent dict. -/
theorem C4_path_delete_contract (d : JVal) (p : List String) (hp : p ≠ []) :
    (pathExists d p = false → delete_path_if_exists d p = d) ∧
    (pathExists d p = true → ∃ es,
      getPath d p.dropLast = some (.obj es) ∧
      (jlookup es (p.getLast hp)).isSome = true ∧
      delete_path_if_exists d p =
        setPath d p.dropLast (.obj (dictRemove es (p.getLast hp)))) := by
  constructor
  · exact delete_noop d p
  · intro hex
    have hsplit := List.dropLast_append_getLast hp
    obtain ⟨es, h1, h2, h3⟩ :=
      delete_removes_last p.dropLast (p.getLast hp) d (by rw [hsplit]; exact hex)
    rw [hsplit] at h3
    exact ⟨es, h1, h2, h3⟩

/-- Witness for C4 at a concrete tree and path. -/
theorem C4_path_delete_contract_witness :
    (["a", "b"] : List String) ≠ [] ∧
    ((pathExists (JVal.obj [("a", JVal.obj [("b", JVal.num 1), ("c", JVal.num 2)])])
        ["a", "b"] = false →
      delete_path_if_exists (JVal.obj [("a", JVal.obj [("b", JVal.num 1), ("c", JVal.num 2)])])
        ["a", "b"] =
        JVal.obj [("a", JVal.obj [("b", JVal.num 1), ("c", JVal.num 2)])]) ∧
    (pathExists (JVal.obj [("a", JVal.obj [("b", JVal.num 1), ("c", JVal.num 2)])])
        ["a", "b"] = true → ∃ es,
      getPath (JVal.obj [("a", JVal.obj [("b", JVal.num 1), ("c", JVal.num 2)])])
        (["a", "b"] : List String).dropLast = some (.obj es) ∧
      (jlookup es ((["a", "b"] : List String).getLast (by simp))).isSome = true ∧
      delete_path_if_exists (JVal.obj [("a", JVal.obj [("b", JVal.num 1), ("c", JVal.num 2)])])
        ["a", "b"] =
        setPath (JVal.obj [("a", JVal.obj [("b", JVal.num 1), ("c", JVal.num 2)])])
          (["a", "b"] : List String).dropLast
          (.obj (dictRemove es ((["a", "b"] : List String).getLast (by simp)))))) :=
  ⟨by simp, C4_path_delete_contract _ ["a", "b"] (by simp)⟩

/-- `jindex` phrased through `jget`. -/
theorem jindex_eq_jget (v : JVal) (k : String) :
    jindex v k = match jget v k with
      | some w => Except.ok w
      | none => Except.error Err.lookupError := by
  cases v <;> simp [jindex, jget]

/-- C10.  `to_clean_project` is defined only on documents with the
`data.project.blockly` spine: if `data`, `data.project`, or
`data.project.blockly` is absent, it raises a lookup error (`KeyError`)
instead of returning a redacted document, even though the fixed redaction
paths themselves are applied tolerantly via `delete_path_if_exists`. -/
theorem C10_clean_requires_spine (P : JVal)
    (h : jget P "data" = none ∨
      (∃ d, jget P "data" = some d ∧ jget d "project" = none) ∨
      (∃ d ip, jget P "data" = some d ∧ jget d "project" = some ip ∧
        jget ip "blockly" = none)) :
    toCleanProject P = .error .lookupError := by
  rcases h with h | ⟨d, h1, h2⟩ | ⟨d, ip, h1, h2, h3⟩
  · simp [toCleanProject, jindex_eq_jget, h, Bind.bind, Except.bind]
  · simp [toCleanProject, jindex_eq_jget, h1, h2, Bind.bind, Except.bind]
  · simp [toCleanProject, jindex_eq_jget, h1, h2, h3, Bind.bind, Except.bind]

/-- Witness for C10: a document with no `data` key. -/
theorem C10_clean_requires_spine_witness :
    (jget (JVal.obj [("x", JVal.num 1)]) "data" = none ∨
      (∃ d, jget (JVal.obj [("x", JVal.num 1)]) "data" = some d ∧
        jget d "project" = none) ∨
      (∃ d ip, jget (JVal.obj [("x", JVal.num 1)]) "data" = some d ∧
        jget d "project" = some ip ∧ jget ip "blockly" = none)) ∧
    toCleanProject (JVal.obj [("x", JVal.num 1)]) = .error .lookupError :=
  ⟨Or.inl rfl, C10_clean_requires_spine _ (Or.inl rfl)⟩

/-! ### Clean (`to_clean_project`) characterization -/

theorem pathExists_foldl_mono : ∀ (ps : List (List String)) (d : JVal)
    (q : List String), deepWF d = true →
    pathExists (ps.foldl (fun acc p => delete_path_if_exists acc p) d) q = true →
    pathExists d q = true
  | [], _, _, _, h => h
  | p :: ps, d, q, hwf, h =>
    pathExists_delete_mono p d q hwf
      (pathExists_foldl_mono ps _ q (deepWF_delete d p hwf) h)

theorem pathExists_append : ∀ (q : List String) (k : String) (d : JVal),
    pathExists d (q ++ [k]) = true ↔
      ∃ es, getPath d q = some (.obj es) ∧ (jlookup es k).isSome = true
  | [], k, .obj es => by simp [pathExists, getPath]
  | [], k, .null => by simp [pathExists, getPath]
  | [], k, .bool _ => by simp [pathExists, getPath]
  | [], k, .num _ => by simp [pathExists, getPath]
  | [], k, .str _ => by simp [pathExists, getPath]
  | [], k, .arr _ => by simp [pathExists, getPath]
  | k' :: q', k, .obj es => by
    cases hq2 : q' ++ [k] with
    | nil => exact absurd hq2 (by simp)
    | cons a l =>
      rw [List.cons_append, hq2]
      cases hl : jlookup es k' with
      | some w =>
        simp only [pathExists, hl, getPath]
        rw [← hq2]
        exact pathExists_append q' k w
      | none => simp [pathExists, hl, getPath]
  | _ :: _, k, .null => by simp [pathExists, getPath]
  | _ :: _, k, .bool _ => by simp [pathExists, getPath]
  | _ :: _, k, .num _ => by simp [pathExists, getPath]
  | _ :: _, k, .str _ => by simp [pathExists, getPath]
  | _ :: _, k, .arr _ => by simp [pathExists, getPath]

theorem isSome_jlookup_eq_hasKeyB (es : List (String × JVal)) (k : String) :
    (jlookup es k).isSome = hasKeyB es k := by
  induction es with
  | nil => rfl
  | cons p rest ih =>
    obtain ⟨k0, w⟩ := p
    by_cases h0 : k0 = k
    · subst h0
      simp [jlookup, hasKeyB]
    · simp [jlookup, hasKeyB, h0, ih]

theorem jcontains_obj (es : List (String × JVal)) (k : String) :
    jcontains (.obj es) k = .ok (hasKeyB es k) := rfl

theorem jindex_ok {v : JVal} {k : String} {w : JVal} (h : jindex v k = .ok w) :
    ∃ es, v = .obj es ∧ jlookup es k = some w := by
  cases v with
  | obj es =>
    refine ⟨es, rfl, ?_⟩
    cases hl : jlookup es k with
    | some x =>
      simp only [jindex, hl] at h
      injection h with h
      rw [h]
    | none =>
      simp only [jindex, hl] at h
      exact absurd h (by simp)
  | null => simp [jindex] at h
  | bool _ => simp [jindex] at h
  | num _ => simp [jindex] at h
  | str _ => simp [jindex] at h
  | arr _ => simp [jindex] at h

theorem dynPathsEntry_code_mem {k : String} {e : JVal} {ps : List (List String)}
    (h : dynPathsEntry k e = .ok ps) (hc : jcontains e "code" = .ok true) :
    ["data", "project", "blockly", k, "code"] ∈ ps := by
  unfold dynPathsEntry at h
  rw [hc] at h
  simp only [Bind.bind, Except.bind] at h
  cases ha : jcontains e "appVariableDefCode" with
  | error e2 =>
    rw [ha] at h
    simp at h
  | ok b =>
    rw [ha] at h
    simp only at h
    injection h with h
    subst h
    simp

theorem dynPathsEntry_avdc_mem {k : String} {e : JVal} {ps : List (List String)}
    (h : dynPathsEntry k e = .ok ps)
    (hc : jcontains e "appVariableDefCode" = .ok true) :
    ["data", "project", "blockly", k, "appVariableDefCode"] ∈ ps := by
  unfold dynPathsEntry at h
  cases hb : jcontains e "code" with
  | error e2 =>
    rw [hb] at h
    simp [Bind.bind, Except.bind] at h
  | ok b =>
    rw [hb, hc] at h
    simp only [Bind.bind, Except.bind] at h
    injection h with h
    subst h
    cases b <;> simp

theorem dynPathsEntries_mem : ∀ {es : List (String × JVal)}
    {dyn : List (List String)}, dynPathsEntries es = .ok dyn →
    ∀ {k : String} {e : JVal}, (k, e) ∈ es →
    ∃ ps, dynPathsEntry k e = .ok ps ∧ ∀ p ∈ ps, p ∈ dyn := by
  intro es
  induction es with
  | nil =>
    intro dyn h k e hm
    simp at hm
  | cons q rest ih =>
    intro dyn h k e hm
    obtain ⟨k0, e0⟩ := q
    unfold dynPathsEntries at h
    cases h0 : dynPathsEntry k0 e0 with
    | error e2 =>
      rw [h0] at h
      simp [Bind.bind, Except.bind] at h
    | ok ps0 =>
      rw [h0] at h
      simp only [Bind.bind, Except.bind] at h
      cases h1 : dynPathsEntries rest with
      | error e2 =>
        rw [h1] at h
        simp at h
      | ok dyn1 =>
        rw [h1] at h
        simp only at h
        injection h with h
        subst h
        rcases List.mem_cons.mp hm with hm | hm
        · rw [Prod.mk.injEq] at hm
          obtain ⟨rfl, rfl⟩ := hm
          exact ⟨ps0, h0, fun p hp => List.mem_append_left _ hp⟩
        · obtain ⟨ps, hps, hsub⟩ := ih h1 hm
          exact ⟨ps, hps, fun p hp => List.mem_append_right _ (hsub p hp)⟩

theorem toCleanProject_ok {P Q : JVal} (h : toCleanProject P = .ok Q) :
    ∃ dataV ip blk dyn, jindex P "data" = .ok dataV ∧
      jindex dataV "project" = .ok ip ∧ jindex ip "blockly" = .ok blk ∧
      dynPathsOfBlockly blk = .ok dyn ∧
      Q = (dirtyPathsFixed ++ dyn).foldl
        (fun acc p => delete_path_if_exists acc p) P := by
  unfold toCleanProject at h
  cases hd : jindex P "data" with
  | error e =>
    rw [hd] at h
    simp [Bind.bind, Except.bind] at h
  | ok dataV =>
    rw [hd] at h
    simp only [Bind.bind, Except.bind] at h
    cases hip : jindex dataV "project" with
    | error e =>
      rw [hip] at h
      simp at h
    | ok ip =>
      rw [hip] at h
      simp only at h
      cases hblk : jindex ip "blockly" with
      | error e =>
        rw [hblk] at h
        simp at h
      | ok blk =>
        rw [hblk] at h
        simp only at h
        cases hdyn : dynPathsOfBlockly blk with
        | error e =>
          rw [hdyn] at h
          simp at h
        | ok dyn =>
          rw [hdyn] at h
          simp only at h
          injection h with h
          exact ⟨dataV, ip, blk, dyn, rfl, hip, hblk, hdyn, h.symm⟩

/-- Shared argument: after `clean`, no `blockly` entry of the result has the
given property key, provided `dynPathsEntry` is known to record the matching
dynamic path. -/
theorem clean_blockly_no_prop {P Q : JVal} (hwf : deepWF P = true)
    (h : toCleanProject P = .ok Q) (prop : String)
    (hprop : ∀ (k : String) (e : JVal) (ps : List (List String)),
      dynPathsEntry k e = .ok ps → jcontains e prop = .ok true →
      ["data", "project", "blockly", k, prop] ∈ ps) :
    ∀ (s : String) (e : JVal),
      getPath Q ["data", "project", "blockly", s] = some e →
      jget e prop = none := by
  intro s e hget
  obtain ⟨dataV, ip, blk, dyn, hd, hip, hblk, hdyn, hQ⟩ := toCleanProject_ok h
  cases hc : jget e prop with
  | none => rfl
  | some c =>
    exfalso
    have he : ∃ ees, e = .obj ees ∧ (jlookup ees prop).isSome = true := by
      cases e with
      | obj ees => exact ⟨ees, rfl, by simp [jget] at hc; rw [hc]; rfl⟩
      | null => simp [jget] at hc
      | bool _ => simp [jget] at hc
      | num _ => simp [jget] at hc
      | str _ => simp [jget] at hc
      | arr _ => simp [jget] at hc
    obtain ⟨ees, rfl, hsome⟩ := he
    have hex : pathExists Q (["data", "project", "blockly", s] ++ [prop]) = true :=
      (pathExists_append _ _ _).mpr ⟨ees, hget, hsome⟩
    have hexP : pathExists P (["data", "project", "blockly", s] ++ [prop]) = true := by
      rw [hQ] at hex
      exact pathExists_foldl_mono _ P _ hwf hex
    obtain ⟨pes, rfl, hpd⟩ := jindex_ok hd
    obtain ⟨des, hdv, hpip⟩ := jindex_ok hip
    obtain ⟨ies, hipv, hpblk⟩ := jindex_ok hblk
    subst hdv
    subst hipv
    rw [List.cons_append, List.cons_append, List.cons_append,
      List.singleton_append] at hexP
    simp only [pathExists, hpd, hpip, hpblk] at hexP
    -- now hexP : pathExists blk (s :: [prop]) = true, so blk is a dict
    match blk, hpblk, hdyn, hexP with
    | .obj bes, hpblk, hdyn, hexP =>
      cases hbs : jlookup bes s with
      | none =>
        simp only [pathExists, hbs] at hexP
        simp at hexP
      | some entryP =>
        simp only [pathExists, hbs] at hexP
        have hent : ∃ pees, entryP = .obj pees ∧
            (jlookup pees prop).isSome = true := by
          match entryP, hexP with
          | .obj pees, hexP =>
            exact ⟨pees, rfl, by simp only [pathExists] at hexP; exact hexP⟩
          | .null, hexP => simp [pathExists] at hexP
          | .bool _, hexP => simp [pathExists] at hexP
          | .num _, hexP => simp [pathExists] at hexP
          | .str _, hexP => simp [pathExists] at hexP
          | .arr _, hexP => simp [pathExists] at hexP
        obtain ⟨pees, rfl, hpsome⟩ := hent
        have hcont : jcontains (.obj pees) prop = .ok true := by
          rw [jcontains_obj, ← isSome_jlookup_eq_hasKeyB, hpsome]
        have hdyn' : dynPathsEntries bes = .ok dyn := by
          unfold dynPathsOfBlockly at hdyn
          exact hdyn
        obtain ⟨ps, hps, hsub⟩ := dynPathsEntries_mem hdyn' (jlookup_mem hbs)
        have hmem : ["data", "project", "blockly", s, prop] ∈ dirtyPathsFixed ++ dyn :=
          List.mem_append_right _ (hsub _ (hprop s (.obj pees) ps hps hcont))
        have hfalse := pathExists_foldl_mem_false (dirtyPathsFixed ++ dyn)
          (.obj pes) hwf _ hmem
        rw [← hQ] at hfalse
        rw [List.cons_append, List.cons_append, List.cons_append,
          List.singleton_append] at hex
        rw [hex] at hfalse
        exact Bool.noConfusion hfalse

/-- C2.  Redaction completeness: after `clean`, none of the fixed redaction
paths exists in the result, and no screen-id entry of the result's
`blockly` has a `code` or `appVariableDefCode` key.  (`deepWF` records that
the input is a Python value: dict keys are unique.) -/
theorem C2_redaction_completeness (P Q : JVal) (hwf : deepWF P = true)
    (h : toCleanProject P = .ok Q) :
    (∀ p ∈ dirtyPathsFixed, pathExists Q p = false) ∧
    (∀ (s : String) (e : JVal),
      getPath Q ["data", "project", "blockly", s] = some e →
      jget e "code" = none ∧ jget e "appVariableDefCode" = none) := by
  obtain ⟨dataV, ip, blk, dyn, hd, hip, hblk, hdyn, hQ⟩ := toCleanProject_ok h
  constructor
  · intro p hp
    rw [hQ]
    exact pathExists_foldl_mem_false _ P hwf p (List.mem_append_left _ hp)
  · intro s e hget
    exact ⟨clean_blockly_no_prop hwf h "code"
        (fun k e' ps hps hc => dynPathsEntry_code_mem hps hc) s e hget,
      clean_blockly_no_prop hwf h "appVariableDefCode"
        (fun k e' ps hps hc => dynPathsEntry_avdc_mem hps hc) s e hget⟩

/-- Example document for the clean witnesses. -/
def cleanExP : JVal :=
  .obj [("data", .obj [("user", .str "u"), ("project", .obj [
    ("id", .str "pid"),
    ("blockly", .obj [("s1", .obj [("code", .str "c"), ("xml", .str "x")])]),
    ("keepme", .num 1)])])]

/-- The redacted form of `cleanExP`. -/
def cleanExQ : JVal :=
  .obj [("data", .obj [("project", .obj [
    ("blockly", .obj [("s1", .obj [("xml", .str "x")])]),
    ("keepme", .num 1)])])]

/-- Witness for C2 at a concrete document. -/
theorem C2_redaction_completeness_witness :
    deepWF cleanExP = true ∧ toCleanProject cleanExP = .ok cleanExQ ∧
    ((∀ p ∈ dirtyPathsFixed, pathExists cleanExQ p = false) ∧
    (∀ (s : String) (e : JVal),
      getPath cleanExQ ["data", "project", "blockly", s] = some e →
      jget e "code" = none ∧ jget e "appVariableDefCode" = none)) :=
  ⟨by decide, by rfl, C2_redaction_completeness cleanExP cleanExQ (by decide) (by rfl)⟩

/-! ### Idempotence support -/

theorem getPath_append : ∀ (q1 q2 : List String) (d : JVal),
    getPath d (q1 ++ q2) = (getPath d q1).bind (fun v => getPath v q2)
  | [], q2, d => by simp [getPath]
  | k :: q1', q2, .obj es => by
    rw [List.cons_append]
    cases hl : jlookup es k with
    | some w =>
      simp only [getPath, hl, Option.bind_some]
      exact getPath_append q1' q2 w
    | none => simp [getPath, hl]
  | _ :: _, _, .null => by simp [getPath]
  | _ :: _, _, .bool _ => by simp [getPath]
  | _ :: _, _, .num _ => by simp [getPath]
  | _ :: _, _, .str _ => by simp [getPath]
  | _ :: _, _, .arr _ => by simp [getPath]

theorem foldl_delete_noop : ∀ (ps : List (List String)) (d : JVal),
    (∀ p ∈ ps, pathExists d p = false) →
    ps.foldl (fun acc p => delete_path_if_exists acc p) d = d
  | [], d, _ => rfl
  | p :: ps, d, h => by
    have h0 : delete_path_if_exists d p = d :=
      delete_noop d p (h p (List.mem_cons_self _ _))
    simp only [List.foldl_cons, h0]
    exact foldl_delete_noop ps d (fun q hq => h q (List.mem_cons_of_mem _ hq))

theorem delete_shape (v : JVal) (r : List String) :
    delete_path_if_exists v r = v ∨
      ∃ es es', v = .obj es ∧ delete_path_if_exists v r = .obj es' := by
  cases v with
  | obj es =>
    obtain ⟨es', h⟩ := delete_obj es r
    exact Or.inr ⟨es, es', rfl, h⟩
  | null => exact Or.inl (delete_not_obj _ r (fun es h => JVal.noConfusion h))
  | bool _ => exact Or.inl (delete_not_obj _ r (fun es h => JVal.noConfusion h))
  | num _ => exact Or.inl (delete_not_obj _ r (fun es h => JVal.noConfusion h))
  | str _ => exact Or.inl (delete_not_obj _ r (fun es h => JVal.noConfusion h))
  | arr _ => exact Or.inl (delete_not_obj _ r (fun es h => JVal.noConfusion h))

theorem getPath_foldl_shape : ∀ (ps : List (List String)) (d : JVal)
    (q : List String), deepWF d = true → (∀ p ∈ ps, ¬(p <+: q)) →
    ∀ v, getPath d q = some v →
    ∃ v', getPath (ps.foldl (fun acc p => delete_path_if_exists acc p) d) q
        = some v' ∧
      (v' = v ∨ (∃ es es', v = .obj es ∧ v' = .obj es'))
  | [], d, q, _, _, v, hv => ⟨v, hv, Or.inl rfl⟩
  | p :: ps, d, q, hwf, hnp, v, hv => by
    have hnp0 : ¬(p <+: q) := hnp p (List.mem_cons_self _ _)
    have hstep : ∃ v1, getPath (delete_path_if_exists d p) q = some v1 ∧
        (v1 = v ∨ (∃ es es', v = .obj es ∧ v1 = .obj es')) := by
      by_cases hqp : q <+: p
      · obtain ⟨r, hr⟩ := hqp
        have hrne : r ≠ [] := by
          intro hx
          subst hx
          rw [List.append_nil] at hr
          exact hnp0 (hr ▸ List.prefix_refl q)
        cases hpe : pathExists d p with
        | false =>
          rw [delete_noop d p hpe]
          exact ⟨v, hv, Or.inl rfl⟩
        | true =>
          have hgd := getPath_delete_prefix q r d hwf hrne (by rw [hr]; exact hpe)
          rw [hr] at hgd
          rcases delete_shape v r with hds | ⟨es, es', hves, hdes⟩
          · exact ⟨v, by rw [hgd, hv]; simp [hds], Or.inl rfl⟩
          · exact ⟨.obj es', by rw [hgd, hv]; simp [hdes],
              Or.inr ⟨es, es', hves, rfl⟩⟩
      · rw [getPath_delete_divergent p q d hnp0 hqp]
        exact ⟨v, hv, Or.inl rfl⟩
    obtain ⟨v1, hv1, hrel1⟩ := hstep
    obtain ⟨v2, hv2, hrel2⟩ := getPath_foldl_shape ps _ q (deepWF_delete d p hwf)
      (fun p' hp' => hnp p' (List.mem_cons_of_mem _ hp')) v1 hv1
    refine ⟨v2, by simp only [List.foldl_cons]; exact hv2, ?_⟩
    rcases hrel1 with rfl | ⟨es, es1, rfl, rfl⟩
    · exact hrel2
    · rcases hrel2 with rfl | ⟨es1', es2, h1', rfl⟩
      · exact Or.inr ⟨es, es1, rfl, rfl⟩
      · exact Or.inr ⟨es, es2, rfl, rfl⟩

theorem deepWF_getPath : ∀ (q : List String) (d v : JVal),
    deepWF d = true → getPath d q = some v → deepWF v = true
  | [], d, v, hwf, h => by
    rw [getPath] at h
    injection h with h
    rw [← h]
    exact hwf
  | k :: q', .obj es, v, hwf, h => by
    cases hl : jlookup es k with
    | some w =>
      simp only [getPath, hl] at h
      exact deepWF_getPath q' w v (deepWF_jlookup hwf hl) h
    | none =>
      simp only [getPath, hl] at h
      exact absurd h (by simp)
  | _ :: _, .null, _, _, h => by simp [getPath] at h
  | _ :: _, .bool _, _, _, h => by simp [getPath] at h
  | _ :: _, .num _, _, _, h => by simp [getPath] at h
  | _ :: _, .str _, _, _, h => by simp [getPath] at h
  | _ :: _, .arr _, _, _, h => by simp [getPath] at h

theorem dynPathsOfBlockly_inv {blk : JVal} {dyn : List (List String)}
    (h : dynPathsOfBlockly blk = .ok dyn) :
    (∃ es, blk = .obj es ∧ dynPathsEntries es = .ok dyn) ∨
    (dyn = [] ∧ (blk = .arr [] ∨ blk = .str "")) := by
  cases blk with
  | obj es => exact Or.inl ⟨es, rfl, h⟩
  | arr l =>
    simp only [dynPathsOfBlockly] at h
    by_cases hl : l = []
    · subst hl
      rw [if_pos rfl] at h
      injection h with h
      exact Or.inr ⟨h.symm, Or.inl rfl⟩
    · rw [if_neg hl] at h
      exact absurd h (by simp)
  | str s =>
    simp only [dynPathsOfBlockly] at h
    by_cases hs : s = ""
    · subst hs
      rw [if_pos rfl] at h
      injection h with h
      exact Or.inr ⟨h.symm, Or.inr rfl⟩
    · rw [if_neg hs] at h
      exact absurd h (by simp)
  | null => exact absurd h (by simp [dynPathsOfBlockly])
  | bool b => exact absurd h (by simp [dynPathsOfBlockly])
  | num n => exact absurd h (by simp [dynPathsOfBlockly])

theorem dynPathsEntry_inv {k : String} {e : JVal} {ps : List (List String)}
    (h : dynPathsEntry k e = .ok ps) :
    ∃ b1 b2, jcontains e "code" = .ok b1 ∧
      jcontains e "appVariableDefCode" = .ok b2 := by
  unfold dynPathsEntry at h
  cases h1 : jcontains e "code" with
  | error e1 =>
    rw [h1] at h
    simp [Bind.bind, Except.bind] at h
  | ok b1 =>
    rw [h1] at h
    simp only [Bind.bind, Except.bind] at h
    cases h2 : jcontains e "appVariableDefCode" with
    | error e2 =>
      rw [h2] at h
      simp at h
    | ok b2 => exact ⟨b1, b2, rfl, rfl⟩

theorem dynPathsEntry_shape {k : String} {e : JVal} {ps : List (List String)}
    (h : dynPathsEntry k e = .ok ps) :
    ∀ p ∈ ps, p = ["data", "project", "blockly", k, "code"] ∨
      p = ["data", "project", "blockly", k, "appVariableDefCode"] := by
  unfold dynPathsEntry at h
  cases h1 : jcontains e "code" with
  | error e1 =>
    rw [h1] at h
    simp [Bind.bind, Except.bind] at h
  | ok b1 =>
    rw [h1] at h
    simp only [Bind.bind, Except.bind] at h
    cases h2 : jcontains e "appVariableDefCode" with
    | error e2 =>
      rw [h2] at h
      simp at h
    | ok b2 =>
      rw [h2] at h
      simp only at h
      injection h with h
      subst h
      intro p hp
      rcases List.mem_append.mp hp with hp | hp
      · cases b1 with
        | true =>
          simp at hp
          exact Or.inl hp
        | false => simp at hp
      · cases b2 with
        | true =>
          simp at hp
          exact Or.inr hp
        | false => simp at hp

theorem dynPathsEntries_shape : ∀ {es : List (String × JVal)}
    {dyn : List (List String)}, dynPathsEntries es = .ok dyn → ∀ p ∈ dyn,
    ∃ k, p = ["data", "project", "blockly", k, "code"] ∨
      p = ["data", "project", "blockly", k, "appVariableDefCode"] := by
  intro es
  induction es with
  | nil =>
    intro dyn h p hp
    unfold dynPathsEntries at h
    injection h with h
    subst h
    simp at hp
  | cons q rest ih =>
    intro dyn h p hp
    obtain ⟨k0, e0⟩ := q
    unfold dynPathsEntries at h
    cases h0 : dynPathsEntry k0 e0 with
    | error e2 =>
      rw [h0] at h
      simp [Bind.bind, Except.bind] at h
    | ok ps0 =>
      rw [h0] at h
      simp only [Bind.bind, Except.bind] at h
      cases h1 : dynPathsEntries rest with
      | error e2 =>
        rw [h1] at h
        simp at h
      | ok dyn1 =>
        rw [h1] at h
        simp only at h
        injection h with h
        subst h
        rcases List.mem_append.mp hp with hp | hp
        · exact ⟨k0, dynPathsEntry_shape h0 p hp⟩
        · exact ih h1 p hp

theorem jcontains_ok_of_container {e : JVal} (k : String)
    (h : (∃ es, e = .obj es) ∨ (∃ l, e = .arr l) ∨ (∃ s, e = .str s)) :
    ∃ b, jcontains e k = .ok b := by
  rcases h with ⟨es, rfl⟩ | ⟨l, rfl⟩ | ⟨s, rfl⟩ <;> exact ⟨_, rfl⟩

theorem jcontains_container_of_ok {e : JVal} {k : String} {b : Bool}
    (h : jcontains e k = .ok b) :
    (∃ es, e = .obj es) ∨ (∃ l, e = .arr l) ∨ (∃ s, e = .str s) := by
  cases e with
  | obj es => exact Or.inl ⟨es, rfl⟩
  | arr l => exact Or.inr (Or.inl ⟨l, rfl⟩)
  | str s => exact Or.inr (Or.inr ⟨s, rfl⟩)
  | null => simp [jcontains] at h
  | bool _ => simp [jcontains] at h
  | num _ => simp [jcontains] at h

theorem dynPathsEntry_total (k : String) (e : JVal)
    (h : (∃ es, e = .obj es) ∨ (∃ l, e = .arr l) ∨ (∃ s, e = .str s)) :
    ∃ ps, dynPathsEntry k e = .ok ps := by
  obtain ⟨b1, h1⟩ := jcontains_ok_of_container "code" h
  obtain ⟨b2, h2⟩ := jcontains_ok_of_container "appVariableDefCode" h
  refine ⟨(if b1 then [["data", "project", "blockly", k, "code"]] else []) ++
    (if b2 then [["data", "project", "blockly", k, "appVariableDefCode"]] else []), ?_⟩
  unfold dynPathsEntry
  rw [h1]
  simp only [Bind.bind, Except.bind]
  rw [h2]

theorem dynPathsEntries_total : ∀ (es : List (String × JVal)),
    (∀ q ∈ es, (∃ es2, q.2 = JVal.obj es2) ∨ (∃ l, q.2 = .arr l) ∨
      (∃ s, q.2 = .str s)) →
    ∃ dyn, dynPathsEntries es = .ok dyn
  | [], _ => ⟨[], rfl⟩
  | (k, e) :: rest, h => by
    obtain ⟨ps, hps⟩ := dynPathsEntry_total k e (h (k, e) (List.mem_cons_self _ _))
    obtain ⟨dyn1, hdyn1⟩ :=
      dynPathsEntries_total rest (fun q hq => h q (List.mem_cons_of_mem _ hq))
    refine ⟨ps ++ dyn1, ?_⟩
    unfold dynPathsEntries
    rw [hps]
    simp only [Bind.bind, Except.bind]
    rw [hdyn1]

theorem jindex_of_getPath_single {d : JVal} {k : String} {w : JVal}
    (h : getPath d [k] = some w) : jindex d k = .ok w := by
  cases d with
  | obj es =>
    cases hl : jlookup es k with
    | some x =>
      simp only [getPath, hl] at h
      injection h with h
      simp [jindex, hl, h]
    | none =>
      simp only [getPath, hl] at h
      exact absurd h (by simp)
  | null => simp [getPath] at h
  | bool _ => simp [getPath] at h
  | num _ => simp [getPath] at h
  | str _ => simp [getPath] at h
  | arr _ => simp [getPath] at h

theorem fixed_not_prefix_spine :
    ∀ p ∈ dirtyPathsFixed, ¬(p <+: ["data"]) ∧ ¬(p <+: ["data", "project"]) ∧
      ¬(p <+: ["data", "project", "blockly"]) := by decide

theorem fixed_take3 :
    ∀ p ∈ dirtyPathsFixed, p.take 3 ≠ ["data", "project", "blockly"] := by decide

theorem fixed_not_prefix_entry (s : String) :
    ∀ p ∈ dirtyPathsFixed, ¬(p <+: ["data", "project", "blockly", s]) := by
  intro p hp hpre
  rw [show (["data", "project", "blockly", s] : List String) =
    ["data", "project", "blockly"] ++ [s] from rfl] at hpre
  rcases List.prefix_concat_iff.mp hpre with heq | hpre'
  · exact fixed_take3 p hp (by simp [heq])
  · exact (fixed_not_prefix_spine p hp).2.2 hpre'

theorem dyn_not_prefix {dyn : List (List String)}
    (hsh : ∀ p ∈ dyn, ∃ k, p = ["data", "project", "blockly", k, "code"] ∨
      p = ["data", "project", "blockly", k, "appVariableDefCode"])
    (q : List String) (hq : q.length ≤ 4) : ∀ p ∈ dyn, ¬(p <+: q) := by
  intro p hp hpre
  obtain ⟨k, hk | hk⟩ := hsh p hp <;>
    (subst hk; have hle := hpre.length_le; simp at hle; omega)

/-- C3.  Idempotence of redaction: when `clean` is defined on `P` (it
returns a document `Q`), cleaning `Q` again returns `Q` unchanged. -/
theorem C3_clean_idempotent (P Q : JVal) (hwf : deepWF P = true)
    (h : toCleanProject P = .ok Q) : toCleanProject Q = .ok Q := by
  obtain ⟨dataV, ip, blk, dyn, hd, hip, hblk, hdyn, hQ⟩ := toCleanProject_ok h
  obtain ⟨pes, hPes, hpd⟩ := jindex_ok hd
  obtain ⟨des, hdes, hpip⟩ := jindex_ok hip
  obtain ⟨ies, hies, hpblk⟩ := jindex_ok hblk
  have hwfQ : deepWF Q = true := by
    rw [hQ]
    exact deepWF_foldl_delete _ P hwf
  have hg1 : getPath P ["data"] = some dataV := by
    rw [hPes]
    simp [getPath, hpd]
  have hg2 : getPath P ["data", "project"] = some ip := by
    rw [hPes]
    simp only [getPath, hpd]
    rw [hdes]
    simp [getPath, hpip]
  have hg3 : getPath P ["data", "project", "blockly"] = some blk := by
    rw [hPes]
    simp only [getPath, hpd]
    rw [hdes]
    simp only [getPath, hpip]
    rw [hies]
    simp [getPath, hpblk]
  have hdynsh : ∀ p ∈ dyn, ∃ k,
      p = ["data", "project", "blockly", k, "code"] ∨
      p = ["data", "project", "blockly", k, "appVariableDefCode"] := by
    rcases dynPathsOfBlockly_inv hdyn with ⟨bes, hbv, hde⟩ | ⟨hdnil, _⟩
    · exact dynPathsEntries_shape hde
    · subst hdnil
      intro p hp
      simp at hp
  have hnps : ∀ (q : List String), q.length ≤ 4 →
      (∀ p ∈ dirtyPathsFixed, ¬(p <+: q)) →
      ∀ p ∈ dirtyPathsFixed ++ dyn, ¬(p <+: q) := by
    intro q hql hfix p hp
    rcases List.mem_append.mp hp with hp | hp
    · exact hfix p hp
    · exact dyn_not_prefix hdynsh q hql p hp
  obtain ⟨dataQ, hgq1, hrel1⟩ := getPath_foldl_shape (dirtyPathsFixed ++ dyn) P
    ["data"] hwf (hnps _ (by simp) (fun p hp => (fixed_not_prefix_spine p hp).1))
    dataV hg1
  obtain ⟨ipQ, hgq2, hrel2⟩ := getPath_foldl_shape (dirtyPathsFixed ++ dyn) P
    ["data", "project"] hwf
    (hnps _ (by simp) (fun p hp => (fixed_not_prefix_spine p hp).2.1)) ip hg2
  obtain ⟨blkQ, hgq3, hrel3⟩ := getPath_foldl_shape (dirtyPathsFixed ++ dyn) P
    ["data", "project", "blockly"] hwf
    (hnps _ (by simp) (fun p hp => (fixed_not_prefix_spine p hp).2.2)) blk hg3
  rw [← hQ] at hgq1 hgq2 hgq3
  have hdQ : jindex Q "data" = .ok dataQ := jindex_of_getPath_single hgq1
  have hstep2 : getPath dataQ ["project"] = some ipQ := by
    have happ := getPath_append ["data"] ["project"] Q
    simp only [List.cons_append, List.nil_append] at happ
    rw [hgq1, hgq2] at happ
    simpa using happ.symm
  have hipQ : jindex dataQ "project" = .ok ipQ := jindex_of_getPath_single hstep2
  have hstep3 : getPath ipQ ["blockly"] = some blkQ := by
    have happ := getPath_append ["data", "project"] ["blockly"] Q
    simp only [List.cons_append, List.nil_append] at happ
    rw [hgq2, hgq3] at happ
    simpa using happ.symm
  have hblkQ : jindex ipQ "blockly" = .ok blkQ := jindex_of_getPath_single hstep3
  have hcases : (∃ qbes, blkQ = .obj qbes) ∨
      (blkQ = blk ∧ (blk = .arr [] ∨ blk = .str "")) := by
    rcases hrel3 with hrel3 | ⟨es5, qbes, hblkes, hbqobj⟩
    · rcases dynPathsOfBlockly_inv hdyn with ⟨bes, hbv, _⟩ | ⟨_, hsh⟩
      · exact Or.inl ⟨bes, by rw [hrel3, hbv]⟩
      · exact Or.inr ⟨hrel3, hsh⟩
    · exact Or.inl ⟨qbes, hbqobj⟩
  have hnocode := clean_blockly_no_prop hwf h "code"
    (fun k e' ps hps hc => dynPathsEntry_code_mem hps hc)
  have hnoavdc := clean_blockly_no_prop hwf h "appVariableDefCode"
    (fun k e' ps hps hc => dynPathsEntry_avdc_mem hps hc)
  have hdynQ : ∃ dynQ, dynPathsOfBlockly blkQ = .ok dynQ ∧
      ∀ p ∈ dynQ, pathExists Q p = false := by
    rcases hcases with ⟨qbes, hbq⟩ | ⟨hbeq, hsh⟩
    · have hwfblkQ : deepWF (.obj qbes) = true := by
        rw [← hbq]
        exact deepWF_getPath _ Q blkQ hwfQ hgq3
      have hnodup : nodupKeysB qbes = true := by
        rw [deepWF_obj, Bool.and_eq_true] at hwfblkQ
        exact hwfblkQ.1
      have hcont : ∀ q0 ∈ qbes, (∃ es2, q0.2 = JVal.obj es2) ∨
          (∃ l, q0.2 = JVal.arr l) ∨ (∃ s, q0.2 = JVal.str s) := by
        intro q0 hq0
        obtain ⟨s, e'⟩ := q0
        have hlook : jlookup qbes s = some e' := mem_jlookup hq0 hnodup
        have hget4 : getPath Q ["data", "project", "blockly", s] = some e' := by
          have happ := getPath_append ["data", "project", "blockly"] [s] Q
          simp only [List.cons_append, List.nil_append] at happ
          rw [hgq3, hbq] at happ
          rw [happ]
          simp [getPath, hlook]
        have hexQ : pathExists Q (["data", "project", "blockly"] ++ [s]) = true :=
          (pathExists_append _ _ _).mpr
            ⟨qbes, by rw [hgq3, hbq], by rw [hlook]; rfl⟩
        have hexP : pathExists P (["data", "project", "blockly"] ++ [s]) = true := by
          rw [hQ] at hexQ
          exact pathExists_foldl_mono _ P _ hwf hexQ
        obtain ⟨bes0, hbes0, hsome0⟩ := (pathExists_append _ _ _).mp hexP
        rw [hg3] at hbes0
        injection hbes0 with hbes0
        obtain ⟨e, he⟩ := Option.isSome_iff_exists.mp hsome0
        have hmem0 : (s, e) ∈ bes0 := jlookup_mem he
        have hde1 : dynPathsEntries bes0 = .ok dyn := by
          rcases dynPathsOfBlockly_inv hdyn with ⟨bes1, hbv1, hde1⟩ | ⟨_, hsh1⟩
          · rw [hbes0] at hbv1
            injection hbv1 with hbv1
            rw [hbv1]
            exact hde1
          · rcases hsh1 with hsh1 | hsh1 <;>
              (rw [hsh1] at hbes0; exact JVal.noConfusion hbes0)
        obtain ⟨ps, hps, _⟩ := dynPathsEntries_mem hde1 hmem0
        obtain ⟨b1, b2, hc1, hc2⟩ := dynPathsEntry_inv hps
        have hecont := jcontains_container_of_ok hc1
        have hgP4 : getPath P ["data", "project", "blockly", s] = some e := by
          have happ := getPath_append ["data", "project", "blockly"] [s] P
          simp only [List.cons_append, List.nil_append] at happ
          rw [hg3] at happ
          rw [happ, hbes0]
          simp [getPath, he]
        obtain ⟨e2, hge2, hrele⟩ := getPath_foldl_shape (dirtyPathsFixed ++ dyn) P
          ["data", "project", "blockly", s] hwf
          (hnps _ (by simp) (fixed_not_prefix_entry s)) e hgP4
        rw [← hQ] at hge2
        rw [hget4] at hge2
        injection hge2 with hge2
        rcases hrele with hrele | ⟨es6, es7, hee, he2⟩
        · rw [hge2, hrele]
          exact hecont
        · rw [hge2, he2]
          exact Or.inl ⟨es7, rfl⟩
      obtain ⟨dynQ, hdq⟩ := dynPathsEntries_total qbes hcont
      refine ⟨dynQ, by rw [hbq]; exact hdq, ?_⟩
      intro p hp
      obtain ⟨k, hk | hk⟩ := dynPathsEntries_shape hdq p hp
      · subst hk
        cases hpe : pathExists Q ["data", "project", "blockly", k, "code"] with
        | false => rfl
        | true =>
          exfalso
          obtain ⟨es7, hges7, hsome7⟩ :=
            (pathExists_append ["data", "project", "blockly", k] "code" Q).mp hpe
          have hnone := hnocode k (.obj es7) hges7
          simp only [jget] at hnone
          rw [hnone] at hsome7
          exact Bool.noConfusion hsome7
      · subst hk
        cases hpe : pathExists Q
            ["data", "project", "blockly", k, "appVariableDefCode"] with
        | false => rfl
        | true =>
          exfalso
          obtain ⟨es7, hges7, hsome7⟩ :=
            (pathExists_append ["data", "project", "blockly", k]
              "appVariableDefCode" Q).mp hpe
          have hnone := hnoavdc k (.obj es7) hges7
          simp only [jget] at hnone
          rw [hnone] at hsome7
          exact Bool.noConfusion hsome7
    · refine ⟨[], ?_, by intro p hp; simp at hp⟩
      rcases hsh with hsh | hsh <;> rw [hbeq, hsh] <;> simp [dynPathsOfBlockly]
  obtain ⟨dynQ, hdynQok, hdynQne⟩ := hdynQ
  have hnoop : (dirtyPathsFixed ++ dynQ).foldl
      (fun acc p => delete_path_if_exists acc p) Q = Q := by
    apply foldl_delete_noop
    intro p hp
    rcases List.mem_append.mp hp with hp | hp
    · rw [hQ]
      exact pathExists_foldl_mem_false _ P hwf p (List.mem_append_left _ hp)
    · exact hdynQne p hp
  unfold toCleanProject
  rw [hdQ]
  simp only [Bind.bind, Except.bind]
  rw [hipQ]
  simp only [Except.bind]
  rw [hblkQ]
  simp only [Except.bind]
  rw [hdynQok]
  simp only [Except.bind]
  rw [hnoop]

/-- Witness for C3 at a concrete document. -/
theorem C3_clean_idempotent_witness :
    deepWF cleanExP = true ∧ toCleanProject cleanExP = .ok cleanExQ ∧
    toCleanProject cleanExQ = .ok cleanExQ :=
  ⟨by decide, by rfl, C3_clean_idempotent cleanExP cleanExQ (by decide) (by rfl)⟩

/-! ### Split (`to_modular_project`) characterization -/

/-- A screen id usable in the modular file names: a string without `'.'`
(the merge side parses file names on dots) and without `'/'` (a path
separator would change `pathlib`'s stem/suffix). -/
def isPlainId (s : String) : Bool :=
  s.toList.all (fun c => !(c == '.') && !(c == '/'))

/-- A well-formed screen node: a dict with a `name` string of allowed
characters (possibly empty, as the original check accepts `""`) and a
plain string `id`. -/
def wfScreen (s : JVal) : Bool :=
  match s with
  | .obj es =>
    (match jlookup es "name" with
      | some (.str n) => n.toList.all isScreenNameChar
      | _ => false)
    && (match jlookup es "id" with
        | some (.str i) => isPlainId i
        | _ => false)
  | _ => false

/-- The `name` string of a screen node (defaulting for ill-formed nodes). -/
def screenName (s : JVal) : String :=
  match s with
  | .obj es =>
    match jlookup es "name" with
    | some (.str n) => n
    | _ => ""
  | _ => ""

/-- The `id` string of a screen node (defaulting for ill-formed nodes). -/
def screenId (s : JVal) : String :=
  match s with
  | .obj es =>
    match jlookup es "id" with
    | some (.str i) => i
    | _ => ""
  | _ => ""

/-- Whether a node is treated as a navigator by the split side: a dict
whose `type` string contains "Navigator". -/
def isNavB (c : JVal) : Bool :=
  match c with
  | .obj es =>
    match jlookup es "type" with
    | some (.str t) => strContainsSub t "Navigator"
    | _ => false
  | _ => false

/-- The `children` list of a navigator node. -/
def navChildren (c : JVal) : List JVal :=
  match c with
  | .obj es =>
    match jlookup es "children" with
    | some (.arr l) => l
    | _ => []
  | _ => []

/-- A well-formed `components.children` node: a dict with a string `type`;
a navigator additionally has a `name` key and a list of well-formed screen
children, any other node is itself a well-formed screen. -/
def wfChildNode (c : JVal) : Bool :=
  match c with
  | .obj es =>
    (match jlookup es "type" with
      | some (.str _) => true
      | _ => false)
    && (if isNavB c then
          hasKeyB es "name" &&
            (match jlookup es "children" with
              | some (.arr l) => l.all wfScreen
              | _ => false)
        else wfScreen c)
  | _ => false

/-- The flattened screen list: navigator nodes contribute their children,
any other node contributes itself. -/
def flatSpec : List JVal → List JVal
  | [] => []
  | c :: rest => (if isNavB c then navChildren c else [c]) ++ flatSpec rest

/-- The `"<name>.<id>.json"` file name of a screen. -/
def jsonName (s : JVal) : String :=
  screenName s ++ "." ++ screenId s ++ ".json"

/-- The per-screen `.json` files of the split, in flattened order. -/
def jsonFilesSpec (screens : List JVal) : List (String × JVal) :=
  screens.map (fun s => (jsonName s, s))

/-- The id stubs of the flattened screens. -/
def stubsSpec (screens : List JVal) : List JVal :=
  screens.map (fun s => stubOf (.str (screenId s)))

/-- The id-to-name dict built by the screens loop. -/
def idMapSpec (screens : List JVal) (m : List (JVal × String)) :
    List (JVal × String) :=
  screens.foldl (fun a s => jdictInsert a (.str (screenId s)) (screenName s)) m

theorem processScreenMeta_wf {s : JVal} (h : wfScreen s = true) :
    processScreenMeta s = .ok (jsonName s, .str (screenId s), screenName s) := by
  match s, h with
  | .obj es, h =>
    rw [wfScreen, Bool.and_eq_true] at h
    obtain ⟨h1, h2⟩ := h
    cases hn : jlookup es "name" with
    | none => rw [hn] at h1; exact absurd h1 (by simp)
    | some nv =>
      rw [hn] at h1
      match nv, h1 with
      | .str n, h1 =>
        cases hi : jlookup es "id" with
        | none => rw [hi] at h2; exact absurd h2 (by simp)
        | some iv =>
          rw [hi] at h2
          match iv, h2 with
          | .str i, h2 =>
            have hval : n.toList.any (fun c => ! isScreenNameChar c) = false := by
              rw [List.any_eq_false]
              intro c hc
              simp only [Bool.not_eq_true', Bool.not_eq_false]
              exact List.all_eq_true.mp h1 c hc
            unfold processScreenMeta
            rw [show jindex (JVal.obj es) "name" = .ok (.str n) by
                simp [jindex, hn],
              show jindex (JVal.obj es) "id" = .ok (.str i) by
                simp [jindex, hi]]
            simp only [Bind.bind, Except.bind, hval, Bool.false_eq_true,
              if_false, pyFStr]
            rw [jsonName, screenName, screenId, hn, hi]

theorem screensPhase_wf : ∀ (screens : List JVal)
    (m : List (JVal × String)), screens.all wfScreen = true →
    screensPhase screens m =
      .ok (jsonFilesSpec screens, stubsSpec screens, idMapSpec screens m)
  | [], m, _ => rfl
  | s :: rest, m, h => by
    rw [List.all_cons, Bool.and_eq_true] at h
    unfold screensPhase
    rw [processScreenMeta_wf h.1]
    simp only [Bind.bind, Except.bind]
    rw [screensPhase_wf rest _ h.2]
    simp only [Except.bind]
    rfl

theorem wfChildNode_type {c : JVal} (h : wfChildNode c = true) :
    ∃ es t, c = .obj es ∧ jlookup es "type" = some (.str t) ∧
      isNavB c = strContainsSub t "Navigator" := by
  match c, h with
  | .obj es, h =>
    rw [wfChildNode, Bool.and_eq_true] at h
    cases ht : jlookup es "type" with
    | none => rw [ht] at h; exact absurd h.1 (by simp)
    | some tv =>
      rw [ht] at h
      match tv, h with
      | .str t, h =>
        exact ⟨es, t, rfl, ht, by rw [isNavB, ht]⟩

theorem flattenSplit_wf : ∀ (children : List JVal),
    children.all wfChildNode = true →
    flattenSplit children = .ok (flatSpec children)
  | [], _ => rfl
  | c :: rest, h => by
    rw [List.all_cons, Bool.and_eq_true] at h
    obtain ⟨es, t, hc, ht, hnav⟩ := wfChildNode_type h.1
    subst hc
    unfold flattenSplit
    rw [show jindex (JVal.obj es) "type" = .ok (.str t) by simp [jindex, ht]]
    simp only [Bind.bind, Except.bind, jcontains]
    rw [← hnav]
    cases hn : isNavB (.obj es) with
    | true =>
      rw [if_pos rfl]
      have hwf := h.1
      rw [wfChildNode, Bool.and_eq_true, hn, if_pos rfl, Bool.and_eq_true] at hwf
      cases hch : jlookup es "children" with
      | none =>
        rw [hch] at hwf
        exact absurd hwf.2.2 (by simp)
      | some chv =>
        rw [hch] at hwf
        match chv, hwf with
        | .arr l, hwf =>
          rw [show jindex (JVal.obj es) "children" = .ok (.arr l) by
            simp [jindex, hch]]
          simp only [Except.bind, iterableElems]
          rw [flattenSplit_wf rest h.2]
          simp [flatSpec, hn, navChildren, hch]
    | false =>
      rw [if_neg (by simp)]
      rw [flattenSplit_wf rest h.2]
      simp [flatSpec, hn]

/-- The stubbed `components.children` produced by the split: navigators keep
their node with stubbed children, screens become id stubs. -/
def restubSpec : List JVal → List JVal
  | [] => []
  | c :: rest =>
    (if isNavB c then jsetObj c "children" (.arr (stubsSpec (navChildren c)))
      else stubOf (.str (screenId c))) :: restubSpec rest

theorem stubsSpec_append (a b : List JVal) :
    stubsSpec (a ++ b) = stubsSpec a ++ stubsSpec b := by
  simp [stubsSpec]

theorem restubChildren_wf : ∀ (children : List JVal) (extra : List JVal),
    children.all wfChildNode = true →
    restubChildren children (stubsSpec (flatSpec children) ++ extra) =
      .ok (restubSpec children)
  | [], extra, _ => rfl
  | c :: rest, extra, h => by
    rw [List.all_cons, Bool.and_eq_true] at h
    obtain ⟨es, t, hc, ht, hnav⟩ := wfChildNode_type h.1
    subst hc
    unfold restubChildren
    rw [show jindex (JVal.obj es) "type" = .ok (.str t) by simp [jindex, ht]]
    simp only [Bind.bind, Except.bind, jcontains]
    rw [← hnav]
    cases hn : isNavB (.obj es) with
    | true =>
      rw [if_pos rfl]
      have hwf := h.1
      rw [wfChildNode, Bool.and_eq_true, hn, if_pos rfl, Bool.and_eq_true] at hwf
      cases hch : jlookup es "children" with
      | none =>
        rw [hch] at hwf
        exact absurd hwf.2.2 (by simp)
      | some chv =>
        rw [hch] at hwf
        match chv, hwf with
        | .arr l, hwf =>
          rw [show jindex (JVal.obj es) "children" = .ok (.arr l) by
            simp [jindex, hch]]
          simp only [Except.bind, iterableElems]
          have hfs : flatSpec (JVal.obj es :: rest) = l ++ flatSpec rest := by
            rw [flatSpec, if_pos hn, navChildren, hch]
          rw [hfs, stubsSpec_append, List.append_assoc]
          have hlen : (stubsSpec l).length = l.length := by simp [stubsSpec]
          rw [show (stubsSpec l ++ (stubsSpec (flatSpec rest) ++ extra)).take l.length
              = stubsSpec l by rw [← hlen]; exact List.take_left _ _]
          rw [show (stubsSpec l ++ (stubsSpec (flatSpec rest) ++ extra)).drop l.length
              = stubsSpec (flatSpec rest) ++ extra by
              rw [← hlen]; exact List.drop_left _ _]
          rw [restubChildren_wf rest extra h.2]
          simp [restubSpec, hn, navChildren, hch]
    | false =>
      rw [if_neg (by simp)]
      have hfs : flatSpec (JVal.obj es :: rest) = JVal.obj es :: flatSpec rest := by
        rw [flatSpec, if_neg (by simp [hn])]
        rfl
      rw [hfs]
      have hstubs : stubsSpec (JVal.obj es :: flatSpec rest) ++ extra =
          stubOf (.str (screenId (.obj es))) :: (stubsSpec (flatSpec rest) ++ extra) := by
        simp [stubsSpec]
      rw [hstubs]
      simp [restubChildren_wf rest extra h.2, restubSpec, hn]

/-! ### Blockly phase characterization -/

/-- Whether a value is a dict. -/
def entryIsObj (e : JVal) : Bool :=
  match e with
  | .obj _ => true
  | _ => false

/-- Whether a `blockly` entry has an `xml` key (the original `"xml" in
entry` test for dict entries). -/
def entryHasXml (e : JVal) : Bool :=
  match e with
  | .obj ees => hasKeyB ees "xml"
  | _ => false

/-- Whether the split emits a `.xml` file for the entry: it has an `xml`
key and its screen-id has a name. -/
def entryEmit (m : List (JVal × String)) (k : String) (e : JVal) : Bool :=
  entryHasXml e && (jdictGet m (JVal.str k)).isSome

/-- The `"<name>.<id>.xml"` file name of a `blockly` entry. -/
def xmlFileName (m : List (JVal × String)) (k : String) : String :=
  (jdictGet m (JVal.str k)).getD "" ++ "." ++ k ++ ".xml"

/-- The `.xml` files emitted by the split, in `blockly` order. -/
def xmlFilesSpec (m : List (JVal × String)) :
    List (String × JVal) → List (String × JVal)
  | [] => []
  | (k, e) :: rest =>
    (if entryEmit m k e then [(xmlFileName m k, (jget e "xml").getD .null)] else [])
      ++ xmlFilesSpec m rest

/-- The `blockly` entries after the split: emitted entries have their `xml`
blanked, all others (orphans included) are kept as they were. -/
def blankEntries (m : List (JVal × String)) :
    List (String × JVal) → List (String × JVal)
  | [] => []
  | (k, e) :: rest =>
    (k, if entryEmit m k e then jsetObj e "xml" (JVal.str "") else e)
      :: blankEntries m rest

theorem blocklyPhase_wf : ∀ (entries : List (String × JVal))
    (m : List (JVal × String)), entries.all (fun p => entryIsObj p.2) = true →
    blocklyPhase entries m = .ok (xmlFilesSpec m entries, blankEntries m entries)
  | [], _, _ => rfl
  | (k, e) :: rest, m, h => by
    rw [List.all_cons, Bool.and_eq_true] at h
    match e, h with
    | .obj ees, h =>
      unfold blocklyPhase
      rw [jcontains_obj]
      simp only [Bind.bind, Except.bind]
      cases hx : hasKeyB ees "xml" with
      | true =>
        rw [if_pos rfl]
        cases hm : (jdictGet m (JVal.str k)).isSome with
        | true =>
          rw [if_pos rfl]
          obtain ⟨name, hname⟩ := Option.isSome_iff_exists.mp hm
          have hxl : ∃ xmlv, jlookup ees "xml" = some xmlv := by
            rw [← isSome_jlookup_eq_hasKeyB] at hx
            exact Option.isSome_iff_exists.mp hx
          obtain ⟨xmlv, hxv⟩ := hxl
          rw [show jindex (JVal.obj ees) "xml" = .ok xmlv by simp [jindex, hxv]]
          simp only [Except.bind]
          rw [blocklyPhase_wf rest m h.2]
          simp only [Except.bind]
          rw [xmlFilesSpec, blankEntries]
          have hemit : entryEmit m k (JVal.obj ees) = true := by
            rw [entryEmit, entryHasXml, hx, hm]
            rfl
          rw [hemit]
          simp only [if_pos rfl, xmlFileName, hname, Option.getD_some,
            List.singleton_append]
          rw [show jget (JVal.obj ees) "xml" = some xmlv from by simp [jget, hxv]]
          rfl
        | false =>
          rw [if_neg (by simp)]
          rw [blocklyPhase_wf rest m h.2]
          simp only [Except.bind]
          rw [xmlFilesSpec, blankEntries]
          have hemit : entryEmit m k (JVal.obj ees) = false := by
            rw [entryEmit, entryHasXml, hm]
            simp
          rw [hemit]
          simp
      | false =>
        rw [if_neg (by simp)]
        rw [blocklyPhase_wf rest m h.2]
        simp only [Except.bind]
        rw [xmlFilesSpec, blankEntries]
        have hemit : entryEmit m k (JVal.obj ees) = false := by
          rw [entryEmit, entryHasXml, hx]
          rfl
        rw [hemit]
        simp

theorem flatSpec_wfScreen : ∀ (children : List JVal),
    children.all wfChildNode = true → (flatSpec children).all wfScreen = true
  | [], _ => rfl
  | c :: rest, h => by
    rw [List.all_cons, Bool.and_eq_true] at h
    rw [flatSpec, List.all_append, Bool.and_eq_true]
    refine ⟨?_, flatSpec_wfScreen rest h.2⟩
    obtain ⟨es, t, hc, ht, hnav⟩ := wfChildNode_type h.1
    subst hc
    have hwf := h.1
    rw [wfChildNode, Bool.and_eq_true] at hwf
    cases hn : isNavB (.obj es) with
    | true =>
      rw [hn, if_pos rfl, Bool.and_eq_true] at hwf
      rw [if_pos rfl]
      cases hch : jlookup es "children" with
      | none =>
        rw [hch] at hwf
        exact absurd hwf.2.2 (by simp)
      | some chv =>
        rw [hch] at hwf
        match chv, hwf with
        | .arr l, hwf =>
          rw [show navChildren (.obj es) = l by rw [navChildren, hch]]
          exact hwf.2.2
    | false =>
      rw [hn, if_neg (by simp)] at hwf
      rw [if_neg (by simp)]
      rw [List.all_cons, Bool.and_eq_true]
      exact ⟨hwf.2, rfl⟩

/-- The `meta.json` document of the split: the input with its
`components.children` stubbed and its emitted `blockly` entries blanked. -/
def metaSpec (pes des ies ces : List (String × JVal)) (children : List JVal)
    (bes : List (String × JVal)) : JVal :=
  .obj (dictInsert pes "data" (.obj (dictInsert des "project" (.obj
    (dictInsert (dictInsert ies "components" (.obj (dictInsert ces "children"
      (.arr (restubSpec children))))) "blockly"
      (.obj (blankEntries (idMapSpec (flatSpec children) []) bes)))))))

/-- The full modular file dict of the split. -/
def modularSpec (pes des ies ces : List (String × JVal)) (children : List JVal)
    (bes : List (String × JVal)) : List (String × JVal) :=
  dictInsert
    (dictInsertAll (dictInsertAll [] (jsonFilesSpec (flatSpec children)))
      (xmlFilesSpec (idMapSpec (flatSpec children) []) bes))
    "meta.json" (metaSpec pes des ies ces children bes)

theorem toModularProject_wf (pes des ies ces bes : List (String × JVal))
    (children : List JVal)
    (hd : jlookup pes "data" = some (.obj des))
    (hip : jlookup des "project" = some (.obj ies))
    (hcomp : jlookup ies "components" = some (.obj ces))
    (hch : jlookup ces "children" = some (.arr children))
    (hblk : jlookup ies "blockly" = some (.obj bes))
    (hwfc : children.all wfChildNode = true)
    (hbes : bes.all (fun p => entryIsObj p.2) = true) :
    toModularProject (.obj pes) =
      .ok (modularSpec pes des ies ces children bes) := by
  unfold toModularProject
  rw [show jindex (JVal.obj pes) "data" = .ok (.obj des) by simp [jindex, hd]]
  simp only [Bind.bind, Except.bind]
  rw [show jindex (JVal.obj des) "project" = .ok (.obj ies) by
    simp [jindex, hip]]
  simp only [Except.bind]
  rw [show jindex (JVal.obj ies) "components" = .ok (.obj ces) by
    simp [jindex, hcomp]]
  simp only [Except.bind]
  rw [show jindex (JVal.obj ces) "children" = .ok (.arr children) by
    simp [jindex, hch]]
  simp only [Except.bind, iterableElems]
  rw [flattenSplit_wf children hwfc]
  simp only [Except.bind]
  rw [screensPhase_wf (flatSpec children) [] (flatSpec_wfScreen children hwfc)]
  simp only [Except.bind]
  have hre : restubChildren children (stubsSpec (flatSpec children)) =
      .ok (restubSpec children) := by
    have hx := restubChildren_wf children [] hwfc
    rwa [List.append_nil] at hx
  rw [hre]
  simp only [Except.bind]
  rw [show jindex (JVal.obj ies) "blockly" = .ok (.obj bes) by
    simp [jindex, hblk]]
  simp only [Except.bind]
  rw [blocklyPhase_wf bes (idMapSpec (flatSpec children) []) hbes]
  simp only [Except.map, Except.bind]
  simp [modularSpec, metaSpec, jsetObj]

/-! ### File-name parsing lemmas -/

/-- A character list without dots. -/
def dotFree (cs : List Char) : Bool := cs.all (fun c => !(c == '.'))

theorem string_ext {a b : String} (h : a.toList = b.toList) : a = b := by
  cases a
  cases b
  simp only [String.toList] at h
  rw [h]

theorem lastDotSplit_none : ∀ (cs : List Char), dotFree cs = true →
    lastDotSplit cs = none
  | [], _ => rfl
  | c :: rest, h => by
    rw [dotFree, List.all_cons, Bool.and_eq_true] at h
    unfold lastDotSplit
    rw [lastDotSplit_none rest h.2]
    rw [if_neg (by rw [Bool.not_eq_true'] at h; simp [h.1])]

theorem lastDotSplit_append : ∀ (xs ys : List Char), dotFree ys = true →
    lastDotSplit (xs ++ '.' :: ys) = some (xs, ys)
  | [], ys, h => by
    rw [List.nil_append]
    unfold lastDotSplit
    rw [lastDotSplit_none ys h]
    simp
  | x :: xs, ys, h => by
    rw [List.cons_append]
    unfold lastDotSplit
    rw [lastDotSplit_append xs ys h]

theorem splitDots_ne_nil : ∀ (cs : List Char), splitDots cs ≠ []
  | [] => by simp [splitDots]
  | c :: rest => by
    unfold splitDots
    cases hs : splitDots rest with
    | nil => simp
    | cons h t =>
      by_cases hc : c = '.'
      · simp [hc]
      · simp [hc]

theorem splitDots_dotFree : ∀ (cs : List Char), dotFree cs = true →
    splitDots cs = [cs]
  | [], _ => rfl
  | c :: rest, h => by
    rw [dotFree, List.all_cons, Bool.and_eq_true] at h
    unfold splitDots
    rw [splitDots_dotFree rest (by rw [dotFree]; exact h.2)]
    rw [Bool.not_eq_true'] at h
    simp [h.1]

theorem splitDots_append : ∀ (xs ys : List Char), dotFree xs = true →
    splitDots (xs ++ '.' :: ys) = xs :: splitDots ys := by
  intro xs
  induction xs with
  | nil =>
    intro ys _
    rcases hx : splitDots ys with _ | ⟨h, t⟩
    · exact absurd hx (splitDots_ne_nil ys)
    · rw [List.nil_append, splitDots, hx]
      simp [hx]
  | cons x xs ih =>
    intro ys h
    rw [dotFree, List.all_cons, Bool.and_eq_true] at h
    have hrec := ih ys (by rw [dotFree]; exact h.2)
    rw [List.cons_append, splitDots, hrec]
    rw [Bool.not_eq_true'] at h
    simp [h.1]

theorem pyNameSplit_ext (stem ext : List Char) (hs : stem ≠ []) (he : ext ≠ [])
    (hdf : dotFree ext = true) :
    pyNameSplit (String.mk (stem ++ '.' :: ext)) =
      (String.mk stem, String.mk ('.' :: ext)) := by
  unfold pyNameSplit
  rw [show (String.mk (stem ++ '.' :: ext)).toList = stem ++ '.' :: ext from rfl]
  rw [lastDotSplit_append stem ext hdf]
  simp [hs, he]

theorem toList_dotcat (n i : String) :
    (n ++ "." ++ i).toList = n.toList ++ '.' :: i.toList := by
  rw [show (n ++ "." ++ i).toList = n.toList ++ ".".toList ++ i.toList from rfl]
  simp

theorem pyNameSplit_json (n i : String) :
    pyNameSplit (n ++ "." ++ i ++ ".json") = (n ++ "." ++ i, ".json") := by
  have h1 : (n ++ "." ++ i ++ ".json").toList =
      (n ++ "." ++ i).toList ++ '.' :: "json".toList := rfl
  have h2 : n ++ "." ++ i ++ ".json" =
      String.mk ((n ++ "." ++ i).toList ++ '.' :: "json".toList) := string_ext h1
  rw [h2, pyNameSplit_ext _ _ (by rw [toList_dotcat]; simp) (by simp) (by decide)]
  rw [Prod.ext_iff]
  exact ⟨string_ext rfl, string_ext rfl⟩

theorem pyNameSplit_xml (n i : String) :
    pyNameSplit (n ++ "." ++ i ++ ".xml") = (n ++ "." ++ i, ".xml") := by
  have h1 : (n ++ "." ++ i ++ ".xml").toList =
      (n ++ "." ++ i).toList ++ '.' :: "xml".toList := rfl
  have h2 : n ++ "." ++ i ++ ".xml" =
      String.mk ((n ++ "." ++ i).toList ++ '.' :: "xml".toList) := string_ext h1
  rw [h2, pyNameSplit_ext _ _ (by rw [toList_dotcat]; simp) (by simp) (by decide)]
  rw [Prod.ext_iff]
  exact ⟨string_ext rfl, string_ext rfl⟩

/-! ### Further dictionary lemmas -/

theorem jlookup_dictInsert_self (es : List (String × JVal)) (k : String)
    (v : JVal) : jlookup (dictInsert es k v) k = some v := by
  rw [jlookup_dictInsert, if_pos rfl]

theorem dictInsert_dictInsert : ∀ (es : List (String × JVal)) (k : String)
    (a b : JVal), dictInsert (dictInsert es k a) k b = dictInsert es k b
  | [], k, a, b => by simp [dictInsert]
  | (k', w) :: rest, k, a, b => by
    by_cases h : k' = k
    · subst h
      rw [dictInsert, if_pos rfl, dictInsert, if_pos rfl, dictInsert, if_pos rfl]
    · rw [dictInsert, if_neg h, dictInsert, if_neg h, dictInsert, if_neg h,
        dictInsert_dictInsert rest k a b]

theorem hasKeyB_dictInsert : ∀ (es : List (String × JVal)) (k : String)
    (v : JVal) (q : String),
    hasKeyB (dictInsert es k v) q = (decide (k = q) || hasKeyB es q)
  | [], k, v, q => by simp [dictInsert, hasKeyB]
  | (k', w) :: rest, k, v, q => by
    by_cases h : k' = k
    · subst h
      rw [dictInsert, if_pos rfl]
      simp only [hasKeyB, List.any_cons]
      cases decide (k' = q) <;> simp
    · rw [dictInsert, if_neg h]
      simp only [hasKeyB, List.any_cons]
      have hrec := hasKeyB_dictInsert rest k v q
      simp only [hasKeyB] at hrec
      rw [hrec]
      cases decide (k' = q) <;> cases decide (k = q) <;> simp

theorem hasKeyB_append (a b : List (String × JVal)) (k : String) :
    hasKeyB (a ++ b) k = (hasKeyB a k || hasKeyB b k) := by
  simp [hasKeyB]

theorem jlookup_append_absent : ∀ (a b : List (String × JVal)) (k : String),
    hasKeyB a k = false → jlookup (a ++ b) k = jlookup b k
  | [], b, k, _ => rfl
  | (k', w) :: rest, b, k, h => by
    rw [hasKeyB, List.any_cons, Bool.or_eq_false_iff] at h
    rw [List.cons_append, jlookup,
      if_neg (by simpa using h.1), jlookup_append_absent rest b k h.2]

theorem jlookup_append_left : ∀ (a b : List (String × JVal)) (k : String),
    hasKeyB a k = true → jlookup (a ++ b) k = jlookup a k
  | [], b, k, h => by simp [hasKeyB] at h
  | (k', w) :: rest, b, k, h => by
    by_cases hk : k' = k
    · subst hk
      rw [List.cons_append, jlookup, if_pos rfl, jlookup, if_pos rfl]
    · rw [hasKeyB, List.any_cons, Bool.or_eq_true] at h
      rcases h with h | h
      · exact absurd (of_decide_eq_true h) hk
      · rw [List.cons_append, jlookup, if_neg hk, jlookup, if_neg hk,
          jlookup_append_left rest b k h]

theorem dictInsert_absent : ∀ (es : List (String × JVal)) (k : String)
    (v : JVal), hasKeyB es k = false → dictInsert es k v = es ++ [(k, v)]
  | [], k, v, _ => rfl
  | (k', w) :: rest, k, v, h => by
    rw [hasKeyB, List.any_cons, Bool.or_eq_false_iff] at h
    rw [dictInsert, if_neg (by simpa using h.1),
      dictInsert_absent rest k v h.2, List.cons_append]

theorem dictRemove_append_absent (a : List (String × JVal)) (k : String)
    (v : JVal) (h : hasKeyB a k = false) :
    dictRemove (a ++ [(k, v)]) k = a := by
  induction a with
  | nil => simp [dictRemove]
  | cons p rest ih =>
    obtain ⟨k0, w⟩ := p
    rw [hasKeyB, List.any_cons, Bool.or_eq_false_iff] at h
    rw [List.cons_append, dictRemove]
    rw [if_neg (by simpa using h.1), ih h.2]

theorem hasKeyB_of_mem {es : List (String × JVal)} {p : String × JVal}
    (h : p ∈ es) : hasKeyB es p.1 = true := by
  rw [hasKeyB, List.any_eq_true]
  exact ⟨p, h, by simp⟩

theorem dictInsertAll_absent : ∀ (l base : List (String × JVal)),
    nodupKeysB l = true → (∀ p ∈ l, hasKeyB base p.1 = false) →
    dictInsertAll base l = base ++ l
  | [], base, _, _ => by simp [dictInsertAll]
  | (k, v) :: rest, base, hn, hb => by
    rw [nodupKeysB, Bool.and_eq_true] at hn
    have h0 : hasKeyB base k = false := hb (k, v) (List.mem_cons_self _ _)
    have hstep : dictInsertAll base ((k, v) :: rest) =
        dictInsertAll (dictInsert base k v) rest := rfl
    rw [hstep, dictInsertAll_absent rest (dictInsert base k v) hn.2 ?_,
      dictInsert_absent base k v h0, List.append_assoc, List.singleton_append]
    intro p hp
    rw [hasKeyB_dictInsert]
    have hk : hasKeyB rest k = false := by
      have := hn.1
      rwa [Bool.not_eq_true'] at this
    have hpk : decide (k = p.1) = false := by
      rw [decide_eq_false_iff_not]
      intro hc
      subst hc
      have hmem : hasKeyB rest p.1 = true := hasKeyB_of_mem hp
      rw [hmem] at hk
      exact Bool.noConfusion hk
    rw [hpk, hb p (List.mem_cons_of_mem _ hp)]
    rfl

/-! ### Python equality lemmas -/

theorem pyEqSub_of_mem : ∀ (a b : List (String × JVal)),
    (∀ p ∈ a, ∃ w, jlookup b p.1 = some w ∧ pyEq p.2 w = true) →
    pyEqSub a b = true
  | [], _, _ => rfl
  | (k, v) :: rest, b, h => by
    obtain ⟨w, hw, hpe⟩ := h (k, v) (List.mem_cons_self _ _)
    rw [pyEqSub, Bool.and_eq_true]
    constructor
    · rw [hw]
      exact hpe
    · exact pyEqSub_of_mem rest b (fun p hp => h p (List.mem_cons_of_mem _ hp))

theorem pyEq_objs {a b : List (String × JVal)}
    (h1 : ∀ p ∈ a, ∃ w, jlookup b p.1 = some w ∧ pyEq p.2 w = true)
    (h2 : ∀ q ∈ b, hasKeyB a q.1 = true) :
    pyEq (.obj a) (.obj b) = true := by
  rw [pyEq, Bool.and_eq_true]
  exact ⟨pyEqSub_of_mem a b h1, List.all_eq_true.mpr (fun q hq => h2 q hq)⟩

mutual

theorem pyEq_refl : ∀ (v : JVal), deepWF v = true → pyEq v v = true
  | .null, _ => rfl
  | .bool b, _ => by simp [pyEq]
  | .num n, _ => by simp [pyEq]
  | .str s, _ => by simp [pyEq]
  | .arr l, h => by
    rw [pyEq]
    exact pyEqList_refl l (by rwa [deepWF] at h)
  | .obj es, h => by
    rw [deepWF, Bool.and_eq_true] at h
    refine pyEq_objs (fun p hp => ?_) (fun q hq => hasKeyB_of_mem hq)
    exact ⟨p.2, by rw [← mem_jlookup hp h.1], pyEqEntries_refl es h.2 p hp⟩

theorem pyEqList_refl : ∀ (l : List JVal), deepWFList l = true →
    pyEqList l l = true
  | [], _ => rfl
  | v :: rest, h => by
    rw [deepWFList, Bool.and_eq_true] at h
    rw [pyEqList, Bool.and_eq_true]
    exact ⟨pyEq_refl v h.1, pyEqList_refl rest h.2⟩

theorem pyEqEntries_refl : ∀ (es : List (String × JVal)),
    deepWFEntries es = true → ∀ p ∈ es, pyEq p.2 p.2 = true
  | [], _, p, hp => absurd hp (List.not_mem_nil p)
  | (k, v) :: rest, h, p, hp => by
    rw [deepWFEntries, Bool.and_eq_true] at h
    rcases List.mem_cons.mp hp with hq | hq
    · rw [hq]
      exact pyEq_refl v h.1
    · exact pyEqEntries_refl rest h.2 p hq

end

theorem pyEqList_map (f : JVal → JVal) : ∀ (l : List JVal),
    (∀ c ∈ l, pyEq (f c) c = true) → pyEqList (l.map f) l = true
  | [], _ => rfl
  | v :: rest, h => by
    rw [List.map_cons, pyEqList, Bool.and_eq_true]
    exact ⟨h v (List.mem_cons_self _ _),
      pyEqList_map f rest (fun c hc => h c (List.mem_cons_of_mem _ hc))⟩

/-- `(k, v)` membership in `dictInsert` under unique keys: the inserted
binding, or an untouched old one. -/
theorem mem_dictInsert_nodup {es : List (String × JVal)} {k : String} {v : JVal}
    {p : String × JVal} (hn : nodupKeysB es = true) (hp : p ∈ dictInsert es k v) :
    p = (k, v) ∨ (p ∈ es ∧ p.1 ≠ k) := by
  by_cases hk : p.1 = k
  · left
    have hnd := nodupKeysB_dictInsert es k v hn
    have hl := mem_jlookup hp hnd
    rw [hk, jlookup_dictInsert, if_pos rfl, Option.some.injEq] at hl
    obtain ⟨p1, p2⟩ := p
    simp only at hk hl
    rw [hk, hl]
  · right
    rcases mem_dictInsert hp with h | h
    · exact absurd h hk
    · exact ⟨h, hk⟩

/-! ### File-name corollaries -/

/-- The screen-id segment the merge extracts from a `.json` file name: the
last dot-segment of the stem. -/
def jsonSeg (fname : String) : String :=
  String.mk ((splitDots (pyStem fname).toList).getLastD [])

theorem dotFree_of_validName {l : List Char} (h : l.all isScreenNameChar = true) :
    dotFree l = true := by
  rw [dotFree, List.all_eq_true]
  intro c hc
  have h1 := List.all_eq_true.mp h c hc
  by_contra hd
  have hd2 : c = '.' := by simpa using hd
  subst hd2
  exact absurd h1 (by decide)

theorem dotFree_of_plainId {i : String} (h : isPlainId i = true) :
    dotFree i.toList = true := by
  rw [isPlainId, List.all_eq_true] at h
  rw [dotFree, List.all_eq_true]
  intro c hc
  have h2 := h c hc
  rw [Bool.and_eq_true] at h2
  exact h2.1

theorem pyStem_json (n i : String) :
    pyStem (n ++ "." ++ i ++ ".json") = n ++ "." ++ i := by
  rw [pyStem, pyNameSplit_json]

theorem pySuffix_json (n i : String) :
    pySuffix (n ++ "." ++ i ++ ".json") = ".json" := by
  rw [pySuffix, pyNameSplit_json]

theorem pyStem_xml (n i : String) :
    pyStem (n ++ "." ++ i ++ ".xml") = n ++ "." ++ i := by
  rw [pyStem, pyNameSplit_xml]

theorem pySuffix_xml (n i : String) :
    pySuffix (n ++ "." ++ i ++ ".xml") = ".xml" := by
  rw [pySuffix, pyNameSplit_xml]

theorem splitDots_dotcat (n i : String) (hn : dotFree n.toList = true)
    (hi : dotFree i.toList = true) :
    splitDots (n ++ "." ++ i).toList = [n.toList, i.toList] := by
  rw [toList_dotcat, splitDots_append n.toList i.toList hn,
    splitDots_dotFree i.toList hi]

theorem jsonSeg_json (n i : String) (hn : dotFree n.toList = true)
    (hi : dotFree i.toList = true) :
    jsonSeg (n ++ "." ++ i ++ ".json") = i := by
  rw [jsonSeg, pyStem_json, splitDots_dotcat n i hn hi]
  rfl

theorem xmlSeg_xml (n i : String) (hn : dotFree n.toList = true)
    (hi : dotFree i.toList = true) :
    (splitDots (pyStem (n ++ "." ++ i ++ ".xml")).toList).get? 1 =
      some i.toList := by
  rw [pyStem_xml, splitDots_dotcat n i hn hi]
  rfl

theorem json_ne_meta (n i : String) (hn : dotFree n.toList = true)
    (hi : dotFree i.toList = true) :
    n ++ "." ++ i ++ ".json" ≠ "meta.json" := by
  intro h
  have h2 := congrArg (fun s => (splitDots (pyStem s).toList).length) h
  simp only [pyStem_json, splitDots_dotcat n i hn hi] at h2
  have h3 : (splitDots (pyStem "meta.json").toList).length = 1 := by decide
  rw [h3] at h2
  exact Nat.noConfusion (Nat.succ.inj h2)

theorem json_ne_xml (n i n' i' : String) :
    n ++ "." ++ i ++ ".json" ≠ n' ++ "." ++ i' ++ ".xml" := by
  intro h
  have h2 := congrArg pySuffix h
  rw [pySuffix_json, pySuffix_xml] at h2
  exact absurd h2 (by decide)

theorem xml_ne_meta (n i : String) : n ++ "." ++ i ++ ".xml" ≠ "meta.json" := by
  intro h
  have h2 := congrArg pySuffix h
  rw [pySuffix_xml] at h2
  have h3 : pySuffix "meta.json" = ".json" := by decide
  rw [h3] at h2
  exact absurd h2 (by decide)

theorem jsonName_inj (n i n' i' : String) (hn : dotFree n.toList = true)
    (hi : dotFree i.toList = true) (hn' : dotFree n'.toList = true)
    (hi' : dotFree i'.toList = true)
    (h : n ++ "." ++ i ++ ".json" = n' ++ "." ++ i' ++ ".json") : i = i' := by
  have h2 := congrArg jsonSeg h
  rwa [jsonSeg_json n i hn hi, jsonSeg_json n' i' hn' hi'] at h2

theorem xmlName_inj (n i n' i' : String) (hn : dotFree n.toList = true)
    (hi : dotFree i.toList = true) (hn' : dotFree n'.toList = true)
    (hi' : dotFree i'.toList = true)
    (h : n ++ "." ++ i ++ ".xml" = n' ++ "." ++ i' ++ ".xml") : i = i' := by
  have h2 := congrArg (fun s => (splitDots (pyStem s).toList).get? 1) h
  simp only [xmlSeg_xml n i hn hi, xmlSeg_xml n' i' hn' hi',
    Option.some.injEq] at h2
  exact string_ext h2

theorem wfScreen_fields {s : JVal} (h : wfScreen s = true) :
    (screenName s).toList.all isScreenNameChar = true ∧
      isPlainId (screenId s) = true := by
  match s, h with
  | .obj es, h =>
    rw [wfScreen, Bool.and_eq_true] at h
    obtain ⟨h1, h2⟩ := h
    cases hn : jlookup es "name" with
    | none => rw [hn] at h1; exact absurd h1 (by simp)
    | some nv =>
      rw [hn] at h1
      match nv, h1 with
      | .str n, h1 =>
        cases hi : jlookup es "id" with
        | none => rw [hi] at h2; exact absurd h2 (by simp)
        | some iv =>
          rw [hi] at h2
          match iv, h2 with
          | .str i, h2 =>
            rw [screenName, screenId, hn, hi]
            exact ⟨h1, h2⟩

/-! ### C7: navigator flattening -/

/-- **C7.** The split flattens `components.children` in order, splicing a
node's children in its place exactly when its `type` contains "Navigator"
(one level) and keeping the node otherwise (`flatSpec`); a document whose
`components.children` is a single Navigator-typed node wrapping two screens
yields exactly the two per-screen `.json` files, in the navigator's
internal order, and the split succeeds with the modular file set built from
them. -/
theorem C7_navigator_flattening
    (pes des ies ces bes nes : List (String × JVal)) (t : String) (s1 s2 : JVal)
    (hd : jlookup pes "data" = some (.obj des))
    (hip : jlookup des "project" = some (.obj ies))
    (hcomp : jlookup ies "components" = some (.obj ces))
    (hch : jlookup ces "children" = some (.arr [.obj nes]))
    (hblk : jlookup ies "blockly" = some (.obj bes))
    (ht : jlookup nes "type" = some (.str t))
    (hnav : strContainsSub t "Navigator" = true)
    (hname : hasKeyB nes "name" = true)
    (hnch : jlookup nes "children" = some (.arr [s1, s2]))
    (h1 : wfScreen s1 = true) (h2 : wfScreen s2 = true)
    (hbes : bes.all (fun p => entryIsObj p.2) = true) :
    (∀ cs : List JVal, cs.all wfChildNode = true →
        flattenSplit cs = .ok (flatSpec cs)) ∧
    flatSpec [JVal.obj nes] = [s1, s2] ∧
    jsonFilesSpec (flatSpec [JVal.obj nes]) =
      [(jsonName s1, s1), (jsonName s2, s2)] ∧
    toModularProject (.obj pes) =
      .ok (modularSpec pes des ies ces [JVal.obj nes] bes) := by
  have hflat : flatSpec [JVal.obj nes] = [s1, s2] := by
    simp [flatSpec, isNavB, ht, hnav, navChildren, hnch]
  have hwfc : ([JVal.obj nes] : List JVal).all wfChildNode = true := by
    simp [wfChildNode, ht, isNavB, hnav, hname, hnch, h1, h2]
  refine ⟨fun cs h => flattenSplit_wf cs h, hflat, ?_, ?_⟩
  · rw [hflat]
    simp [jsonFilesSpec]
  · exact toModularProject_wf pes des ies ces bes [JVal.obj nes]
      hd hip hcomp hch hblk hwfc hbes

def C7s1 : JVal := .obj [("name", .str "Home"), ("id", .str "a1")]

def C7s2 : JVal := .obj [("name", .str "Detail"), ("id", .str "a2")]

def C7nes : List (String × JVal) :=
  [("type", .str "StackNavigator"), ("name", .str "Nav"),
    ("children", .arr [C7s1, C7s2])]

def C7ces : List (String × JVal) := [("children", .arr [.obj C7nes])]

def C7ies : List (String × JVal) :=
  [("components", .obj C7ces), ("blockly", .obj [])]

def C7des : List (String × JVal) := [("project", .obj C7ies)]

def C7pes : List (String × JVal) := [("data", .obj C7des)]

theorem C7_navigator_flattening_witness :
    flatSpec [JVal.obj C7nes] = [C7s1, C7s2] ∧
    jsonFilesSpec (flatSpec [JVal.obj C7nes]) =
      [(jsonName C7s1, C7s1), (jsonName C7s2, C7s2)] ∧
    toModularProject (.obj C7pes) =
      .ok (modularSpec C7pes C7des C7ies C7ces [JVal.obj C7nes] []) := by
  have h := C7_navigator_flattening C7pes C7des C7ies C7ces [] C7nes
    "StackNavigator" C7s1 C7s2 rfl rfl rfl rfl rfl rfl (by decide) (by decide)
    rfl (by decide) (by decide) (by decide)
  exact ⟨h.2.1, h.2.2.1, h.2.2.2⟩

/-! ### C6: screen-name validation -/

/-- A screen node with a string `name` (of any content) and a plain string
`id`: the shape the screens loop needs to reach its name check. -/
def wfScreenLoose (s : JVal) : Bool :=
  match s with
  | .obj es =>
    (match jlookup es "name" with
      | some (.str _) => true
      | _ => false)
    && (match jlookup es "id" with
        | some (.str i) => isPlainId i
        | _ => false)
  | _ => false

/-- `wfChildNode` without the name-validity requirement on screens. -/
def wfChildNodeLoose (c : JVal) : Bool :=
  match c with
  | .obj es =>
    (match jlookup es "type" with
      | some (.str _) => true
      | _ => false)
    && (if isNavB c then
          hasKeyB es "name" &&
            (match jlookup es "children" with
              | some (.arr l) => l.all wfScreenLoose
              | _ => false)
        else wfScreenLoose c)
  | _ => false

/-- Whether a screen's name contains a character outside `[\w\- ]` (the
condition `re.search` rejects). -/
def invalidNameB (s : JVal) : Bool :=
  (screenName s).toList.any (fun c => ! isScreenNameChar c)

/-- The spec's screen-name pattern `^[\w\- ]+$`: only allowed characters
and at least one of them. -/
def specValidName (n : String) : Bool :=
  !(n == "") && n.toList.all isScreenNameChar

theorem wfChildNodeLoose_type {c : JVal} (h : wfChildNodeLoose c = true) :
    ∃ es t, c = .obj es ∧ jlookup es "type" = some (.str t) ∧
      isNavB c = strContainsSub t "Navigator" := by
  match c, h with
  | .obj es, h =>
    rw [wfChildNodeLoose, Bool.and_eq_true] at h
    cases ht : jlookup es "type" with
    | none => rw [ht] at h; exact absurd h.1 (by simp)
    | some tv =>
      rw [ht] at h
      match tv, h with
      | .str t, h =>
        exact ⟨es, t, rfl, ht, by rw [isNavB, ht]⟩

theorem flattenSplit_loose : ∀ (children : List JVal),
    children.all wfChildNodeLoose = true →
    flattenSplit children = .ok (flatSpec children)
  | [], _ => rfl
  | c :: rest, h => by
    rw [List.all_cons, Bool.and_eq_true] at h
    obtain ⟨es, t, hc, ht, hnav⟩ := wfChildNodeLoose_type h.1
    subst hc
    unfold flattenSplit
    rw [show jindex (JVal.obj es) "type" = .ok (.str t) by simp [jindex, ht]]
    simp only [Bind.bind, Except.bind, jcontains]
    rw [← hnav]
    cases hn : isNavB (.obj es) with
    | true =>
      rw [if_pos rfl]
      have hwf := h.1
      rw [wfChildNodeLoose, Bool.and_eq_true, hn, if_pos rfl,
        Bool.and_eq_true] at hwf
      cases hch : jlookup es "children" with
      | none =>
        rw [hch] at hwf
        exact absurd hwf.2.2 (by simp)
      | some chv =>
        rw [hch] at hwf
        match chv, hwf with
        | .arr l, hwf =>
          rw [show jindex (JVal.obj es) "children" = .ok (.arr l) by
            simp [jindex, hch]]
          simp only [Except.bind, iterableElems]
          rw [flattenSplit_loose rest h.2]
          simp [flatSpec, hn, navChildren, hch]
    | false =>
      rw [if_neg (by simp)]
      rw [flattenSplit_loose rest h.2]
      simp [flatSpec, hn]

theorem wfScreen_of_loose {s : JVal} (h : wfScreenLoose s = true)
    (hv : invalidNameB s = false) : wfScreen s = true := by
  match s, h with
  | .obj es, h =>
    rw [wfScreenLoose, Bool.and_eq_true] at h
    obtain ⟨h1, h2⟩ := h
    rw [wfScreen, Bool.and_eq_true]
    refine ⟨?_, h2⟩
    cases hn : jlookup es "name" with
    | none => rw [hn] at h1; exact absurd h1 (by simp)
    | some nv =>
      rw [hn] at h1
      match nv, h1 with
      | .str n, _ =>
        rw [invalidNameB, screenName, hn] at hv
        simp only [List.any_eq_false] at hv
        show n.toList.all isScreenNameChar = true
        rw [List.all_eq_true]
        intro c hc
        simpa using hv c hc

theorem flatSpec_wfScreenLoose : ∀ (children : List JVal),
    children.all wfChildNodeLoose = true →
    (flatSpec children).all wfScreenLoose = true
  | [], _ => rfl
  | c :: rest, h => by
    rw [List.all_cons, Bool.and_eq_true] at h
    rw [flatSpec, List.all_append, Bool.and_eq_true]
    refine ⟨?_, flatSpec_wfScreenLoose rest h.2⟩
    obtain ⟨es, t, hc, ht, hnav⟩ := wfChildNodeLoose_type h.1
    subst hc
    have hwf := h.1
    rw [wfChildNodeLoose, Bool.and_eq_true] at hwf
    cases hn : isNavB (.obj es) with
    | true =>
      rw [hn, if_pos rfl, Bool.and_eq_true] at hwf
      rw [if_pos rfl]
      cases hch : jlookup es "children" with
      | none =>
        rw [hch] at hwf
        exact absurd hwf.2.2 (by simp)
      | some chv =>
        rw [hch] at hwf
        match chv, hwf with
        | .arr l, hwf =>
          rw [show navChildren (.obj es) = l by rw [navChildren, hch]]
          exact hwf.2.2
    | false =>
      rw [hn, if_neg (by simp)] at hwf
      rw [if_neg (by simp)]
      rw [List.all_cons, Bool.and_eq_true]
      exact ⟨hwf.2, rfl⟩

theorem wfChildNode_of_loose : ∀ (children : List JVal),
    children.all wfChildNodeLoose = true →
    (flatSpec children).any invalidNameB = false →
    children.all wfChildNode = true
  | [], _, _ => rfl
  | c :: rest, h, ha => by
    rw [List.all_cons, Bool.and_eq_true] at h
    rw [flatSpec, List.any_append, Bool.or_eq_false_iff] at ha
    rw [List.all_cons, Bool.and_eq_true]
    refine ⟨?_, wfChildNode_of_loose rest h.2 ha.2⟩
    obtain ⟨es, t, hc, ht, hnav⟩ := wfChildNodeLoose_type h.1
    subst hc
    have hwf := h.1
    rw [wfChildNodeLoose, Bool.and_eq_true] at hwf
    rw [wfChildNode, Bool.and_eq_true]
    refine ⟨hwf.1, ?_⟩
    cases hn : isNavB (.obj es) with
    | true =>
      rw [hn, if_pos rfl, Bool.and_eq_true] at hwf
      rw [if_pos rfl, Bool.and_eq_true]
      refine ⟨hwf.2.1, ?_⟩
      have hav := ha.1
      rw [if_pos hn] at hav
      cases hch : jlookup es "children" with
      | none =>
        rw [hch] at hwf
        exact absurd hwf.2.2 (by simp)
      | some chv =>
        rw [hch] at hwf
        match chv, hwf with
        | .arr l, hwf =>
          rw [show navChildren (.obj es) = l by rw [navChildren, hch]] at hav
          rw [List.any_eq_false] at hav
          rw [List.all_eq_true]
          intro s hs
          exact wfScreen_of_loose (List.all_eq_true.mp hwf.2.2 s hs)
            (by simpa using hav s hs)
    | false =>
      rw [hn, if_neg (by simp)] at hwf
      rw [if_neg (by simp)]
      have hav := ha.1
      rw [if_neg (by simp [hn]), List.any_cons, Bool.or_eq_false_iff] at hav
      exact wfScreen_of_loose hwf.2 hav.1

theorem processScreenMeta_nameError {s : JVal} (h : wfScreenLoose s = true)
    (hi : invalidNameB s = true) : processScreenMeta s = .error .nameError := by
  match s, h with
  | .obj es, h =>
    rw [wfScreenLoose, Bool.and_eq_true] at h
    obtain ⟨h1, h2⟩ := h
    cases hn : jlookup es "name" with
    | none => rw [hn] at h1; exact absurd h1 (by simp)
    | some nv =>
      rw [hn] at h1
      match nv, h1 with
      | .str n, _ =>
        cases hid : jlookup es "id" with
        | none => rw [hid] at h2; exact absurd h2 (by simp)
        | some iv =>
          rw [hid] at h2
          match iv, h2 with
          | .str i, _ =>
            simp only [invalidNameB, screenName, hn] at hi
            unfold processScreenMeta
            rw [show jindex (JVal.obj es) "name" = .ok (.str n) by
                simp [jindex, hn],
              show jindex (JVal.obj es) "id" = .ok (.str i) by
                simp [jindex, hid]]
            simp only [Bind.bind, Except.bind, hi, if_true]

theorem screensPhase_nameError : ∀ (screens : List JVal)
    (m : List (JVal × String)), screens.all wfScreenLoose = true →
    screens.any invalidNameB = true →
    screensPhase screens m = .error .nameError
  | [], _, _, ha => by simp at ha
  | s :: rest, m, h, ha => by
    rw [List.all_cons, Bool.and_eq_true] at h
    cases hs : invalidNameB s with
    | true =>
      unfold screensPhase
      rw [processScreenMeta_nameError h.1 hs]
      rfl
    | false =>
      have hrest : rest.any invalidNameB = true := by
        rw [List.any_cons, hs] at ha
        simpa using ha
      unfold screensPhase
      rw [processScreenMeta_wf (wfScreen_of_loose h.1 hs)]
      simp only [Bind.bind, Except.bind]
      rw [screensPhase_nameError rest _ h.2 hrest]

/-- **C6.** (Corrected.)  With the document shaped so the screens loop is
reached (spine present, every flattened screen a dict with a string `name`
and a plain `id`), the split aborts with the validation error iff some
flattened screen's name contains a character outside `[\w\- ]`.  This is
weaker than the spec's `^[\w\- ]+$`: the empty name has no forbidden
character, so it passes the code's check although it does not match the
spec's pattern (see the counterexample). -/
theorem C6_name_validation
    (pes des ies ces bes : List (String × JVal)) (children : List JVal)
    (hd : jlookup pes "data" = some (.obj des))
    (hip : jlookup des "project" = some (.obj ies))
    (hcomp : jlookup ies "components" = some (.obj ces))
    (hch : jlookup ces "children" = some (.arr children))
    (hblk : jlookup ies "blockly" = some (.obj bes))
    (hwfc : children.all wfChildNodeLoose = true)
    (hbes : bes.all (fun p => entryIsObj p.2) = true) :
    toModularProject (.obj pes) = .error .nameError ↔
      (flatSpec children).any invalidNameB = true := by
  constructor
  · intro he
    cases hany : (flatSpec children).any invalidNameB with
    | true => rfl
    | false =>
      exfalso
      have hstrict := wfChildNode_of_loose children hwfc hany
      have hok := toModularProject_wf pes des ies ces bes children hd hip
        hcomp hch hblk hstrict hbes
      rw [hok] at he
      exact Except.noConfusion he
  · intro hany
    have hflat : (flatSpec children).all wfScreenLoose = true :=
      flatSpec_wfScreenLoose children hwfc
    unfold toModularProject
    rw [show jindex (JVal.obj pes) "data" = .ok (.obj des) by simp [jindex, hd]]
    simp only [Bind.bind, Except.bind]
    rw [show jindex (JVal.obj des) "project" = .ok (.obj ies) by
      simp [jindex, hip]]
    simp only [Except.bind]
    rw [show jindex (JVal.obj ies) "components" = .ok (.obj ces) by
      simp [jindex, hcomp]]
    simp only [Except.bind]
    rw [show jindex (JVal.obj ces) "children" = .ok (.arr children) by
      simp [jindex, hch]]
    simp only [Except.bind, iterableElems]
    rw [flattenSplit_loose children hwfc]
    simp only [Except.bind]
    rw [screensPhase_nameError (flatSpec children) [] hflat hany]

def C6exScreen : JVal :=
  .obj [("name", .str ""), ("id", .str "s1"), ("type", .str "Screen")]

def C6exCes : List (String × JVal) := [("children", .arr [C6exScreen])]

def C6exIes : List (String × JVal) :=
  [("components", .obj C6exCes), ("blockly", .obj [])]

def C6exDes : List (String × JVal) := [("project", .obj C6exIes)]

def C6exPes : List (String × JVal) := [("data", .obj C6exDes)]

/-- **C6, counterexample to the spec's statement.**  A screen whose name is
the empty string violates the spec's `^[\w\- ]+$`, yet the split succeeds
and produces a modular file set: the code only rejects names containing a
forbidden character. -/
theorem C6_name_validation_counterexample :
    specValidName (screenName C6exScreen) = false ∧
    flatSpec [C6exScreen] = [C6exScreen] ∧
    toModularProject (.obj C6exPes) =
      .ok (modularSpec C6exPes C6exDes C6exIes C6exCes [C6exScreen] []) := by
  refine ⟨by decide, by decide, ?_⟩
  exact toModularProject_wf C6exPes C6exDes C6exIes C6exCes [] [C6exScreen]
    rfl rfl rfl rfl rfl (by decide) (by decide)

def C6wScreen : JVal :=
  .obj [("name", .str "a/b"), ("id", .str "s1"), ("type", .str "Screen")]

def C6wCes : List (String × JVal) := [("children", .arr [C6wScreen])]

def C6wIes : List (String × JVal) :=
  [("components", .obj C6wCes), ("blockly", .obj [])]

def C6wDes : List (String × JVal) := [("project", .obj C6wIes)]

def C6wPes : List (String × JVal) := [("data", .obj C6wDes)]

theorem C6_name_validation_witness :
    toModularProject (.obj C6wPes) = .error Err.nameError :=
  (C6_name_validation C6wPes C6wDes C6wIes C6wCes [] [C6wScreen]
    rfl rfl rfl rfl rfl (by decide) (by decide)).mpr (by decide)

/-! ### C8: merge structural errors -/

/-- A stub-shaped node: a dict without a `name` key (the shape of the
screen stubs the merge iterates). -/
def isStubNode (s : JVal) : Bool :=
  match s with
  | .obj es => !(hasKeyB es "name")
  | _ => false

/-- No node of the list is a dict with an `id` equal to `seg`. -/
def noStubMatch (seg : String) (l : List JVal) : Bool :=
  l.all (fun s => match jget s "id" with
    | some i => decide (i ≠ JVal.str seg)
    | none => false)

theorem flattenMerge_stubs : ∀ (l : List JVal), l.all isStubNode = true →
    flattenMerge l = .ok (l.map (fun _ => Slot.single), l)
  | [], _ => rfl
  | s :: rest, h => by
    rw [List.all_cons, Bool.and_eq_true] at h
    match s, h with
    | .obj es, h =>
      have hname : hasKeyB es "name" = false := by
        have h1 := h.1
        rw [isStubNode, Bool.not_eq_true'] at h1
        exact h1
      unfold flattenMerge
      rw [jcontains_obj, hname]
      simp only [Bind.bind, Except.bind, Bool.false_eq_true, if_false]
      rw [flattenMerge_stubs rest h.2]
      rfl

theorem updateFirstMatch_nomatch : ∀ (l : List JVal) (seg : String)
    (data : JVal), noStubMatch seg l = true →
    updateFirstMatch seg data l = .error .unexpectedJson
  | [], _, _, _ => rfl
  | s :: rest, seg, data, h => by
    rw [noStubMatch, List.all_cons, Bool.and_eq_true] at h
    obtain ⟨h1, h2⟩ := h
    match s, h1 with
    | .obj es, h1 =>
      cases hid : jlookup es "id" with
      | none =>
        rw [jget] at h1
        rw [hid] at h1
        exact absurd h1 (by simp)
      | some i =>
        rw [jget] at h1
        rw [hid] at h1
        have hne : i ≠ JVal.str seg := by
          simpa using h1
        unfold updateFirstMatch
        rw [show jindex (JVal.obj es) "id" = .ok i by simp [jindex, hid]]
        simp only [Bind.bind, Except.bind]
        rw [if_neg hne, updateFirstMatch_nomatch rest seg data
          (by rw [noStubMatch]; exact h2)]

/-- **C8.** Merge aborts fatally (returns no document) in each of the three
structural-error situations: the file set lacks `"meta.json"`; a `.json`
file whose screen-id segment (last dot-segment of its stem) matches no
stub's `id` in the flattened screen list; a file whose extension is
neither `.json` nor `.xml`. -/
theorem C8_merge_structural_errors :
    (∀ files : List (String × JVal), jlookup files "meta.json" = none →
        fromModularProject files = .error .lookupError) ∧
    (∀ (pes des ies ces : List (String × JVal)) (children : List JVal)
        (fname : String) (data : JVal),
        jlookup pes "data" = some (.obj des) →
        jlookup des "project" = some (.obj ies) →
        jlookup ies "components" = some (.obj ces) →
        jlookup ces "children" = some (.arr children) →
        children.all isStubNode = true →
        pySuffix fname = ".json" →
        noStubMatch (String.mk ((splitDots (pyStem fname).toList).getLastD []))
          children = true →
        fromModularProject [("meta.json", .obj pes), (fname, data)] =
          .error .unexpectedJson) ∧
    (∀ (pes : List (String × JVal)) (fname : String) (data : JVal),
        pySuffix fname ≠ ".json" → pySuffix fname ≠ ".xml" →
        (∃ des ies ces children,
          jlookup pes "data" = some (.obj des) ∧
          jlookup des "project" = some (.obj ies) ∧
          jlookup ies "components" = some (.obj ces) ∧
          jlookup ces "children" = some (.arr children) ∧
          children.all isStubNode = true) →
        fromModularProject [("meta.json", .obj pes), (fname, data)] =
          .error .invalidFileType) := by
  refine ⟨?_, ?_, ?_⟩
  · intro files h
    unfold fromModularProject
    rw [h]
    simp only [Bind.bind, Except.bind]
  · intro pes des ies ces children fname data hd hip hcomp hch hstub hjson hnm
    unfold fromModularProject
    rw [show jlookup [("meta.json", JVal.obj pes), (fname, data)] "meta.json"
      = some (.obj pes) by simp [jlookup]]
    simp only [Bind.bind, Except.bind]
    rw [show dictRemove [("meta.json", JVal.obj pes), (fname, data)] "meta.json"
      = [(fname, data)] by simp [dictRemove]]
    rw [show jindex (JVal.obj pes) "data" = .ok (.obj des) by simp [jindex, hd]]
    simp only [Except.bind]
    rw [show jindex (JVal.obj des) "project" = .ok (.obj ies) by
      simp [jindex, hip]]
    simp only [Except.bind]
    rw [show jindex (JVal.obj ies) "components" = .ok (.obj ces) by
      simp [jindex, hcomp]]
    simp only [Except.bind]
    rw [show jindex (JVal.obj ces) "children" = .ok (.arr children) by
      simp [jindex, hch]]
    simp only [Except.bind, iterableElems]
    rw [flattenMerge_stubs children hstub]
    simp only [Except.bind]
    rw [show ([(fname, data)] : List (String × JVal)).foldlM
        (fun st (p : String × JVal) => processFile st p.1 p.2)
        (children, jget (JVal.obj ies) "blockly") =
      processFile (children, jget (JVal.obj ies) "blockly") fname data >>=
        fun st => pure st from by
      simp [List.foldlM]]
    rw [show processFile (children, jget (JVal.obj ies) "blockly") fname data
      = .error .unexpectedJson from by
      unfold processFile
      rw [if_pos hjson]
      simp only [Bind.bind, Except.bind]
      rw [updateFirstMatch_nomatch children _ data hnm]]
    rfl
  · intro pes fname data hnj hnx hsp
    obtain ⟨des, ies, ces, children, hd, hip, hcomp, hch, hstub⟩ := hsp
    unfold fromModularProject
    rw [show jlookup [("meta.json", JVal.obj pes), (fname, data)] "meta.json"
      = some (.obj pes) by simp [jlookup]]
    simp only [Bind.bind, Except.bind]
    rw [show dictRemove [("meta.json", JVal.obj pes), (fname, data)] "meta.json"
      = [(fname, data)] by simp [dictRemove]]
    rw [show jindex (JVal.obj pes) "data" = .ok (.obj des) by simp [jindex, hd]]
    simp only [Except.bind]
    rw [show jindex (JVal.obj des) "project" = .ok (.obj ies) by
      simp [jindex, hip]]
    simp only [Except.bind]
    rw [show jindex (JVal.obj ies) "components" = .ok (.obj ces) by
      simp [jindex, hcomp]]
    simp only [Except.bind]
    rw [show jindex (JVal.obj ces) "children" = .ok (.arr children) by
      simp [jindex, hch]]
    simp only [Except.bind, iterableElems]
    rw [flattenMerge_stubs children hstub]
    simp only [Except.bind]
    rw [show ([(fname, data)] : List (String × JVal)).foldlM
        (fun st (p : String × JVal) => processFile st p.1 p.2)
        (children, jget (JVal.obj ies) "blockly") =
      processFile (children, jget (JVal.obj ies) "blockly") fname data >>=
        fun st => pure st from by
      simp [List.foldlM]]
    rw [show processFile (children, jget (JVal.obj ies) "blockly") fname data
      = .error .invalidFileType from by
      unfold processFile
      rw [if_neg hnj, if_neg hnx]]
    rfl

def C8stub : JVal := .obj [("id", .str "s1")]

def C8ces : List (String × JVal) := [("children", .arr [C8stub])]

def C8ies : List (String × JVal) := [("components", .obj C8ces)]

def C8des : List (String × JVal) := [("project", .obj C8ies)]

def C8pes : List (String × JVal) := [("data", .obj C8des)]

theorem C8_merge_structural_errors_witness :
    fromModularProject [] = .error Err.lookupError ∧
    fromModularProject [("meta.json", .obj C8pes), ("Home.zz.json", .obj [])] =
      .error Err.unexpectedJson ∧
    fromModularProject [("meta.json", .obj C8pes), ("notes.txt", .str "x")] =
      .error Err.invalidFileType := by
  have h := C8_merge_structural_errors
  refine ⟨h.1 [] rfl, ?_, ?_⟩
  · exact h.2.1 C8pes C8des C8ies C8ces [C8stub] "Home.zz.json" (.obj [])
      rfl rfl rfl rfl (by decide) (by decide) (by decide)
  · exact h.2.2 C8pes "notes.txt" (.str "x") (by decide) (by decide)
      ⟨C8des, C8ies, C8ces, [C8stub], rfl, rfl, rfl, rfl, by decide⟩

/-! ### C9: flattening agreement between split and merge -/

/-- The slot structure the merge-side flattening records: a navigator node
with the count of its spliced children, `single` for a kept node. -/
def slotsSpec (children : List JVal) : List Slot :=
  children.map (fun c =>
    if isNavB c then Slot.nav c (navChildren c).length else Slot.single)

theorem flattenMerge_wf : ∀ (children : List JVal),
    children.all wfChildNode = true →
    flattenMerge children = .ok (slotsSpec children, flatSpec children)
  | [], _ => rfl
  | c :: rest, h => by
    rw [List.all_cons, Bool.and_eq_true] at h
    obtain ⟨es, t, hc, ht, hnav⟩ := wfChildNode_type h.1
    subst hc
    have hwf := h.1
    rw [wfChildNode, Bool.and_eq_true] at hwf
    unfold flattenMerge
    rw [jcontains_obj]
    simp only [Bind.bind, Except.bind]
    cases hn : isNavB (.obj es) with
    | true =>
      rw [hn, if_pos rfl, Bool.and_eq_true] at hwf
      rw [hwf.2.1]
      simp only [if_true]
      rw [show jindex (JVal.obj es) "type" = .ok (.str t) by simp [jindex, ht]]
      simp only [Except.bind, jcontains]
      rw [← hnav, hn]
      simp only [Except.bind, if_true]
      cases hch : jlookup es "children" with
      | none =>
        rw [hch] at hwf
        exact absurd hwf.2.2 (by simp)
      | some chv =>
        rw [hch] at hwf
        match chv, hwf with
        | .arr l, hwf =>
          rw [show jindex (JVal.obj es) "children" = .ok (.arr l) by
            simp [jindex, hch]]
          simp only [Except.bind, iterableElems]
          rw [flattenMerge_wf rest h.2]
          simp only [Except.bind]
          rw [show flatSpec (JVal.obj es :: rest) = l ++ flatSpec rest by
            rw [flatSpec, if_pos hn, navChildren, hch]]
          rw [show slotsSpec (JVal.obj es :: rest) =
              Slot.nav (.obj es) l.length :: slotsSpec rest by
            simp [slotsSpec, hn, navChildren, hch]]
    | false =>
      have hkeep : flatSpec (JVal.obj es :: rest) =
          JVal.obj es :: flatSpec rest := by
        rw [flatSpec, if_neg (by simp [hn])]
        rfl
      have hslots : slotsSpec (JVal.obj es :: rest) =
          Slot.single :: slotsSpec rest := by
        simp [slotsSpec, hn]
      cases hnm : hasKeyB es "name" with
      | true =>
        simp only [if_true]
        rw [show jindex (JVal.obj es) "type" = .ok (.str t) by
          simp [jindex, ht]]
        simp only [Except.bind, jcontains]
        rw [← hnav, hn]
        simp only [Except.bind, Bool.false_eq_true, if_false]
        rw [flattenMerge_wf rest h.2]
        simp only [Except.bind]
        rw [hkeep, hslots]
      | false =>
        simp only [Bool.false_eq_true, if_false, Except.bind]
        rw [flattenMerge_wf rest h.2]
        simp only [Except.bind, Bool.false_eq_true, if_false]
        rw [hkeep, hslots]

/-- **C9.** (Corrected.)  On children lists whose navigator-typed nodes all
carry a `name` key (which well-formed children do), split and merge flatten
to the same ordered screen sequence.  The merge loop's extra
`"name" in screen_or_nav` guard makes the two rules differ on a nameless
navigator node, which split splices but merge keeps whole (see the
counterexample). -/
theorem C9_flatten_agreement (children : List JVal)
    (h : children.all wfChildNode = true) :
    flattenSplit children = .ok (flatSpec children) ∧
    flattenMerge children = .ok (slotsSpec children, flatSpec children) :=
  ⟨flattenSplit_wf children h, flattenMerge_wf children h⟩

def C9s : JVal := .obj [("name", .str "A"), ("id", .str "x1")]

def C9nav : JVal :=
  .obj [("type", .str "TabNavigator"), ("children", .arr [C9s])]

/-- **C9, counterexample to the spec's statement.**  A navigator node
without a `name` key: the split's rule splices in its children, the
merge's rule (which first tests `"name" in` the node) keeps the node
itself, so the two flattened sequences differ. -/
theorem C9_flatten_agreement_counterexample :
    flattenSplit [C9nav] = .ok [C9s] ∧
    flattenMerge [C9nav] = .ok ([Slot.single], [C9nav]) ∧
    ([C9nav] : List JVal) ≠ [C9s] := by
  exact ⟨rfl, rfl, by decide⟩

def C9wScr : JVal :=
  .obj [("name", .str "Home"), ("id", .str "h1"), ("type", .str "Screen")]

def C9wNav : JVal :=
  .obj [("type", .str "DrawerNavigator"), ("name", .str "Nav"),
    ("children", .arr [C9s])]

theorem C9_flatten_agreement_witness :
    flattenSplit [C9wScr, C9wNav] = .ok [C9wScr, C9s] ∧
    flattenMerge [C9wScr, C9wNav] =
      .ok ([Slot.single, Slot.nav C9wNav 1], [C9wScr, C9s]) := by
  have h := C9_flatten_agreement [C9wScr, C9wNav] (by decide)
  exact ⟨h.1, h.2⟩

/-! ### C5: block-markup extraction -/

theorem xmlFilesSpec_mem : ∀ (entries : List (String × JVal))
    (m : List (JVal × String)) (k : String) (e : JVal),
    (k, e) ∈ entries → entryEmit m k e = true →
    (xmlFileName m k, (jget e "xml").getD .null) ∈ xmlFilesSpec m entries
  | [], _, _, _, hm, _ => absurd hm (List.not_mem_nil _)
  | (k', e') :: rest, m, k, e, hm, he => by
    rw [xmlFilesSpec]
    rcases List.mem_cons.mp hm with h | h
    · obtain ⟨h1, h2⟩ := Prod.mk.injEq .. ▸ h
      subst h1
      subst h2
      rw [he]
      exact List.mem_append_left _ (List.mem_singleton.mpr rfl)
    · exact List.mem_append_right _ (xmlFilesSpec_mem rest m k e h he)

theorem blankEntries_mem : ∀ (entries : List (String × JVal))
    (m : List (JVal × String)) (k : String) (e : JVal),
    (k, e) ∈ entries → entryEmit m k e = false →
    (k, e) ∈ blankEntries m entries
  | [], _, _, _, hm, _ => absurd hm (List.not_mem_nil _)
  | (k', e') :: rest, m, k, e, hm, he => by
    rw [blankEntries]
    rcases List.mem_cons.mp hm with h | h
    · obtain ⟨h1, h2⟩ := Prod.mk.injEq .. ▸ h
      subst h1
      subst h2
      rw [he]
      exact List.mem_cons_self _ _
    · exact List.mem_cons_of_mem _ (blankEntries_mem rest m k e h he)

/-- **C5.** (Corrected.)  Over a `blockly` dict of dict entries, the split's
blocks loop emits `"<name>.<id>.xml"` (and blanks `xml` in the retained
entry) exactly for the entries that **have** an `xml` key — empty or not —
and whose id is in the id→name map; an entry whose id matches no screen is
**retained unchanged** in the meta document (its markup is not extracted,
but it is not dropped).  `entryEmit` demands presence of `xml`
(`entryHasXml`) and a name for the id, not non-emptiness of the markup. -/
theorem C5_blockly_markup (entries : List (String × JVal))
    (m : List (JVal × String))
    (h : entries.all (fun p => entryIsObj p.2) = true) :
    blocklyPhase entries m =
      .ok (xmlFilesSpec m entries, blankEntries m entries) ∧
    (∀ k e, (k, e) ∈ entries → entryEmit m k e = true →
      (xmlFileName m k, (jget e "xml").getD .null) ∈ xmlFilesSpec m entries) ∧
    (∀ k e, (k, e) ∈ entries → entryEmit m k e = false →
      (k, e) ∈ blankEntries m entries) :=
  ⟨blocklyPhase_wf entries m h,
    fun k e hm he => xmlFilesSpec_mem entries m k e hm he,
    fun k e hm he => blankEntries_mem entries m k e hm he⟩

def C5entries : List (String × JVal) :=
  [("s1", .obj [("xml", .str "")]), ("zz", .obj [("xml", .str "markup")])]

def C5m : List (JVal × String) := [(.str "s1", "A")]

/-- **C5, counterexample to the spec's statement.**  An entry whose `xml`
is the empty string still gets a `.xml` file emitted (the code tests key
presence, not non-emptiness), and an orphaned entry (`"zz"`, no matching
screen) is retained unchanged — markup included — in the resulting
`blockly` dict rather than being dropped. -/
theorem C5_blockly_markup_counterexample :
    blocklyPhase C5entries C5m =
      .ok ([("A.s1.xml", JVal.str "")], C5entries) ∧
    jget (JVal.obj [("xml", JVal.str "")]) "xml" = some (JVal.str "") ∧
    hasKeyB C5entries "zz" = true := by
  exact ⟨rfl, rfl, by decide⟩

def C5wentries : List (String × JVal) :=
  [("a", .obj [("xml", .str "m1")]), ("orph", .obj [("xml", .str "m2")])]

def C5wm : List (JVal × String) := [(.str "a", "N")]

theorem C5_blockly_markup_witness :
    blocklyPhase C5wentries C5wm =
      .ok (xmlFilesSpec C5wm C5wentries, blankEntries C5wm C5wentries) ∧
    (xmlFileName C5wm "a",
      (jget (JVal.obj [("xml", JVal.str "m1")]) "xml").getD .null) ∈
        xmlFilesSpec C5wm C5wentries ∧
    ("orph", JVal.obj [("xml", JVal.str "m2")]) ∈
      blankEntries C5wm C5wentries := by
  have h := C5_blockly_markup C5wentries C5wm (by decide)
  exact ⟨h.1,
    h.2.1 "a" (JVal.obj [("xml", JVal.str "m1")]) (by decide) (by decide),
    h.2.2 "orph" (JVal.obj [("xml", JVal.str "m2")]) (by decide) (by decide)⟩

/-! ### C1: round-trip machinery -/

/-- Pairwise-distinct strings. -/
def nodupStrB : List String → Bool
  | [] => true
  | s :: rest => !(rest.any (fun t => t == s)) && nodupStrB rest

/-- The screen node after the merge rebuilds it: the file's full content
updated into the id stub (`screen.update(data)`), so the `id` binding comes
first and the screen's remaining entries follow in their order. -/
def fullOf (s : JVal) : JVal :=
  match s with
  | .obj es => .obj (dictUpdateList [("id", .str (screenId s))] es)
  | _ => s

/-- A `components.children` node after the full round trip: a navigator
keeps its node with rebuilt children, a screen becomes its rebuilt self. -/
def restoreChild (c : JVal) : JVal :=
  if isNavB c then jsetObj c "children" (.arr ((navChildren c).map fullOf))
  else fullOf c

/-- The document `merge(split(P))` produces. -/
def mergedSpec (pes des ies ces : List (String × JVal)) (children : List JVal)
    (bes : List (String × JVal)) : JVal :=
  .obj (dictInsert pes "data" (.obj (dictInsert des "project" (.obj
    (dictInsert (dictInsert ies "components" (.obj (dictInsert ces "children"
      (.arr (children.map restoreChild))))) "blockly" (.obj bes))))))

/-- Updating an already-present key commutes past any other insertion. -/
theorem dictInsert_present_comm : ∀ (es : List (String × JVal)) (k k' : String)
    (a b : JVal), hasKeyB es k = true → k ≠ k' →
    dictInsert (dictInsert es k' b) k a = dictInsert (dictInsert es k a) k' b
  | [], k, k', a, b, hk, h => by simp [hasKeyB] at hk
  | (k0, w) :: rest, k, k', a, b, hk, h => by
    by_cases h0 : k0 = k
    · subst h0
      have h2 : ¬ (k0 = k') := h
      simp [dictInsert, h2]
    · have hk' : hasKeyB rest k = true := by
        rw [hasKeyB, List.any_cons, Bool.or_eq_true] at hk
        rcases hk with hk | hk
        · exact absurd (of_decide_eq_true hk) h0
        · exact hk
      by_cases h1 : k0 = k'
      · subst h1
        simp [dictInsert, h0]
      · simp [dictInsert, h0, h1,
          dictInsert_present_comm rest k k' a b hk' h]

theorem nodupKeysB_append_parts : ∀ (a b : List (String × JVal)),
    nodupKeysB (a ++ b) = true →
    nodupKeysB a = true ∧ nodupKeysB b = true ∧
      ∀ p ∈ b, hasKeyB a p.1 = false
  | [], b, h => ⟨rfl, h, fun p _ => rfl⟩
  | (k, v) :: rest, b, h => by
    rw [List.cons_append, nodupKeysB, Bool.and_eq_true, Bool.not_eq_true',
      hasKeyB_append, Bool.or_eq_false_iff] at h
    obtain ⟨⟨h1, h2⟩, h3⟩ := h
    obtain ⟨ha, hb, hc⟩ := nodupKeysB_append_parts rest b h3
    refine ⟨?_, hb, ?_⟩
    · rw [nodupKeysB, Bool.and_eq_true, Bool.not_eq_true']
      exact ⟨h1, ha⟩
    · intro p hp
      rw [hasKeyB, List.any_cons, Bool.or_eq_false_iff]
      constructor
      · rw [decide_eq_false_iff_not]
        intro hk
        subst hk
        have := hasKeyB_of_mem hp
        rw [this] at h2
        exact Bool.noConfusion h2
      · exact hc p hp

theorem nodupKeysB_append_of : ∀ (a b : List (String × JVal)),
    nodupKeysB a = true → nodupKeysB b = true →
    (∀ p ∈ a, hasKeyB b p.1 = false) → nodupKeysB (a ++ b) = true
  | [], b, _, hb, _ => hb
  | (k, v) :: rest, b, ha, hb, hc => by
    rw [nodupKeysB, Bool.and_eq_true, Bool.not_eq_true'] at ha
    rw [List.cons_append, nodupKeysB, Bool.and_eq_true, Bool.not_eq_true',
      hasKeyB_append, Bool.or_eq_false_iff]
    exact ⟨⟨ha.1, hc (k, v) (List.mem_cons_self _ _)⟩,
      nodupKeysB_append_of rest b ha.2 hb
        (fun p hp => hc p (List.mem_cons_of_mem _ hp))⟩

theorem dictInsert_append_head : ∀ (a : List (String × JVal)) (k : String)
    (w v : JVal) (tail : List (String × JVal)), hasKeyB a k = false →
    dictInsert (a ++ (k, w) :: tail) k v = a ++ (k, v) :: tail
  | [], k, w, v, tail, _ => by
    rw [List.nil_append, List.nil_append, dictInsert, if_pos rfl]
  | (k0, u) :: rest, k, w, v, tail, h => by
    rw [hasKeyB, List.any_cons, Bool.or_eq_false_iff] at h
    rw [List.cons_append, dictInsert, if_neg (by simpa using h.1),
      dictInsert_append_head rest k w v tail h.2, List.cons_append]

theorem jdictGet_jdictInsert : ∀ (m : List (JVal × String)) (kv : JVal)
    (n : String) (q : JVal),
    jdictGet (jdictInsert m kv n) q = if kv = q then some n else jdictGet m q
  | [], kv, n, q => by simp [jdictInsert, jdictGet]
  | (k0, w) :: rest, kv, n, q => by
    by_cases h0 : k0 = kv
    · subst h0
      by_cases h1 : k0 = q
      · subst h1
        simp [jdictInsert, jdictGet]
      · simp [jdictInsert, jdictGet, h1]
    · by_cases h1 : k0 = q
      · subst h1
        have h2 : ¬ (kv = k0) := fun hh => h0 hh.symm
        simp [jdictInsert, jdictGet, h0, h2]
      · simp [jdictInsert, jdictGet, h0, h1, jdictGet_jdictInsert rest kv n q]

theorem jdictGet_idMapSpec : ∀ (screens : List JVal)
    (m0 : List (JVal × String)) (q : JVal) (n : String),
    jdictGet (idMapSpec screens m0) q = some n →
    (∃ s ∈ screens, q = .str (screenId s) ∧ n = screenName s) ∨
      jdictGet m0 q = some n
  | [], m0, q, n, h => Or.inr h
  | s :: rest, m0, q, n, h => by
    have hstep : idMapSpec (s :: rest) m0 =
        idMapSpec rest (jdictInsert m0 (.str (screenId s)) (screenName s)) := rfl
    rw [hstep] at h
    rcases jdictGet_idMapSpec rest _ q n h with h1 | h1
    · obtain ⟨s', hs', hq, hn⟩ := h1
      exact Or.inl ⟨s', List.mem_cons_of_mem _ hs', hq, hn⟩
    · rw [jdictGet_jdictInsert] at h1
      by_cases hq : JVal.str (screenId s) = q
      · rw [if_pos hq, Option.some.injEq] at h1
        exact Or.inl ⟨s, List.mem_cons_self _ _, hq.symm, h1.symm⟩
      · rw [if_neg hq] at h1
        exact Or.inr h1

theorem idMapSpec_good {screens : List JVal}
    (hwf : screens.all wfScreen = true) {k n : String}
    (h : jdictGet (idMapSpec screens []) (JVal.str k) = some n) :
    dotFree n.toList = true ∧ dotFree k.toList = true := by
  rcases jdictGet_idMapSpec screens [] (JVal.str k) n h with h1 | h1
  · obtain ⟨s, hs, hq, hn⟩ := h1
    have hf := wfScreen_fields (List.all_eq_true.mp hwf s hs)
    have hk : k = screenId s := by
      injection hq with hq
    subst hk
    subst hn
    exact ⟨dotFree_of_validName hf.1, dotFree_of_plainId hf.2⟩
  · exact absurd h1 (by simp [jdictGet])

theorem entryEmit_name {m : List (JVal × String)} {k : String} {e : JVal}
    (he : entryEmit m k e = true) :
    ∃ n, jdictGet m (JVal.str k) = some n ∧
      xmlFileName m k = n ++ "." ++ k ++ ".xml" := by
  rw [entryEmit, Bool.and_eq_true] at he
  obtain ⟨n, hn⟩ := Option.isSome_iff_exists.mp he.2
  exact ⟨n, hn, by rw [xmlFileName, hn, Option.getD_some]⟩

theorem mem_jsonFilesSpec {screens : List JVal} {p : String × JVal}
    (h : p ∈ jsonFilesSpec screens) :
    ∃ s ∈ screens, p = (jsonName s, s) := by
  rw [jsonFilesSpec] at h
  obtain ⟨s, hs, hp⟩ := List.mem_map.mp h
  exact ⟨s, hs, hp.symm⟩

theorem hasKeyB_jsonFilesSpec_imp {screens : List JVal} {f : String}
    (h : hasKeyB (jsonFilesSpec screens) f = true) :
    ∃ s ∈ screens, jsonName s = f := by
  rw [hasKeyB, List.any_eq_true] at h
  obtain ⟨p, hp, he⟩ := h
  obtain ⟨s, hs, hps⟩ := mem_jsonFilesSpec hp
  subst hps
  exact ⟨s, hs, of_decide_eq_true he⟩

theorem hasKeyB_xmlFilesSpec_imp : ∀ {entries : List (String × JVal)}
    {m : List (JVal × String)} {f : String},
    hasKeyB (xmlFilesSpec m entries) f = true →
    ∃ k e, (k, e) ∈ entries ∧ entryEmit m k e = true ∧ f = xmlFileName m k := by
  intro entries
  induction entries with
  | nil => intro m f h; exact absurd h (by simp [xmlFilesSpec, hasKeyB])
  | cons p rest ih =>
    intro m f h
    obtain ⟨k, e⟩ := p
    rw [xmlFilesSpec, hasKeyB_append, Bool.or_eq_true] at h
    rcases h with h | h
    · cases hemit : entryEmit m k e with
      | true =>
        rw [hemit] at h
        simp only [if_true, hasKeyB, List.any_cons, List.any_nil,
          Bool.or_false] at h
        have := of_decide_eq_true h
        exact ⟨k, e, List.mem_cons_self _ _, hemit, this.symm⟩
      | false =>
        rw [hemit] at h
        simp [hasKeyB] at h
    · obtain ⟨k', e', hm, he, hf⟩ := ih h
      exact ⟨k', e', List.mem_cons_of_mem _ hm, he, hf⟩

theorem nodupKeysB_jsonFilesSpec : ∀ (screens : List JVal),
    screens.all wfScreen = true → nodupStrB (screens.map screenId) = true →
    nodupKeysB (jsonFilesSpec screens) = true
  | [], _, _ => rfl
  | s :: rest, hw, hn => by
    rw [List.all_cons, Bool.and_eq_true] at hw
    rw [List.map_cons, nodupStrB, Bool.and_eq_true, Bool.not_eq_true'] at hn
    show nodupKeysB ((jsonName s, s) :: jsonFilesSpec rest) = true
    rw [nodupKeysB, Bool.and_eq_true, Bool.not_eq_true']
    constructor
    · by_contra hc
      rw [Bool.not_eq_false] at hc
      obtain ⟨s', hs', hname⟩ := hasKeyB_jsonFilesSpec_imp hc
      have hf := wfScreen_fields hw.1
      have hf' := wfScreen_fields (List.all_eq_true.mp hw.2 s' hs')
      have hid : screenId s' = screenId s :=
        jsonName_inj (screenName s') (screenId s') (screenName s) (screenId s)
          (dotFree_of_validName hf'.1) (dotFree_of_plainId hf'.2)
          (dotFree_of_validName hf.1) (dotFree_of_plainId hf.2) hname
      have hmem : (rest.map screenId).any (fun t => t == screenId s) = true := by
        rw [List.any_eq_true]
        exact ⟨screenId s', List.mem_map_of_mem _ hs', by rw [hid]; simp⟩
      have hfalse := hn.1
      rw [hmem] at hfalse
      exact Bool.noConfusion hfalse
    · exact nodupKeysB_jsonFilesSpec rest hw.2 hn.2

theorem nodupKeysB_xmlFilesSpec : ∀ (bes : List (String × JVal))
    (m : List (JVal × String)), nodupKeysB bes = true →
    (∀ k n, jdictGet m (JVal.str k) = some n →
      dotFree n.toList = true ∧ dotFree k.toList = true) →
    nodupKeysB (xmlFilesSpec m bes) = true
  | [], _, _, _ => rfl
  | (k, e) :: rest, m, hb, hm => by
    rw [nodupKeysB, Bool.and_eq_true, Bool.not_eq_true'] at hb
    rw [xmlFilesSpec]
    cases hemit : entryEmit m k e with
    | false =>
      simp only [Bool.false_eq_true, if_false, List.nil_append]
      exact nodupKeysB_xmlFilesSpec rest m hb.2 hm
    | true =>
      simp only [if_true, List.singleton_append]
      rw [nodupKeysB, Bool.and_eq_true, Bool.not_eq_true']
      constructor
      · by_contra hc
        rw [Bool.not_eq_false] at hc
        obtain ⟨k', e', hmem, he', hf⟩ := hasKeyB_xmlFilesSpec_imp hc
        obtain ⟨n, hn, hxn⟩ := entryEmit_name hemit
        obtain ⟨n', hn', hxn'⟩ := entryEmit_name he'
        have hd := hm k n hn
        have hd' := hm k' n' hn'
        have hkk : k = k' := by
          apply xmlName_inj n k n' k' hd.1 hd.2 hd'.1 hd'.2
          rw [← hxn, ← hxn', hf]
        subst hkk
        have hmm := hasKeyB_of_mem hmem
        rw [hb.1] at hmm
        exact Bool.noConfusion hmm
      · exact nodupKeysB_xmlFilesSpec rest m hb.2 hm

theorem xml_keys_not_json {screens : List JVal} {bes : List (String × JVal)}
    {m : List (JVal × String)} (hwf : screens.all wfScreen = true)
    (hm : ∀ k n, jdictGet m (JVal.str k) = some n →
      dotFree n.toList = true ∧ dotFree k.toList = true) :
    ∀ p ∈ xmlFilesSpec m bes, hasKeyB (jsonFilesSpec screens) p.1 = false := by
  intro p hp
  by_contra hc
  rw [Bool.not_eq_false] at hc
  obtain ⟨s, hs, hname⟩ := hasKeyB_jsonFilesSpec_imp hc
  have hkey : hasKeyB (xmlFilesSpec m bes) p.1 = true := hasKeyB_of_mem hp
  obtain ⟨k, e, hmem, he, hf⟩ := hasKeyB_xmlFilesSpec_imp hkey
  obtain ⟨n, hn, hxn⟩ := entryEmit_name he
  rw [hxn] at hf
  rw [← hname] at hf
  exact json_ne_xml (screenName s) (screenId s) n k hf

theorem meta_key_absent {screens : List JVal} {bes : List (String × JVal)}
    {m : List (JVal × String)} (hwf : screens.all wfScreen = true)
    (hm : ∀ k n, jdictGet m (JVal.str k) = some n →
      dotFree n.toList = true ∧ dotFree k.toList = true) :
    hasKeyB (jsonFilesSpec screens ++ xmlFilesSpec m bes) "meta.json" = false := by
  rw [hasKeyB_append, Bool.or_eq_false_iff]
  constructor
  · by_contra hc
    rw [Bool.not_eq_false] at hc
    obtain ⟨s, hs, hname⟩ := hasKeyB_jsonFilesSpec_imp hc
    have hf := wfScreen_fields (List.all_eq_true.mp hwf s hs)
    exact json_ne_meta (screenName s) (screenId s)
      (dotFree_of_validName hf.1) (dotFree_of_plainId hf.2) hname
  · by_contra hc
    rw [Bool.not_eq_false] at hc
    obtain ⟨k, e, hmem, he, hf⟩ := hasKeyB_xmlFilesSpec_imp hc
    obtain ⟨n, hn, hxn⟩ := entryEmit_name he
    rw [hxn] at hf
    exact xml_ne_meta n k hf.symm

theorem modularSpec_append (pes des ies ces bes : List (String × JVal))
    (children : List JVal)
    (hwfs : (flatSpec children).all wfScreen = true)
    (hids : nodupStrB ((flatSpec children).map screenId) = true)
    (hbn : nodupKeysB bes = true) :
    modularSpec pes des ies ces children bes =
      (jsonFilesSpec (flatSpec children) ++
        xmlFilesSpec (idMapSpec (flatSpec children) []) bes) ++
      [("meta.json", metaSpec pes des ies ces children bes)] := by
  have hmg : ∀ k n,
      jdictGet (idMapSpec (flatSpec children) []) (JVal.str k) = some n →
      dotFree n.toList = true ∧ dotFree k.toList = true :=
    fun k n h => idMapSpec_good hwfs h
  have hjn := nodupKeysB_jsonFilesSpec _ hwfs hids
  have hxn := nodupKeysB_xmlFilesSpec bes _ hbn hmg
  rw [modularSpec]
  rw [dictInsertAll_absent (jsonFilesSpec (flatSpec children)) [] hjn
    (fun p _ => rfl)]
  rw [List.nil_append]
  rw [dictInsertAll_absent (xmlFilesSpec (idMapSpec (flatSpec children) []) bes)
    (jsonFilesSpec (flatSpec children)) hxn (xml_keys_not_json hwfs hmg)]
  rw [dictInsert_absent _ _ _ (meta_key_absent hwfs hmg)]

theorem dictUpdateList_cons (base : List (String × JVal)) (k : String)
    (v : JVal) (rest : List (String × JVal)) :
    dictUpdateList base ((k, v) :: rest) =
      dictUpdateList (dictInsert base k v) rest := rfl

theorem jlookup_dictUpdateList : ∀ (upd base : List (String × JVal))
    (k : String), nodupKeysB upd = true →
    jlookup (dictUpdateList base upd) k =
      match jlookup upd k with
      | some v => some v
      | none => jlookup base k
  | [], base, k, _ => rfl
  | (k0, v0) :: rest, base, k, hn => by
    rw [nodupKeysB, Bool.and_eq_true, Bool.not_eq_true'] at hn
    rw [dictUpdateList_cons,
      jlookup_dictUpdateList rest (dictInsert base k0 v0) k hn.2]
    by_cases hk : k0 = k
    · subst hk
      have hrest : jlookup rest k0 = none :=
        jlookup_eq_none_of_hasKeyB_false hn.1
      rw [hrest, jlookup, if_pos rfl, jlookup_dictInsert, if_pos rfl]
    · rw [jlookup, if_neg hk]
      cases hr : jlookup rest k with
      | some v => rfl
      | none =>
        rw [jlookup_dictInsert, if_neg hk]

theorem hasKeyB_dictUpdateList : ∀ (upd base : List (String × JVal))
    (k : String), hasKeyB (dictUpdateList base upd) k =
      (hasKeyB base k || hasKeyB upd k)
  | [], base, k => by simp [dictUpdateList, hasKeyB]
  | (k0, v0) :: rest, base, k => by
    rw [dictUpdateList_cons, hasKeyB_dictUpdateList rest _ k,
      hasKeyB_dictInsert]
    simp only [hasKeyB, List.any_cons]
    cases hb : (base.any fun p => decide (p.1 = k)) <;>
      cases hk : (decide (k0 = k)) <;> simp [hb, hk]

theorem nodupKeysB_dictUpdateList : ∀ (upd base : List (String × JVal)),
    nodupKeysB base = true → nodupKeysB (dictUpdateList base upd) = true
  | [], base, h => h
  | (k0, v0) :: rest, base, h => by
    rw [dictUpdateList_cons]
    exact nodupKeysB_dictUpdateList rest _ (nodupKeysB_dictInsert base k0 v0 h)

theorem deepWFEntries_dictUpdateList : ∀ (upd base : List (String × JVal)),
    deepWFEntries base = true → (∀ p ∈ upd, deepWF p.2 = true) →
    deepWFEntries (dictUpdateList base upd) = true
  | [], base, h, _ => h
  | (k0, v0) :: rest, base, h, hu => by
    rw [dictUpdateList_cons]
    exact deepWFEntries_dictUpdateList rest _
      (deepWFEntries_dictInsert h (hu (k0, v0) (List.mem_cons_self _ _)))
      (fun p hp => hu p (List.mem_cons_of_mem _ hp))

theorem wfScreen_id_lookup {es : List (String × JVal)}
    (h : wfScreen (.obj es) = true) :
    jlookup es "id" = some (.str (screenId (.obj es))) := by
  rw [wfScreen, Bool.and_eq_true] at h
  obtain ⟨_, h2⟩ := h
  cases hi : jlookup es "id" with
  | none => rw [hi] at h2; exact absurd h2 (by simp)
  | some iv =>
    rw [hi] at h2
    match iv, h2 with
    | .str i, _ =>
      rw [screenId, hi]

/-- The merge's rebuilt screen (`stub.update(data)`) is Python-equal to the
original screen: same key set, same values, only the position of `id`
moved. -/
theorem pyEq_fullOf {s : JVal} (hwf : deepWF s = true)
    (hs : wfScreen s = true) : pyEq (fullOf s) s = true := by
  match s, hs with
  | .obj ses, hs =>
    rw [deepWF, Bool.and_eq_true] at hwf
    have hid := wfScreen_id_lookup hs
    rw [fullOf]
    have hbase : nodupKeysB [("id", .str (screenId (.obj ses)))] = true := by
      rw [nodupKeysB, nodupKeysB, hasKeyB]
      rfl
    have hnodupU : nodupKeysB
        (dictUpdateList [("id", .str (screenId (.obj ses)))] ses) = true :=
      nodupKeysB_dictUpdateList ses _ hbase
    refine pyEq_objs (fun p hp => ?_) (fun q hq => ?_)
    · have hl := mem_jlookup hp hnodupU
      rw [jlookup_dictUpdateList ses _ p.1 hwf.1] at hl
      cases hses : jlookup ses p.1 with
      | some v =>
        rw [hses] at hl
        injection hl with hl
        subst hl
        exact ⟨p.2, rfl, pyEq_refl p.2 (deepWFEntries_mem hwf.2 (jlookup_mem hses))⟩
      | none =>
        rw [hses] at hl
        exfalso
        by_cases hk : p.1 = "id"
        · rw [hk] at hses
          rw [hid] at hses
          exact Option.noConfusion hses
        · rw [jlookup, if_neg (fun hh => hk hh.symm), jlookup] at hl
          exact Option.noConfusion hl
    · rw [hasKeyB_dictUpdateList, Bool.or_eq_true]
      exact Or.inr (hasKeyB_of_mem hq)

/-- The slots the merge records when flattening the stubbed children. -/
def slotsRestub (children : List JVal) : List Slot :=
  children.map (fun c =>
    if isNavB c then
      Slot.nav (jsetObj c "children" (.arr (stubsSpec (navChildren c))))
        (navChildren c).length
    else Slot.single)

theorem stubsSpec_length (l : List JVal) : (stubsSpec l).length = l.length := by
  simp [stubsSpec]

theorem flattenMerge_restub : ∀ (children : List JVal),
    children.all wfChildNode = true →
    flattenMerge (restubSpec children) =
      .ok (slotsRestub children, stubsSpec (flatSpec children))
  | [], _ => rfl
  | c :: rest, h => by
    rw [List.all_cons, Bool.and_eq_true] at h
    obtain ⟨es, t, hc, ht, hnav⟩ := wfChildNode_type h.1
    subst hc
    have hwf := h.1
    rw [wfChildNode, Bool.and_eq_true] at hwf
    rw [restubSpec]
    cases hn : isNavB (.obj es) with
    | true =>
      rw [hn, if_pos rfl, Bool.and_eq_true] at hwf
      cases hch : jlookup es "children" with
      | none =>
        rw [hch] at hwf
        exact absurd hwf.2.2 (by simp)
      | some chv =>
        rw [hch] at hwf
        match chv, hwf with
        | .arr l, hwf =>
          have hl : navChildren (.obj es) = l := by rw [navChildren, hch]
          rw [if_pos rfl, hl]
          unfold flattenMerge
          simp only [jsetObj]
          rw [jcontains_obj, hasKeyB_dictInsert]
          rw [show (decide ("children" = "name") : Bool) = false by decide,
            hwf.2.1]
          simp only [Bool.false_or, Bind.bind, Except.bind, if_true]
          rw [show jindex
              (JVal.obj (dictInsert es "children" (.arr (stubsSpec l)))) "type"
              = .ok (.str t) by
            simp [jindex, jlookup_dictInsert, ht]]
          simp only [Except.bind, jcontains]
          rw [← hnav, hn]
          simp only [Except.bind, if_true]
          rw [show jindex
              (JVal.obj (dictInsert es "children" (.arr (stubsSpec l))))
              "children" = .ok (.arr (stubsSpec l)) by
            simp [jindex, jlookup_dictInsert_self]]
          simp only [Except.bind, iterableElems]
          rw [flattenMerge_restub rest h.2]
          simp only [Except.bind]
          rw [show flatSpec (JVal.obj es :: rest) = l ++ flatSpec rest by
            rw [flatSpec, if_pos hn, hl], stubsSpec_append]
          rw [show slotsRestub (JVal.obj es :: rest) =
              Slot.nav (.obj (dictInsert es "children" (.arr (stubsSpec l))))
                l.length :: slotsRestub rest by
            simp [slotsRestub, hn, hl, jsetObj]]
          rw [stubsSpec_length]
    | false =>
      rw [if_neg (by simp [hn])]
      unfold flattenMerge
      simp only [stubOf]
      rw [jcontains_obj]
      rw [show hasKeyB [("id", JVal.str (screenId (.obj es)))] "name" = false
        by rw [hasKeyB]; rfl]
      simp only [Bind.bind, Except.bind, Bool.false_eq_true, if_false]
      rw [flattenMerge_restub rest h.2]
      simp only [Except.bind]
      rw [show flatSpec (JVal.obj es :: rest) = JVal.obj es :: flatSpec rest by
        rw [flatSpec, if_neg (by simp [hn])]; rfl]
      rw [show slotsRestub (JVal.obj es :: rest) =
          Slot.single :: slotsRestub rest by
        simp [slotsRestub, hn]]
      rw [show stubsSpec (JVal.obj es :: flatSpec rest) =
          stubOf (.str (screenId (.obj es))) :: stubsSpec (flatSpec rest) by
        simp [stubsSpec]]
      simp [stubOf]

theorem jindex_fullOf {s : JVal} (hwf : deepWF s = true)
    (hs : wfScreen s = true) :
    jindex (fullOf s) "id" = .ok (.str (screenId s)) := by
  match s, hs with
  | .obj ses, hs =>
    rw [deepWF, Bool.and_eq_true] at hwf
    have hid := wfScreen_id_lookup hs
    rw [fullOf]
    have hl : jlookup (dictUpdateList [("id", .str (screenId (.obj ses)))] ses)
        "id" = some (.str (screenId (.obj ses))) := by
      rw [jlookup_dictUpdateList ses _ "id" hwf.1, hid]
    simp [jindex, hl]

theorem updateFirstMatch_skip : ∀ (done : List JVal) (seg : String)
    (data : JVal) (l : List JVal),
    (∀ d ∈ done, ∃ i, jindex d "id" = .ok (JVal.str i) ∧ i ≠ seg) →
    updateFirstMatch seg data (done ++ l) =
      (updateFirstMatch seg data l).map (fun r => done ++ r)
  | [], seg, data, l, _ => by
    rw [List.nil_append]
    cases h : updateFirstMatch seg data l <;> rfl
  | d :: done', seg, data, l, h => by
    obtain ⟨i, hid, hne⟩ := h d (List.mem_cons_self _ _)
    rw [List.cons_append, updateFirstMatch, hid]
    simp only [Bind.bind, Except.bind]
    rw [if_neg (show ¬ (JVal.str i = JVal.str seg) from
      fun hh => hne (by injection hh))]
    rw [updateFirstMatch_skip done' seg data l
      (fun d' hd' => h d' (List.mem_cons_of_mem _ hd'))]
    cases hu : updateFirstMatch seg data l <;> rfl

theorem jsonFold : ∀ (screens done : List JVal) (blk : Option JVal),
    screens.all wfScreen = true →
    deepWFList screens = true →
    nodupStrB (screens.map screenId) = true →
    (∀ d ∈ done, ∃ i, jindex d "id" = .ok (JVal.str i) ∧
      ∀ s ∈ screens, i ≠ screenId s) →
    List.foldlM (fun st (p : String × JVal) => processFile st p.1 p.2)
      ((done ++ stubsSpec screens, blk) : List JVal × Option JVal)
      (jsonFilesSpec screens) =
    .ok (done ++ screens.map fullOf, blk)
  | [], done, blk, _, _, _, _ => rfl
  | s :: rest, done, blk, hw, hdw, hn, hdone => by
    rw [List.all_cons, Bool.and_eq_true] at hw
    rw [deepWFList, Bool.and_eq_true] at hdw
    rw [List.map_cons, nodupStrB, Bool.and_eq_true, Bool.not_eq_true'] at hn
    have hfields := wfScreen_fields hw.1
    have hndot := dotFree_of_validName hfields.1
    have hidot := dotFree_of_plainId hfields.2
    have hobj : ∃ ses, s = .obj ses := by
      match s, hw.1 with
      | .obj ses, _ => exact ⟨ses, rfl⟩
    obtain ⟨ses, hses⟩ := hobj
    have hcons : jsonFilesSpec (s :: rest) =
        (jsonName s, s) :: jsonFilesSpec rest := rfl
    rw [hcons, List.foldlM_cons]
    have hstub : stubsSpec (s :: rest) =
        stubOf (.str (screenId s)) :: stubsSpec rest := rfl
    have hpf : processFile (done ++ stubsSpec (s :: rest), blk) (jsonName s) s
        = .ok ((done ++ [fullOf s]) ++ stubsSpec rest, blk) := by
      unfold processFile
      rw [if_pos (show pySuffix (jsonName s) = ".json" by
        rw [jsonName]; exact pySuffix_json _ _)]
      simp only [Bind.bind, Except.bind]
      have hseg : String.mk
          ((splitDots (pyStem (jsonName s)).toList).getLastD []) =
          screenId s := by
        show jsonSeg (jsonName s) = screenId s
        rw [jsonName]
        exact jsonSeg_json _ _ hndot hidot
      rw [hseg, hstub]
      rw [updateFirstMatch_skip done _ s _ (fun d hd => by
        obtain ⟨i, hi, hall⟩ := hdone d hd
        exact ⟨i, hi, hall s (List.mem_cons_self _ _)⟩)]
      have hhead : updateFirstMatch (screenId s) s
          (stubOf (.str (screenId s)) :: stubsSpec rest) =
          .ok (fullOf s :: stubsSpec rest) := by
        unfold updateFirstMatch
        rw [show jindex (stubOf (.str (screenId s))) "id" =
            .ok (.str (screenId s)) from by simp [stubOf, jindex, jlookup]]
        simp only [Bind.bind, Except.bind, if_true]
        rw [show pyUpdate (stubOf (.str (screenId s))) s = .ok (fullOf s) from
          by rw [hses]; rfl]
      rw [hhead]
      simp [Except.map]
    rw [hpf]
    simp only [Bind.bind, Except.bind]
    have hrec := jsonFold rest (done ++ [fullOf s]) blk hw.2 hdw.2 hn.2 ?_
    · rw [hrec]
      simp
    · intro d hd
      rcases List.mem_append.mp hd with hd | hd
      · obtain ⟨i, hi, hall⟩ := hdone d hd
        exact ⟨i, hi, fun s' hs' => hall s' (List.mem_cons_of_mem _ hs')⟩
      · rw [List.mem_singleton] at hd
        subst hd
        refine ⟨screenId s, jindex_fullOf hdw.1 hw.1, ?_⟩
        intro s' hs' hcon
        have hmem : (rest.map screenId).any (fun t' => t' == screenId s)
            = true := by
          rw [List.any_eq_true]
          exact ⟨screenId s', List.mem_map_of_mem _ hs', by rw [hcon]; simp⟩
        have hfalse := hn.1
        rw [hmem] at hfalse
        exact Bool.noConfusion hfalse

theorem xmlFold : ∀ (bes pre : List (String × JVal)) (m : List (JVal × String))
    (S : List JVal),
    bes.all (fun p => entryIsObj p.2) = true →
    nodupKeysB (pre ++ bes) = true →
    (∀ k n, jdictGet m (JVal.str k) = some n →
      dotFree n.toList = true ∧ dotFree k.toList = true) →
    List.foldlM (fun st (p : String × JVal) => processFile st p.1 p.2)
      ((S, some (.obj (pre ++ blankEntries m bes))) : List JVal × Option JVal)
      (xmlFilesSpec m bes) =
    .ok (S, some (.obj (pre ++ bes)))
  | [], pre, m, S, _, _, _ => rfl
  | (k, e) :: rest, pre, m, S, hbes, hnd, hm => by
    rw [List.all_cons, Bool.and_eq_true] at hbes
    have hobj : ∃ ees, e = .obj ees := by
      match e, hbes.1 with
      | .obj ees, _ => exact ⟨ees, rfl⟩
    obtain ⟨ees, hees⟩ := hobj
    subst hees
    obtain ⟨hpre, hrest, hdisj⟩ :=
      nodupKeysB_append_parts pre ((k, .obj ees) :: rest) hnd
    have hprek : hasKeyB pre k = false :=
      hdisj (k, .obj ees) (List.mem_cons_self _ _)
    have hside : nodupKeysB ((pre ++ [(k, JVal.obj ees)]) ++ rest) = true := by
      rw [List.append_assoc]
      simpa using hnd
    rw [blankEntries, xmlFilesSpec]
    cases hemit : entryEmit m k (.obj ees) with
    | false =>
      simp only [Bool.false_eq_true, if_false, List.nil_append]
      rw [show pre ++ (k, JVal.obj ees) :: blankEntries m rest =
        (pre ++ [(k, JVal.obj ees)]) ++ blankEntries m rest by simp]
      rw [xmlFold rest (pre ++ [(k, JVal.obj ees)]) m S hbes.2 hside hm]
      rw [show (pre ++ [(k, JVal.obj ees)]) ++ rest =
        pre ++ (k, JVal.obj ees) :: rest by simp]
    | true =>
      simp only [if_true, List.singleton_append]
      rw [List.foldlM_cons]
      obtain ⟨n, hn, hxn⟩ := entryEmit_name hemit
      have hd := hm k n hn
      have hxml : ∃ xmlv, jlookup ees "xml" = some xmlv := by
        rw [entryEmit, Bool.and_eq_true] at hemit
        have hx := hemit.1
        rw [entryHasXml, ← isSome_jlookup_eq_hasKeyB] at hx
        exact Option.isSome_iff_exists.mp hx
      obtain ⟨xmlv, hxv⟩ := hxml
      have hgetd : (jget (JVal.obj ees) "xml").getD .null = xmlv := by
        simp [jget, hxv]
      have hpf : processFile
          (S, some (.obj (pre ++ (k, jsetObj (.obj ees) "xml" (.str "")) ::
            blankEntries m rest)))
          (xmlFileName m k) ((jget (JVal.obj ees) "xml").getD .null) =
          .ok (S, some (.obj (pre ++ (k, .obj ees) :: blankEntries m rest))) := by
        unfold processFile
        rw [hxn]
        rw [if_neg (show ¬ pySuffix (n ++ "." ++ k ++ ".xml") = ".json" by
          rw [pySuffix_xml]; decide)]
        rw [if_pos (pySuffix_xml n k)]
        simp only [Bind.bind, Except.bind]
        rw [xmlSeg_xml n k hd.1 hd.2]
        simp only [Bind.bind, Except.bind]
        have hjl : jlookup (pre ++ (k, jsetObj (.obj ees) "xml" (.str "")) ::
            blankEntries m rest) k = some (jsetObj (.obj ees) "xml" (.str ""))
            := by
          rw [jlookup_append_absent _ _ _ hprek, jlookup, if_pos rfl]
        rw [show jindex (JVal.obj (pre ++
            (k, jsetObj (JVal.obj ees) "xml" (JVal.str "")) ::
            blankEntries m rest)) (String.mk k.toList) =
            .ok (jsetObj (.obj ees) "xml" (.str "")) by
          simp [jindex, hjl]]
        simp only [jsetObj]
        rw [hgetd]
        rw [dictInsert_dictInsert, dictInsert_self ees "xml" xmlv hxv]
        rw [show dictInsert (pre ++
            (k, JVal.obj (dictInsert ees "xml" (JVal.str ""))) ::
            blankEntries m rest) (String.mk k.toList) (JVal.obj ees) =
          pre ++ (k, JVal.obj ees) :: blankEntries m rest by
          rw [show String.mk k.toList = k from rfl]
          rw [dictInsert_append_head pre k _ _ _ hprek]]
      rw [hpf]
      simp only [Bind.bind, Except.bind]
      rw [show pre ++ (k, JVal.obj ees) :: blankEntries m rest =
        (pre ++ [(k, JVal.obj ees)]) ++ blankEntries m rest by simp]
      rw [xmlFold rest (pre ++ [(k, JVal.obj ees)]) m S hbes.2 hside hm]
      rw [show (pre ++ [(k, JVal.obj ees)]) ++ rest =
        pre ++ (k, JVal.obj ees) :: rest by simp]

theorem rebuildSlots_spec : ∀ (children : List JVal),
    children.all wfChildNode = true →
    rebuildSlots (slotsRestub children) ((flatSpec children).map fullOf) =
      children.map restoreChild
  | [], _ => rfl
  | c :: rest, h => by
    rw [List.all_cons, Bool.and_eq_true] at h
    obtain ⟨es, t, hc, ht, hnav⟩ := wfChildNode_type h.1
    subst hc
    cases hn : isNavB (.obj es) with
    | true =>
      have hwf := h.1
      rw [wfChildNode, Bool.and_eq_true, hn, if_pos rfl, Bool.and_eq_true] at hwf
      cases hch : jlookup es "children" with
      | none =>
        rw [hch] at hwf
        exact absurd hwf.2.2 (by simp)
      | some chv =>
        rw [hch] at hwf
        match chv, hwf with
        | .arr l, hwf =>
          have hl : navChildren (.obj es) = l := by rw [navChildren, hch]
          rw [show slotsRestub (JVal.obj es :: rest) =
              Slot.nav (.obj (dictInsert es "children" (.arr (stubsSpec l))))
                l.length :: slotsRestub rest by
            simp [slotsRestub, hn, hl, jsetObj]]
          rw [show flatSpec (JVal.obj es :: rest) = l ++ flatSpec rest by
            rw [flatSpec, if_pos hn, hl]]
          rw [List.map_append, rebuildSlots]
          rw [show jindex (JVal.obj (dictInsert es "children"
              (.arr (stubsSpec l)))) "children" = .ok (.arr (stubsSpec l)) by
            simp [jindex, jlookup_dictInsert_self]]
          have htake : (l.map fullOf ++ (flatSpec rest).map fullOf).take
              l.length = l.map fullOf := by
            rw [show l.length = (l.map fullOf).length by simp]
            exact List.take_left _ _
          have hdrop : (l.map fullOf ++ (flatSpec rest).map fullOf).drop
              l.length = (flatSpec rest).map fullOf := by
            rw [show l.length = (l.map fullOf).length by simp]
            exact List.drop_left _ _
          rw [List.map_cons]
          rw [show restoreChild (JVal.obj es) =
              .obj (dictInsert es "children" (.arr (l.map fullOf))) by
            simp [restoreChild, hn, hl, jsetObj]]
          simp only [jsetObj, htake, hdrop, dictInsert_dictInsert,
            rebuildSlots_spec rest h.2]
    | false =>
      rw [show slotsRestub (JVal.obj es :: rest) =
          Slot.single :: slotsRestub rest by simp [slotsRestub, hn]]
      rw [show flatSpec (JVal.obj es :: rest) = JVal.obj es :: flatSpec rest by
        rw [flatSpec, if_neg (by simp [hn])]; rfl]
      rw [List.map_cons, rebuildSlots, List.map_cons,
        rebuildSlots_spec rest h.2]
      rw [show restoreChild (JVal.obj es) = fullOf (JVal.obj es) by
        simp [restoreChild, hn]]

theorem deepWFList_append : ∀ (a b : List JVal),
    deepWFList (a ++ b) = (deepWFList a && deepWFList b)
  | [], b => by simp [deepWFList]
  | v :: rest, b => by
    rw [List.cons_append, deepWFList, deepWFList,
      deepWFList_append rest b, Bool.and_assoc]

theorem deepWFList_flatSpec : ∀ (children : List JVal),
    children.all wfChildNode = true → deepWFList children = true →
    deepWFList (flatSpec children) = true
  | [], _, _ => rfl
  | c :: rest, h, hdw => by
    rw [List.all_cons, Bool.and_eq_true] at h
    rw [deepWFList, Bool.and_eq_true] at hdw
    rw [flatSpec, deepWFList_append, Bool.and_eq_true]
    refine ⟨?_, deepWFList_flatSpec rest h.2 hdw.2⟩
    cases hn : isNavB c with
    | true =>
      rw [if_pos rfl]
      obtain ⟨es, t, hc, ht, hnav⟩ := wfChildNode_type h.1
      subst hc
      have hwf := h.1
      rw [wfChildNode, Bool.and_eq_true, hn, if_pos rfl, Bool.and_eq_true] at hwf
      cases hch : jlookup es "children" with
      | none =>
        rw [hch] at hwf
        exact absurd hwf.2.2 (by simp)
      | some chv =>
        rw [hch] at hwf
        match chv, hwf with
        | .arr l, hwf =>
          rw [show navChildren (.obj es) = l by rw [navChildren, hch]]
          have := deepWF_jlookup hdw.1 hch
          rwa [deepWF] at this
    | false =>
      rw [if_neg (by simp)]
      rw [deepWFList, deepWFList, Bool.and_true]
      exact hdw.1

theorem pyEq_dictInsert_level {es : List (String × JVal)} {k : String}
    {vnew vold : JVal} (hwf : deepWF (.obj es) = true)
    (hold : jlookup es k = some vold) (hpe : pyEq vnew vold = true) :
    pyEq (.obj (dictInsert es k vnew)) (.obj es) = true := by
  rw [deepWF, Bool.and_eq_true] at hwf
  refine pyEq_objs (fun p hp => ?_) (fun q hq => ?_)
  · rcases mem_dictInsert_nodup hwf.1 hp with h | h
    · subst h
      exact ⟨vold, hold, hpe⟩
    · obtain ⟨hmem, hne⟩ := h
      exact ⟨p.2, mem_jlookup hmem hwf.1,
        pyEq_refl p.2 (deepWFEntries_mem hwf.2 hmem)⟩
  · rw [hasKeyB_dictInsert, Bool.or_eq_true]
    exact Or.inr (hasKeyB_of_mem hq)

theorem pyEq_restoreChild {c : JVal} (h : wfChildNode c = true)
    (hdw : deepWF c = true) : pyEq (restoreChild c) c = true := by
  cases hn : isNavB c with
  | false =>
    rw [show restoreChild c = fullOf c by simp [restoreChild, hn]]
    obtain ⟨es, t, hc, ht, hnav⟩ := wfChildNode_type h
    subst hc
    have hwf := h
    rw [wfChildNode, Bool.and_eq_true, hn, if_neg (by simp)] at hwf
    exact pyEq_fullOf hdw hwf.2
  | true =>
    obtain ⟨es, t, hc, ht, hnav⟩ := wfChildNode_type h
    subst hc
    have hwf := h
    rw [wfChildNode, Bool.and_eq_true, hn, if_pos rfl, Bool.and_eq_true] at hwf
    cases hch : jlookup es "children" with
    | none =>
      rw [hch] at hwf
      exact absurd hwf.2.2 (by simp)
    | some chv =>
      rw [hch] at hwf
      match chv, hwf with
      | .arr l, hwf =>
        have hl : navChildren (.obj es) = l := by rw [navChildren, hch]
        rw [show restoreChild (JVal.obj es) =
            .obj (dictInsert es "children" (.arr (l.map fullOf))) by
          simp [restoreChild, hn, hl, jsetObj]]
        have hdwl : deepWFList l = true := by
          have := deepWF_jlookup hdw hch
          rwa [deepWF] at this
        refine pyEq_dictInsert_level hdw hch ?_
        rw [pyEq]
        refine pyEqList_map fullOf l (fun s hs => ?_)
        exact pyEq_fullOf (deepWFList_mem hdwl hs)
          (List.all_eq_true.mp hwf.2.2 s hs)

theorem pyEq_ies_level {ies ces bes : List (String × JVal)} {X : JVal}
    (hwfies : deepWF (.obj ies) = true)
    (hcomp : jlookup ies "components" = some (.obj ces))
    (hblk : jlookup ies "blockly" = some (.obj bes))
    (hpe : pyEq X (.obj ces) = true) :
    pyEq (.obj (dictInsert (dictInsert ies "components" X) "blockly"
      (.obj bes))) (.obj ies) = true := by
  have hwfbes : deepWF (.obj bes) = true := deepWF_jlookup hwfies hblk
  rw [deepWF, Bool.and_eq_true] at hwfies
  have hnodup1 := nodupKeysB_dictInsert ies "components" X hwfies.1
  refine pyEq_objs (fun p hp => ?_) (fun q hq => ?_)
  · rcases mem_dictInsert_nodup hnodup1 hp with h | h
    · subst h
      exact ⟨.obj bes, hblk, pyEq_refl _ hwfbes⟩
    · obtain ⟨hmem, hne⟩ := h
      rcases mem_dictInsert_nodup hwfies.1 hmem with h2 | h2
      · subst h2
        exact ⟨.obj ces, hcomp, hpe⟩
      · obtain ⟨hmem2, hne2⟩ := h2
        exact ⟨p.2, mem_jlookup hmem2 hwfies.1,
          pyEq_refl p.2 (deepWFEntries_mem hwfies.2 hmem2)⟩
  · rw [hasKeyB_dictInsert, hasKeyB_dictInsert, Bool.or_eq_true,
      Bool.or_eq_true]
    exact Or.inr (Or.inr (hasKeyB_of_mem hq))

theorem pyEq_mergedSpec (pes des ies ces bes : List (String × JVal))
    (children : List JVal)
    (hd : jlookup pes "data" = some (.obj des))
    (hip : jlookup des "project" = some (.obj ies))
    (hcomp : jlookup ies "components" = some (.obj ces))
    (hch : jlookup ces "children" = some (.arr children))
    (hblk : jlookup ies "blockly" = some (.obj bes))
    (hwfc : children.all wfChildNode = true)
    (hwf : deepWF (.obj pes) = true) :
    pyEq (mergedSpec pes des ies ces children bes) (.obj pes) = true := by
  have hwfdes : deepWF (.obj des) = true := deepWF_jlookup hwf hd
  have hwfies : deepWF (.obj ies) = true := deepWF_jlookup hwfdes hip
  have hwfces : deepWF (.obj ces) = true := deepWF_jlookup hwfies hcomp
  have hdwch : deepWFList children = true := by
    have := deepWF_jlookup hwfces hch
    rwa [deepWF] at this
  have hlevel_ces :
      pyEq (.obj (dictInsert ces "children" (.arr (children.map restoreChild))))
        (.obj ces) = true := by
    refine pyEq_dictInsert_level hwfces hch ?_
    rw [pyEq]
    exact pyEqList_map restoreChild children (fun c hc =>
      pyEq_restoreChild (List.all_eq_true.mp hwfc c hc) (deepWFList_mem hdwch hc))
  have hlevel_ies := pyEq_ies_level hwfies hcomp hblk hlevel_ces
  have hlevel_des := pyEq_dictInsert_level hwfdes hip hlevel_ies
  rw [mergedSpec]
  exact pyEq_dictInsert_level hwf hd hlevel_des

theorem merge_of_split (pes des ies ces bes : List (String × JVal))
    (children : List JVal)
    (hd : jlookup pes "data" = some (.obj des))
    (hip : jlookup des "project" = some (.obj ies))
    (hcomp : jlookup ies "components" = some (.obj ces))
    (hch : jlookup ces "children" = some (.arr children))
    (hblk : jlookup ies "blockly" = some (.obj bes))
    (hwfc : children.all wfChildNode = true)
    (hwf : deepWF (.obj pes) = true)
    (hids : nodupStrB ((flatSpec children).map screenId) = true)
    (hbes : bes.all (fun p => entryIsObj p.2) = true) :
    fromModularProject (modularSpec pes des ies ces children bes) =
      .ok (mergedSpec pes des ies ces children bes) := by
  have hwfs := flatSpec_wfScreen children hwfc
  have hmg : ∀ k n, jdictGet (idMapSpec (flatSpec children) [])
      (JVal.str k) = some n →
      dotFree n.toList = true ∧ dotFree k.toList = true :=
    fun k n h => idMapSpec_good hwfs h
  have hwfdes : deepWF (.obj des) = true := deepWF_jlookup hwf hd
  have hwfies : deepWF (.obj ies) = true := deepWF_jlookup hwfdes hip
  have hwfces : deepWF (.obj ces) = true := deepWF_jlookup hwfies hcomp
  have hwfbes : deepWF (.obj bes) = true := deepWF_jlookup hwfies hblk
  have hbn : nodupKeysB bes = true := by
    rw [deepWF, Bool.and_eq_true] at hwfbes
    exact hwfbes.1
  have hdwch : deepWFList children = true := by
    have := deepWF_jlookup hwfces hch
    rwa [deepWF] at this
  have hdwflat := deepWFList_flatSpec children hwfc hdwch
  rw [modularSpec_append pes des ies ces bes children hwfs hids hbn]
  have hmabs := @meta_key_absent (flatSpec children) bes
    (idMapSpec (flatSpec children) []) hwfs hmg
  unfold fromModularProject
  rw [show jlookup ((jsonFilesSpec (flatSpec children) ++
      xmlFilesSpec (idMapSpec (flatSpec children) []) bes) ++
      [("meta.json", metaSpec pes des ies ces children bes)]) "meta.json" =
      some (metaSpec pes des ies ces children bes) by
    rw [jlookup_append_absent _ _ _ hmabs, jlookup, if_pos rfl]]
  simp only [Bind.bind, Except.bind]
  rw [dictRemove_append_absent _ _ _ hmabs]
  rw [show jindex (metaSpec pes des ies ces children bes) "data" = .ok (.obj
      (dictInsert des "project" (.obj (dictInsert (dictInsert ies "components"
        (.obj (dictInsert ces "children" (.arr (restubSpec children)))))
        "blockly"
        (.obj (blankEntries (idMapSpec (flatSpec children) []) bes)))))) by
    rw [metaSpec]
    simp [jindex, jlookup_dictInsert_self]]
  simp only [Except.bind]
  rw [show jindex (JVal.obj (dictInsert des "project" (.obj (dictInsert
      (dictInsert ies "components" (.obj (dictInsert ces "children"
        (.arr (restubSpec children))))) "blockly"
      (.obj (blankEntries (idMapSpec (flatSpec children) []) bes))))))
      "project" = .ok (.obj (dictInsert (dictInsert ies "components"
        (.obj (dictInsert ces "children" (.arr (restubSpec children)))))
        "blockly"
        (.obj (blankEntries (idMapSpec (flatSpec children) []) bes)))) by
    simp [jindex, jlookup_dictInsert_self]]
  simp only [Except.bind]
  rw [show jindex (JVal.obj (dictInsert (dictInsert ies "components"
      (.obj (dictInsert ces "children" (.arr (restubSpec children)))))
      "blockly" (.obj (blankEntries (idMapSpec (flatSpec children) []) bes))))
      "components" =
      .ok (.obj (dictInsert ces "children" (.arr (restubSpec children)))) by
    simp [jindex, jlookup_dictInsert, jlookup_dictInsert_self]]
  simp only [Except.bind]
  rw [show jindex (JVal.obj (dictInsert ces "children"
      (.arr (restubSpec children)))) "children" =
      .ok (.arr (restubSpec children)) by
    simp [jindex, jlookup_dictInsert_self]]
  simp only [Except.bind, iterableElems]
  rw [flattenMerge_restub children hwfc]
  simp only [Except.bind]
  rw [show jget (JVal.obj (dictInsert (dictInsert ies "components"
      (.obj (dictInsert ces "children" (.arr (restubSpec children)))))
      "blockly" (.obj (blankEntries (idMapSpec (flatSpec children) []) bes))))
      "blockly" =
      some (.obj (blankEntries (idMapSpec (flatSpec children) []) bes)) by
    simp [jget, jlookup_dictInsert_self]]
  rw [List.foldlM_append]
  have hj := jsonFold (flatSpec children) []
    (some (.obj (blankEntries (idMapSpec (flatSpec children) []) bes)))
    hwfs hdwflat hids (fun d hd' => absurd hd' (List.not_mem_nil d))
  rw [List.nil_append, List.nil_append] at hj
  rw [hj]
  simp only [Bind.bind, Except.bind]
  have hx := xmlFold bes [] (idMapSpec (flatSpec children) [])
    ((flatSpec children).map fullOf) hbes (by rw [List.nil_append]; exact hbn)
    hmg
  rw [List.nil_append, List.nil_append] at hx
  rw [hx]
  simp only [Bind.bind, Except.bind]
  rw [rebuildSlots_spec children hwfc]
  simp only [jsetObj, dictInsert_dictInsert]
  rw [dictInsert_present_comm
    (dictInsert ies "components" (JVal.obj (dictInsert ces "children"
      (JVal.arr (restubSpec children)))))
    "components" "blockly"
    (JVal.obj (dictInsert ces "children" (JVal.arr (children.map restoreChild))))
    (JVal.obj (blankEntries (idMapSpec (flatSpec children) []) bes))
    (by rw [hasKeyB_dictInsert]; simp) (by decide)]
  simp only [dictInsert_dictInsert]
  rw [mergedSpec, metaSpec]
  simp only [dictInsert_dictInsert]

/-- No orphaned markup: every `blockly` entry with a non-empty `xml` string
belongs to a flattened screen id (the claim's hypothesis). -/
def orphanFreeB (bes : List (String × JVal)) (ids : List String) : Bool :=
  bes.all (fun p => decide (p.1 ∈ ids) ||
    (match jget p.2 "xml" with
      | some (.str x) => x == ""
      | some _ => false
      | none => true))

/-- **C1.** (Corrected.)  Round trip `merge(split(P))`.  As stated in the
spec the law is false: split never reads a navigator's `name`, but merge
only splices nodes that have one, so a nameless navigator (allowed by the
spec's hypotheses of valid screen names and no orphaned markup) makes
`merge(split(P))` abort (see the counterexample).  Amended statement: for a
document whose spine is present, whose children are well formed (navigators
carry a `name`; screens have a valid-character `name` and a plain `id`),
whose flattened screen ids are pairwise distinct and whose `blockly`
entries are dicts, `merge(split(P))` succeeds and its result is Python-==
to `P` (screen dicts are rebuilt with `id` first, so equality is up to key
order; orphaned markup is retained through `meta.json`, so no orphan
hypothesis is needed). -/
theorem C1_round_trip (pes des ies ces bes : List (String × JVal))
    (children : List JVal)
    (hd : jlookup pes "data" = some (.obj des))
    (hip : jlookup des "project" = some (.obj ies))
    (hcomp : jlookup ies "components" = some (.obj ces))
    (hch : jlookup ces "children" = some (.arr children))
    (hblk : jlookup ies "blockly" = some (.obj bes))
    (hwfc : children.all wfChildNode = true)
    (hwf : deepWF (.obj pes) = true)
    (hids : nodupStrB ((flatSpec children).map screenId) = true)
    (hbes : bes.all (fun p => entryIsObj p.2) = true) :
    (toModularProject (.obj pes) >>= fromModularProject) =
      .ok (mergedSpec pes des ies ces children bes) ∧
    pyEq (mergedSpec pes des ies ces children bes) (.obj pes) = true := by
  constructor
  · rw [toModularProject_wf pes des ies ces bes children hd hip hcomp hch hblk
      hwfc hbes]
    simp only [Bind.bind, Except.bind]
    exact merge_of_split pes des ies ces bes children hd hip hcomp hch hblk
      hwfc hwf hids hbes
  · exact pyEq_mergedSpec pes des ies ces bes children hd hip hcomp hch hblk
      hwfc hwf

def C1xS : JVal := .obj [("name", .str "Home"), ("id", .str "s1")]

def C1xNav : JVal :=
  .obj [("type", .str "StackNavigator"), ("children", .arr [C1xS])]

def C1xBes : List (String × JVal) := [("s1", .obj [("xml", .str "<b/>")])]

def C1xCes : List (String × JVal) := [("children", .arr [C1xNav])]

def C1xIes : List (String × JVal) :=
  [("components", .obj C1xCes), ("blockly", .obj C1xBes)]

def C1xDes : List (String × JVal) := [("project", .obj C1xIes)]

def C1xPes : List (String × JVal) := [("data", .obj C1xDes)]

/-- **C1, counterexample to the spec's statement.**  A document with a
nameless navigator wrapping one valid screen: every flattened screen name
matches `^[\w\- ]+$` and the blockly markup is not orphaned, yet
`merge(split(P))` aborts — split splices the nameless navigator, merge
keeps its stubbed node whole and then fails to find an `id` in it while
applying the screen's `.json` file. -/
theorem C1_round_trip_counterexample :
    (flatSpec [C1xNav]).all (fun s => specValidName (screenName s)) = true ∧
    orphanFreeB C1xBes ((flatSpec [C1xNav]).map screenId) = true ∧
    (toModularProject (.obj C1xPes) >>= fromModularProject) =
      .error Err.lookupError := by
  refine ⟨by decide, by decide, ?_⟩
  rfl

def C1wS1 : JVal :=
  .obj [("name", .str "Main"), ("id", .str "m1"), ("code", .str "x")]

def C1wNav : JVal :=
  .obj [("type", .str "StackNavigator"), ("name", .str "Nav"),
    ("children", .arr [C1wS1])]

def C1wS2 : JVal :=
  .obj [("name", .str "Other"), ("id", .str "m2"), ("type", .str "Screen")]

def C1wBes : List (String × JVal) :=
  [("m1", .obj [("xml", .str "<x/>")]), ("orph", .obj [("xml", .str "o")])]

def C1wCes : List (String × JVal) := [("children", .arr [C1wNav, C1wS2])]

def C1wIes : List (String × JVal) :=
  [("components", .obj C1wCes), ("blockly", .obj C1wBes)]

def C1wDes : List (String × JVal) := [("project", .obj C1wIes)]

def C1wPes : List (String × JVal) := [("data", .obj C1wDes)]

theorem C1_round_trip_witness :
    (toModularProject (.obj C1wPes) >>= fromModularProject) =
      .ok (mergedSpec C1wPes C1wDes C1wIes C1wCes [C1wNav, C1wS2] C1wBes) ∧
    pyEq (mergedSpec C1wPes C1wDes C1wIes C1wCes [C1wNav, C1wS2] C1wBes)
      (.obj C1wPes) = true :=
  C1_round_trip C1wPes C1wDes C1wIes C1wCes C1wBes [C1wNav, C1wS2]
    rfl rfl rfl rfl rfl (by decide) (by decide) (by decide) (by decide)
